import Mathlib

/-!
# Completion and resolution engine of the ripple shell

A shallow embedding of the interactive completion code of
`src/ollama_integration.c` and `src/shell2_complete.c`, and theorems about it.

Conventions of the embedding.

* A C string is the list of its characters before the terminating NUL
  (`CStr`).  Pointer arguments are non-null at every call site of the
  program, so the `!ptr` guards of the C functions are not represented.
* `snprintf(dst, size, "%s", s)` leaves the first `size - 1` characters of
  `s` in `dst` (`snprintf_s`).
* A function that writes through an `out` pointer returns the pair of its
  return code and the string held by `out` afterwards.
* `tolower` is the one of the "C" locale (the program never calls
  `setlocale`): it maps `A..Z` to `a..z` and nothing else.
* `malloc`, `strdup` and `realloc` are taken to succeed.
* What a function prints is modelled only where a statement is about it
  (`print_match_list`); what leaves the process (HTTP request, subprocess) is
  recorded in the `calls` of a `Run`.
-/

/-! ## Strings -/

/-- C string: the characters before the terminating NUL. -/
abbrev CStr := List Char

/-- What `snprintf(dst, size, "%s", s)` leaves in `dst` when `size > 0`:
the string `s` cut to `size - 1` characters. -/
def snprintf_s (size : Nat) (s : CStr) : CStr := s.take (size - 1)

/-- The `tolower` of the "C" locale on one character. -/
def tolower (c : Char) : Char := c.toLower

/-- `starts_with_icase(s, prefix)`, ollama_integration.c:307. -/
def starts_with_icase : CStr → CStr → Bool
  | _, [] => true
  | [], _ :: _ => false
  | c :: s, p :: ps => if tolower c != tolower p then false else starts_with_icase s ps

/-- `starts_with(s, prefix)`, ollama_integration.c:504 (case-sensitive). -/
def starts_with : CStr → CStr → Bool
  | _, [] => true
  | [], _ :: _ => false
  | c :: s, p :: ps => if c != p then false else starts_with s ps

/-! ## The built-in catalogue -/

/-- One record of `BUILTIN_HELP`.  Of the seven fields of the C struct the
completion code reads `name` and `summary`; the other five (`what`, `usage`,
`examples`, `common`, `related`) are display text read only by
`print_help_page` and are not carried here. -/
structure BuiltinHelp where
  name : CStr
  summary : CStr
deriving DecidableEq, Repr

/-- `BUILTIN_HELP`, ollama_integration.c:67, in source order. -/
def BUILTIN_HELP : List BuiltinHelp :=
  [ ⟨"cd".toList, "Change directory (move between folders)".toList⟩,
    ⟨"help".toList, "Show available built-in commands".toList⟩,
    ⟨"exit".toList, "Exit the shell".toList⟩,
    ⟨"bg".toList, "Run a command in the background".toList⟩,
    ⟨"history".toList, "Show command history".toList⟩,
    ⟨"clear".toList, "Clear the screen".toList⟩,
    ⟨"echo".toList, "Print text".toList⟩,
    ⟨"pwd".toList, "Print working directory".toList⟩,
    ⟨"ls".toList, "List directory contents".toList⟩,
    ⟨"version".toList, "Show shell version".toList⟩,
    ⟨"calc".toList, "Simple calculator".toList⟩,
    ⟨"datetime".toList, "Show date and time".toList⟩,
    ⟨"count".toList, "Count files and directories".toList⟩,
    ⟨"find".toList, "Find files by name pattern".toList⟩,
    ⟨"cat".toList, "Print a file to the screen".toList⟩,
    ⟨"tree".toList, "Show directory tree".toList⟩,
    ⟨"mkdir".toList, "Create a directory".toList⟩,
    ⟨"touch".toList, "Create an empty file".toList⟩,
    ⟨"rm".toList, "Remove a file".toList⟩,
    ⟨"whoami".toList, "Show current user".toList⟩ ]

/-- The names of the catalogue, in catalogue order. -/
def builtin_names : List CStr := BUILTIN_HELP.map BuiltinHelp.name

/-- `find_help_exact_icase(name)`, ollama_integration.c:318: the first record
whose name has the length of `name` and starts with it ignoring case. -/
def find_help_exact_icase (name : CStr) : Option BuiltinHelp :=
  BUILTIN_HELP.find? (fun h => h.name.length == name.length && starts_with_icase h.name name)

/-- The counting loop of `complete_builtin_command` (lines 487-494), run over
a table: the state is `(match_count, single)`. -/
def count_matches (table : List BuiltinHelp) (partial_cmd : CStr) : Nat × Option BuiltinHelp :=
  table.foldl
    (fun st h => if starts_with_icase h.name partial_cmd then (st.1 + 1, some h) else st)
    (0, none)

/-- `complete_builtin_command(partial_cmd, out, out_sz)`,
ollama_integration.c:476.  `out` is the content of the output buffer before
the call; the result is the return code and the content afterwards. -/
def complete_builtin_command (partial_cmd : CStr) (out : CStr) (out_sz : Nat) : Int × CStr :=
  if out_sz = 0 then (0, out)
  else if partial_cmd = [] then (0, [])
  else
    match find_help_exact_icase partial_cmd with
    | some exact => (1, snprintf_s out_sz exact.name)
    | none =>
      match count_matches BUILTIN_HELP partial_cmd with
      | (match_count, some single) =>
        if match_count = 1 then (1, snprintf_s out_sz single.name)
        else if match_count > 1 then (2, [])
        else (0, [])
      | (match_count, none) =>
        if match_count > 1 then (2, []) else (0, [])

/-- One printed line of the candidate list: `printf("  %-8s - %s\n", name,
summary)`, the name left-justified in a field of width 8. -/
def match_line (h : BuiltinHelp) : CStr :=
  "  ".toList ++ h.name ++ List.replicate (8 - h.name.length) ' ' ++ " - ".toList ++ h.summary

/-- The records that `print_match_list(partial_cmd)` (ollama_integration.c:346)
prints, in the order it prints them. -/
def print_match_list_entries (partial_cmd : CStr) : List BuiltinHelp :=
  BUILTIN_HELP.filter (fun h => partial_cmd.isEmpty || starts_with_icase h.name partial_cmd)

/-- `print_match_list(partial_cmd)`, ollama_integration.c:346: the lines
written to standard output. -/
def print_match_list (partial_cmd : CStr) : List CStr :=
  [ "Possible commands for '".toList ++ partial_cmd ++ "':".toList ]
  ++ (print_match_list_entries partial_cmd).map match_line
  ++ [ [], "Tip: keep typing to narrow it down, then press TAB again for detailed help.".toList ]

/-! ## External candidates: the tie-break -/

/-- `has_hyphen_or_digit(s)`, ollama_integration.c:404: 1 when `s` holds a
hyphen or a decimal digit, else 0. -/
def has_hyphen_or_digit : CStr → Nat
  | [] => 0
  | c :: t => if c = '-' ∨ ('0' ≤ c ∧ c ≤ '9') then 1 else has_hyphen_or_digit t

/-- The loop variables of `pick_best_external_candidate`. -/
structure PickState where
  best : Nat
  best_bad : Nat
  best_len : Nat
  tie : Bool
deriving DecidableEq, Repr

/-- One iteration of the loop of `pick_best_external_candidate` (lines
423-435) at index `i`, where `name` is `names[i]`. -/
def pick_step (st : PickState) (i : Nat) (name : CStr) : PickState :=
  let bad := has_hyphen_or_digit name
  let len := name.length
  if bad < st.best_bad then
    { best := i, best_bad := bad, best_len := len, tie := false }
  else if bad = st.best_bad then
    if len < st.best_len then
      { st with best := i, best_len := len, tie := false }
    else if len = st.best_len then
      { st with tie := true }
    else st
  else st

/-- The loop `for (i = ...; i < n; i++)` of `pick_best_external_candidate`
over the names from index `i` on. -/
def pick_loop : PickState → Nat → List CStr → PickState
  | st, _, [] => st
  | st, i, name :: rest => pick_loop (pick_step st i name) (i + 1) rest

/-- `pick_best_external_candidate(names, n)`, ollama_integration.c:414, with
`n` the length of the list: the index of the best candidate, or -1. -/
def pick_best_external_candidate (names : List CStr) : Int :=
  match names with
  | [] => -1
  | first :: rest =>
    let st := pick_loop
      { best := 0, best_bad := has_hyphen_or_digit first, best_len := first.length, tie := false }
      1 rest
    if st.tie then -1 else (st.best : Int)

/-- The order of the tie-break: `a` is strictly better than `b` when it has
no hyphen or digit and `b` has one, or when both agree on that and `a` is
shorter. -/
def strictly_better (a b : CStr) : Prop :=
  has_hyphen_or_digit a < has_hyphen_or_digit b
  ∨ (has_hyphen_or_digit a = has_hyphen_or_digit b ∧ a.length < b.length)

instance (a b : CStr) : Decidable (strictly_better a b) := by
  unfold strictly_better
  exact inferInstance

/-- Two candidates of equal rank: same hyphen-or-digit status, same length. -/
def same_rank (a b : CStr) : Prop :=
  has_hyphen_or_digit a = has_hyphen_or_digit b ∧ a.length = b.length

instance (a b : CStr) : Decidable (same_rank a b) := by
  unfold same_rank
  exact inferInstance

/-- The string holds a hyphen or a decimal digit. -/
def contains_hyphen_or_digit (s : CStr) : Prop :=
  ∃ c ∈ s, c = '-' ∨ c.isDigit = true

/-! ## The search path -/

/-- The tokens that successive `strtok` / `strtok_r` calls return for the
string `s`: the maximal runs of non-delimiter characters.  `cur` is the token
being read. -/
def strtok_aux (delims : List Char) : CStr → CStr → List CStr
  | [], cur => if cur = [] then [] else [cur]
  | c :: t, cur =>
    if c ∈ delims then
      (if cur = [] then strtok_aux delims t [] else cur :: strtok_aux delims t [])
    else strtok_aux delims t (cur ++ [c])

/-- All tokens of `s` for the delimiter set `delims`. -/
def strtok_tokens (delims : List Char) (s : CStr) : List CStr := strtok_aux delims s []

/-- What the completion code reads of its environment: the `PATH` variable,
the directory listings and the executable bits. -/
structure Env where
  /-- Result of `getenv("PATH")`, `none` for NULL. -/
  PATH : Option CStr
  /-- Result of `opendir(dir_path)` followed by `readdir` to the end: the
  `d_name` of every entry in the order returned, `none` when `opendir`
  fails. -/
  opendir : CStr → Option (List CStr)
  /-- Whether `access(path, X_OK) == 0`. -/
  access_x : CStr → Bool

/-- `is_duplicate_name(name, names, count)`, ollama_integration.c:356, with
`count` the length of `names`. -/
def is_duplicate_name (name : CStr) (names : List CStr) : Bool :=
  names.any (fun n => n == name)

/-- The path `full` built by `snprintf(full, sizeof(full), "%s/%s", dir_path,
name)` with `char full[1024]`. -/
def full_path (dir_path name : CStr) : CStr := snprintf_s 1024 (dir_path ++ '/' :: name)

/-- The inner loop of `collect_path_executables_with_prefix` (lines 379-394)
over the entries of one directory; `names` holds the `count` names collected
so far. -/
def scan_dir (env : Env) (pfx : CStr) (max_names : Nat) (dir_path : CStr) :
    List CStr → List CStr → List CStr
  | [], names => names
  | name :: ents, names =>
    if ¬ names.length < max_names then names
    else if name.head? = some '.' then scan_dir env pfx max_names dir_path ents names
    else if ¬ starts_with_icase name pfx then scan_dir env pfx max_names dir_path ents names
    else if ¬ env.access_x (full_path dir_path name) then
      scan_dir env pfx max_names dir_path ents names
    else if is_duplicate_name name names then scan_dir env pfx max_names dir_path ents names
    else scan_dir env pfx max_names dir_path ents (names ++ [snprintf_s 256 name])

/-- The outer loop of `collect_path_executables_with_prefix` (lines 375-398)
over the directories of the search path. -/
def scan_path (env : Env) (pfx : CStr) (max_names : Nat) : List CStr → List CStr → List CStr
  | [], names => names
  | dir_path :: dirs, names =>
    if ¬ names.length < max_names then names
    else
      match env.opendir dir_path with
      | some ents =>
        scan_path env pfx max_names dirs (scan_dir env pfx max_names dir_path ents names)
      | none => scan_path env pfx max_names dirs names

/-- `collect_path_executables_with_prefix(prefix, names, max_names)`,
ollama_integration.c:363: the names stored in `names[0 .. count)`; the return
value `count` is the length of the list. -/
def collect_path_executables_with_prefix (env : Env) (pfx : CStr) (max_names : Nat) :
    List CStr :=
  if pfx = [] then []
  else
    match env.PATH with
    | none => []
    | some path_env =>
      if path_env = [] then []
      else scan_path env pfx max_names (strtok_tokens [':'] path_env) []

/-- The entries of directory `dir_path` that qualify as candidates for the
prefix `pfx`: not a dotfile, starting with `pfx` ignoring case, executable. -/
def dir_candidates (env : Env) (pfx : CStr) (dir_path : CStr) : List CStr :=
  match env.opendir dir_path with
  | some ents =>
    ents.filter (fun name =>
      !(name.head? == some '.') && starts_with_icase name pfx
        && env.access_x (full_path dir_path name))
  | none => []

/-- All qualifying entries of the search path, directory after directory in
search-path order, with repetitions. -/
def path_candidates (env : Env) (pfx : CStr) : List CStr :=
  match env.PATH with
  | none => []
  | some path_env => (strtok_tokens [':'] path_env).flatMap (dir_candidates env pfx)

/-- The list `l` with every element kept at its first occurrence only. -/
def first_occurrences (l : List CStr) : List CStr := l.reverse.dedup.reverse

/-- The de-duplicating, bounded accumulation that the two loops of
`collect_path_executables_with_prefix` perform on the qualifying entries. -/
def add_candidates (max_names : Nat) : List CStr → List CStr → List CStr
  | [], names => names
  | name :: rest, names =>
    if ¬ names.length < max_names then names
    else if name ∈ names then add_candidates max_names rest names
    else add_candidates max_names rest (names ++ [name])

/-- Every directory entry name is shorter than 256 bytes, so that it fits a
slot of `names[][256]` whole. -/
def dirent_names_fit (env : Env) : Prop :=
  ∀ dir_path ents, env.opendir dir_path = some ents → ∀ name ∈ ents, name.length < 256

/-- Index of the first occurrence of `x` in `l` (the length of `l` when `x`
does not occur). -/
def first_index (x : CStr) : List CStr → Nat
  | [] => 0
  | y :: t => if y = x then 0 else first_index x t + 1

/-- A search path of two directories that both hold an executable `gcc`. -/
def env_two_dirs : Env where
  PATH := some "/a:/b".toList
  opendir := fun d =>
    if d = "/a".toList then some ["gcc".toList, "gcov".toList]
    else if d = "/b".toList then some ["gcc".toList, "gdb".toList]
    else none
  access_x := fun _ => true

/-- A search path of two directories that both hold one executable whose name
has 256 letters `g`, one more than a slot of `names[][256]` can keep. -/
def env_long_entry : Env where
  PATH := some "/a:/b".toList
  opendir := fun d =>
    if d = "/a".toList ∨ d = "/b".toList then some [List.replicate 256 'g'] else none
  access_x := fun _ => true

/-! ## External command and argument completion -/

/-- `complete_external_command(partial_cmd, out, out_sz)`,
ollama_integration.c:445, with `char names[32][256]`. -/
def complete_external_command (env : Env) (partial_cmd : CStr) (out : CStr) (out_sz : Nat) :
    Int × CStr :=
  if out_sz = 0 then (0, out)
  else if partial_cmd = [] then (0, [])
  else if partial_cmd.any (fun c => c == ' ' || c == '\t') then (0, [])
  else
    let names := collect_path_executables_with_prefix env partial_cmd 32
    let n := names.length
    if n = 1 then (1, snprintf_s out_sz (names.getD 0 []))
    else if n > 1 then
      let best := pick_best_external_candidate names
      if best ≥ 0 then (1, snprintf_s out_sz (names.getD best.toNat []))
      else (2, [])
    else (0, [])

/-- One record of `GCC_FLAGS`. -/
structure FlagHelp where
  flag : CStr
  desc : CStr
deriving DecidableEq, Repr

/-- `GCC_FLAGS`, ollama_integration.c:40, in source order. -/
def GCC_FLAGS : List FlagHelp :=
  [ ⟨"--help".toList, "Show help".toList⟩,
    ⟨"--version".toList, "Print GCC version".toList⟩,
    ⟨"-v".toList, "Verbose compiler output".toList⟩,
    ⟨"-Wall".toList, "Enable common warnings".toList⟩,
    ⟨"-Wextra".toList, "Enable extra warnings".toList⟩,
    ⟨"-Werror".toList, "Treat warnings as errors".toList⟩,
    ⟨"-g".toList, "Include debug symbols".toList⟩,
    ⟨"-O0".toList, "No optimization".toList⟩,
    ⟨"-O1".toList, "Optimize".toList⟩,
    ⟨"-O2".toList, "More optimization".toList⟩,
    ⟨"-O3".toList, "Max optimization".toList⟩,
    ⟨"-c".toList, "Compile only (produce .o, do not link)".toList⟩,
    ⟨"-o".toList, "Set output file name (next arg)".toList⟩,
    ⟨"-I".toList, "Add include directory (next arg)".toList⟩,
    ⟨"-L".toList, "Add library directory (next arg)".toList⟩,
    ⟨"-l".toList, "Link library (next arg, e.g. -lm)".toList⟩,
    ⟨"-std=c11".toList, "Use C11 standard".toList⟩,
    ⟨"-std=c17".toList, "Use C17 standard".toList⟩,
    ⟨"-E".toList, "Preprocess only".toList⟩,
    ⟨"-S".toList, "Compile to assembly (.s)".toList⟩,
    ⟨"-MMD".toList, "Generate dependency file for make".toList⟩,
    ⟨"-MP".toList, "Add phony targets for deps".toList⟩,
    ⟨"-fsanitize=address".toList, "Address sanitizer (debug memory bugs)".toList⟩,
    ⟨"-pthread".toList, "Enable pthreads (compile+link)".toList⟩ ]

/-- The loop of `collect_flag_matches` (lines 517-521): `acc` is `out[0 .. n)`. -/
def collect_flag_loop (partial_arg : CStr) (max_out : Nat) :
    List FlagHelp → List FlagHelp → List FlagHelp
  | [], acc => acc
  | f :: flags, acc =>
    if ¬ acc.length < max_out then acc
    else if partial_arg = [] ∨ starts_with f.flag partial_arg = true then
      collect_flag_loop partial_arg max_out flags (acc ++ [f])
    else collect_flag_loop partial_arg max_out flags acc

/-- `collect_flag_matches(flags, flags_n, partial, out, max_out)`,
ollama_integration.c:514: the records stored in `out[0 .. n)`; the return
value `n` is the length of the list. -/
def collect_flag_matches (flags : List FlagHelp) (partial_arg : CStr) (max_out : Nat) :
    List FlagHelp :=
  if max_out = 0 then [] else collect_flag_loop partial_arg max_out flags []

/-- `complete_external_arg(cmd, partial_arg, out, out_sz)`,
ollama_integration.c:525. -/
def complete_external_arg (cmd partial_arg : CStr) (out : CStr) (out_sz : Nat) : Int × CStr :=
  if out_sz = 0 then (0, out)
  else if cmd = [] then (0, [])
  else if cmd ≠ "gcc".toList then (0, [])
  else
    let found := collect_flag_matches GCC_FLAGS partial_arg 32
    let n := found.length
    if n = 1 then (1, snprintf_s out_sz ((found.map FlagHelp.flag).getD 0 []))
    else if n > 1 then (2, [])
    else (0, [])

/-! ## The line buffer and the tab key -/

/-- The line buffer of `ripple_read_line`: `buffer` holds the `position`
characters typed so far (`position` is its length) and `bufsize` is the
allocated capacity. -/
structure LineBuf where
  buffer : CStr
  bufsize : Nat
deriving DecidableEq, Repr

/-- `strrchr(s, c)` as an offset: the index of the last occurrence of `c` in
`s`, `none` when there is none. -/
def strrchr : CStr → Char → Option Nat
  | [], _ => none
  | x :: t, c =>
    match strrchr t c with
    | some i => some (i + 1)
    | none => if x = c then some 0 else none

/-- The first token `cmd` of the line as the argument branch of the tab
handler reads it (lines 889-895): the characters before the first space or
tab, at most 127 of them (`char cmd[128]`). -/
def first_token (buffer : CStr) : CStr :=
  (buffer.takeWhile (fun c => c != ' ' && c != '\t')).take 127

/-- The argument branch of the tab handler of `ripple_read_line` (lines
887-912); `last_space` is the offset found by `strrchr(buffer, ' ')`.  Only the
effect on the buffer is kept: `suggest_external_args` prints and changes
nothing. -/
def tab_argument (lb : LineBuf) (last_space : Nat) : LineBuf :=
  let cmd := first_token lb.buffer
  let arg_partial := lb.buffer.drop (last_space + 1)
  let r := complete_external_arg cmd arg_partial [] 128
  if r.1 = 1 ∧ r.2 ≠ [] then
    let prefix_len := last_space + 1
    if prefix_len < lb.bufsize then
      { lb with buffer := lb.buffer.take prefix_len ++ snprintf_s (lb.bufsize - prefix_len) r.2 }
    else lb
  else lb

/-- The command branch of the tab handler of `ripple_read_line` (lines
913-931).  Only the effect on the buffer is kept: `suggest_command` prints and
changes nothing. -/
def tab_command (env : Env) (lb : LineBuf) : LineBuf :=
  let r := complete_builtin_command lb.buffer [] 128
  if r.1 = 1 ∧ r.2 ≠ [] then
    { lb with buffer := snprintf_s lb.bufsize r.2 }
  else
    let e := complete_external_command env lb.buffer r.2 128
    if e.1 = 1 ∧ e.2 ≠ [] then
      { lb with buffer := snprintf_s lb.bufsize e.2 }
    else lb

/-- The tab event of `ripple_read_line` (lines 882-942): the line buffer after
the event. -/
def tab_event (env : Env) (lb : LineBuf) : LineBuf :=
  match strrchr lb.buffer ' ' with
  | some last_space => tab_argument lb last_space
  | none => tab_command env lb

/-- A search path with one directory whose only entry is an executable `cc`. -/
def env_only_cc : Env where
  PATH := some "/usr/bin".toList
  opendir := fun d => if d = "/usr/bin".toList then some ["cc".toList] else none
  access_x := fun _ => true

/-- A line of 1016 characters: `gcc`, 1010 spaces, and the partial flag
`-fs`. -/
def long_gcc_line : CStr := "gcc".toList ++ List.replicate 1010 ' ' ++ "-fs".toList

/-! ## JSON escaping -/

/-- `escape_json_string(input)`, ollama_integration.c:584: the five cases of
the `switch` and its `default`. -/
def escape_json_string : CStr → CStr
  | [] => []
  | c :: rest =>
    if c = '\n' then '\\' :: 'n' :: escape_json_string rest
    else if c = '\r' then '\\' :: 'r' :: escape_json_string rest
    else if c = '\t' then '\\' :: 't' :: escape_json_string rest
    else if c = '\\' then '\\' :: '\\' :: escape_json_string rest
    else if c = '"' then '\\' :: '"' :: escape_json_string rest
    else c :: escape_json_string rest

/-- Value of one hexadecimal digit. -/
def hex_digit (c : Char) : Option Nat :=
  if '0' ≤ c ∧ c ≤ '9' then some (c.toNat - '0'.toNat)
  else if 'a' ≤ c ∧ c ≤ 'f' then some (c.toNat - 'a'.toNat + 10)
  else if 'A' ≤ c ∧ c ≤ 'F' then some (c.toNat - 'A'.toNat + 10)
  else none

/-- The character denoted by the four hexadecimal digits of a `\uXXXX`
escape (surrogate pairs are not joined). -/
def hex4 (a b c d : Char) : Option Char :=
  match hex_digit a, hex_digit b, hex_digit c, hex_digit d with
  | some x, some y, some z, some w => some (Char.ofNat (((x * 16 + y) * 16 + z) * 16 + w))
  | _, _, _, _ => none

/-- Reader of the characters of a JSON string literal after its opening
quotation mark, following the grammar of RFC 8259, section 7: an unescaped
character is any character from U+0020 on other than the quotation mark and
the backslash; the escapes are `\"`, `\\`, `\/`, `\b`, `\f`, `\n`, `\r`, `\t`
and `\uXXXX`.  The result is the decoded string and the text after the
closing quotation mark; `none` when the text is not a string literal. -/
def json_string_chars : CStr → Option (CStr × CStr)
  | [] => none
  | '"' :: rest => some ([], rest)
  | '\\' :: 'u' :: a :: b :: c :: d :: rest =>
    match hex4 a b c d, json_string_chars rest with
    | some ch, some (s, after) => some (ch :: s, after)
    | _, _ => none
  | '\\' :: e :: rest =>
    let decoded : Option Char :=
      if e = '"' then some '"'
      else if e = '\\' then some '\\'
      else if e = '/' then some '/'
      else if e = 'b' then some (Char.ofNat 8)
      else if e = 'f' then some (Char.ofNat 12)
      else if e = 'n' then some '\n'
      else if e = 'r' then some '\r'
      else if e = 't' then some '\t'
      else none
    match decoded, json_string_chars rest with
    | some ch, some (s, after) => some (ch :: s, after)
    | _, _ => none
  | c :: rest =>
    if c.toNat < 32 then none
    else
      match json_string_chars rest with
      | some (s, after) => some (c :: s, after)
      | none => none

/-- Parsing of a whole text as one JSON string literal: the decoded string,
`none` when the text is not exactly one string literal. -/
def parse_json_string (text : CStr) : Option CStr :=
  match text with
  | '"' :: rest =>
    match json_string_chars rest with
    | some (s, []) => some s
    | _ => none
  | _ => none

/-- The text `"` ++ `escape_json_string(s)` ++ `"`, the way the request body
embeds the escaped prompt. -/
def json_string_field (s : CStr) : CStr := '"' :: (escape_json_string s ++ ['"'])

/-! ## The network suggestion client -/

/-- A `json_object *` of json-c.  The constructor `null` is the NULL pointer,
which json-c uses both for the JSON value `null` and for a failed parse. -/
inductive Json where
  | null : Json
  | bool (b : Bool) : Json
  | number (text : CStr) : Json
  | str (s : CStr) : Json
  | arr (items : List Json) : Json
  | obj (fields : List (CStr × Json)) : Json

/-- `json_object_object_get_ex(jso, key, &value)` of json-c: `some value` when
it returns true, which it does only for an object that has the key (the value
may be `null`); `none` when it returns false. -/
def json_object_object_get_ex (jso : Json) (key : CStr) : Option Json :=
  match jso with
  | Json.obj fields => (fields.find? (fun kv => kv.1 = key)).map (fun kv => kv.2)
  | _ => none

/-- The world outside the process as the suggestion client meets it. -/
structure Net where
  /-- Whether `curl_easy_init()` returns a handle. -/
  curl_easy_init_ok : Bool
  /-- Result of `curl_easy_perform` for a request with the given
  `CURLOPT_POSTFIELDS`: the `CURLcode` (0 is `CURLE_OK`) and the response body
  accumulated in `chunk.memory`. -/
  curl_easy_perform : CStr → Nat × CStr
  /-- Result of `json_tokener_parse(body)`. -/
  json_tokener_parse : CStr → Json
  /-- Result of `json_object_to_json_string(jso)`, the serialisation that
  `json_object_get_string` returns for a value that is not a string. -/
  json_object_to_json_string : Json → CStr
  /-- Result of `popen(cmdline, "r")` and of reading its output to the end,
  `none` when `popen` fails. -/
  popen_read : CStr → Option CStr

/-- `json_object_get_string(jso)` of json-c: NULL (`none`) for the NULL
object, the string of a string value, the serialisation of any other value. -/
def json_object_get_string (net : Net) (jso : Json) : Option CStr :=
  match jso with
  | Json.null => none
  | Json.str s => some s
  | other => some (net.json_object_to_json_string other)

/-- A call that leaves the process. -/
inductive Call where
  | popen (cmdline : CStr) : Call
  | http_post (url body : CStr) : Call
deriving DecidableEq, Repr

/-- How a function that returns `char *` ends: it returns NULL, it returns a
string, or it faults (`strdup` applied to NULL). -/
inductive Outcome where
  | null : Outcome
  | value (s : CStr) : Outcome
  | fault : Outcome
deriving DecidableEq, Repr

/-- The result of a run of a client function: how it ended and the calls it
made, in order. -/
structure Run where
  result : Outcome
  calls : List Call
deriving DecidableEq, Repr

/-- `OLLAMA_API_URL`. -/
def OLLAMA_API_URL : CStr := "http://localhost:11434/api/generate".toList

/-- The handling of the response shared by `get_ollama_completion` (lines
713-751) and `get_ollama_command_description` (lines 851-880), given the
`CURLcode` and the body. -/
def read_response (net : Net) (res : Nat) (body : CStr) : Outcome :=
  if res ≠ 0 then Outcome.null
  else
    match net.json_tokener_parse body with
    | Json.null => Outcome.null
    | parsed_json =>
      match json_object_object_get_ex parsed_json "response".toList with
      | some response_obj =>
        match json_object_get_string net response_obj with
        | some response_text => Outcome.value response_text
        | none => Outcome.fault
      | none => Outcome.null

/-- The `full_prompt` of `get_ollama_completion` (lines 666-685): the `cd`
template or the generic template with `prompt` in place of `%s`, in
`char full_prompt[2048]`. -/
def completion_full_prompt (prompt : CStr) : CStr :=
  if prompt.take 2 = "cd".toList then
    snprintf_s 2048
      ("User typed: '".toList ++ prompt
        ++ ("'\n\nComplete Command: cd [directory]\n"
            ++ "What it does: Changes the current working directory\n\n"
            ++ "Suggested completions:\n"
            ++ "1. cd ~ (Go to home directory)\n"
            ++ "2. cd .. (Go up one directory)\n"
            ++ "3. cd /path/to/directory (Go to specific path)").toList)
  else
    snprintf_s 2048
      ("Complete the command '".toList ++ prompt
        ++ ("'. Available commands: version, calc, datetime, ls, pwd, whoami, help, tree, "
            ++ "find, cat, count, mkdir, touch, rm, clear, echo, cd, exit, history, bg.\n\n"
            ++ "Reply in this exact format (3 lines only):\n"
            ++ "Complete: [full command]\n"
            ++ "Does: [one short sentence]\n"
            ++ "Similar: [command1], [command2], [command3]").toList)

/-- The `json_data` of `get_ollama_completion` (lines 699-701), in
`char json_data[4096]`. -/
def completion_request (prompt : CStr) : CStr :=
  snprintf_s 4096
    ("\x7b\"model\": \"tinyllama\", \"prompt\": \"".toList
      ++ escape_json_string (completion_full_prompt prompt)
      ++ ("\", \"stream\": false, \"temperature\": 0.1, \"top_p\": 0.5, "
          ++ "\"top_k\": 20, \"num_predict\": 100\x7d").toList)

/-- `get_ollama_completion(prompt)`, ollama_integration.c:642.  Allocation is
taken to succeed (every allocation failure branch returns NULL). -/
def get_ollama_completion (net : Net) (prompt : CStr) : Run :=
  if net.curl_easy_init_ok then
    let json_data := completion_request prompt
    let r := net.curl_easy_perform json_data
    { result := read_response net r.1 r.2,
      calls := [Call.http_post OLLAMA_API_URL json_data] }
  else { result := Outcome.null, calls := [] }

/-- The fixed description of gcc, lines 765-768. -/
def gcc_fixed_description : CStr :=
  ("Does: Compiles C/C++ source files into executables or object files.\n"
    ++ "Example: gcc hello.c -o hello\n"
    ++ "Example: gcc -Wall -Wextra -g hello.c -o hello\n").toList

/-- The test of line 764: whether `cmd` is answered by the fixed
description. -/
def is_overridden (cmd : CStr) : Bool :=
  cmd == "gcc".toList || starts_with cmd "gcc-".toList || starts_with cmd "gcc".toList

/-- The command line of line 797, in `char cmdline[512]`. -/
def help_cmdline (cmd : CStr) : CStr := snprintf_s 512 (cmd ++ " --help 2>&1".toList)

/-- The `help_snippet` of lines 793-809, in `char help_snippet[1200]`: at
most 1199 bytes of the output, empty when `popen` fails. -/
def help_snippet (net : Net) (cmd : CStr) : CStr :=
  match net.popen_read (help_cmdline cmd) with
  | some output => output.take 1199
  | none => []

/-- The `full_prompt` of `get_ollama_command_description` (lines 812-826), in
`char full_prompt[1800]`. -/
def description_full_prompt (net : Net) (cmd : CStr) : CStr :=
  snprintf_s 1800
    ("You are helping a user in a terminal.\nCommand: ".toList ++ cmd
      ++ "\nHelp output (may be incomplete):\n-----\n".toList
      ++ (if help_snippet net cmd = [] then "(no help output)".toList else help_snippet net cmd)
      ++ ("\n-----\n"
          ++ "Using ONLY the help output above, reply in EXACTLY 3 lines:\n"
          ++ "Does: <one short sentence>\n"
          ++ "Example: <one realistic example>\n"
          ++ "Example: <one realistic example>\n"
          ++ "Do not add any other lines.\n").toList)

/-- The `json_data` of `get_ollama_command_description` (lines 837-841), in
`char json_data[2048]`. -/
def description_request (net : Net) (cmd : CStr) : CStr :=
  snprintf_s 2048
    ("\x7b\"model\": \"tinyllama\", \"prompt\": \"".toList
      ++ escape_json_string (description_full_prompt net cmd)
      ++ ("\", \"stream\": false, \"temperature\": 0.1, \"top_p\": 0.5, "
          ++ "\"top_k\": 20, \"num_predict\": 80\x7d").toList)

/-- `get_ollama_command_description(cmd)`, ollama_integration.c:760.
Allocation is taken to succeed (every allocation failure branch returns
NULL). -/
def get_ollama_command_description (net : Net) (cmd : CStr) : Run :=
  if cmd = [] then { result := Outcome.null, calls := [] }
  else if is_overridden cmd then
    { result := Outcome.value gcc_fixed_description, calls := [] }
  else if net.curl_easy_init_ok then
    let json_data := description_request net cmd
    let r := net.curl_easy_perform json_data
    { result := read_response net r.1 r.2,
      calls := [Call.popen (help_cmdline cmd), Call.http_post OLLAMA_API_URL json_data] }
  else { result := Outcome.null, calls := [] }

/-- A world where the inference service answers with a `response` field. -/
def net_answering : Net where
  curl_easy_init_ok := true
  curl_easy_perform := fun _ => (0, "\x7b\"response\": \"Complete: ls\"\x7d".toList)
  json_tokener_parse := fun _ => Json.obj [("response".toList, Json.str "Complete: ls".toList)]
  json_object_to_json_string := fun _ => []
  popen_read := fun _ => none

/-- A world where the transport fails (`CURLE_COULDNT_CONNECT` is 7). -/
def net_unreachable : Net where
  curl_easy_init_ok := true
  curl_easy_perform := fun _ => (7, [])
  json_tokener_parse := fun _ => Json.null
  json_object_to_json_string := fun _ => []
  popen_read := fun _ => none

/-- Failure containment of a client run that sent `request` and ended with
`result`: the result is NULL when the transport reports a failure, when the
body does not parse, and when the parsed value has no `response` field; and
the result is a string only when the handle was obtained, the transport
succeeded, the body parsed as an object with a `response` field, and the
string is the one of that field. -/
def contained (net : Net) (request : CStr) (result : Outcome) : Prop :=
  ((net.curl_easy_perform request).1 ≠ 0 → result = Outcome.null)
  ∧ (net.json_tokener_parse (net.curl_easy_perform request).2 = Json.null →
      result = Outcome.null)
  ∧ (json_object_object_get_ex (net.json_tokener_parse (net.curl_easy_perform request).2)
        "response".toList = none → result = Outcome.null)
  ∧ (∀ v, result = Outcome.value v →
      net.curl_easy_init_ok = true
      ∧ (net.curl_easy_perform request).1 = 0
      ∧ ∃ fields field,
          net.json_tokener_parse (net.curl_easy_perform request).2 = Json.obj fields
          ∧ json_object_object_get_ex (Json.obj fields) "response".toList = some field
          ∧ json_object_get_string net field = some v)

/-! ## The raw terminal session -/

/-- The constants of `<termios.h>` that the two functions use: the flag masks
and the indices of `VMIN` and `VTIME` in `c_cc`.  The header is not part of
the repository, so the values are a parameter. -/
structure TermiosConsts where
  ECHO : Nat
  ICANON : Nat
  ISIG : Nat
  IEXTEN : Nat
  IXON : Nat
  BRKINT : Nat
  INPCK : Nat
  ISTRIP : Nat
  ICRNL : Nat
  OPOST : Nat
  ONLCR : Nat
  CS8 : Nat
  VMIN : Nat
  VTIME : Nat

/-- The values of the constants on Linux (`asm-generic/termbits.h`). -/
def linux_termios : TermiosConsts where
  ECHO := 0o10
  ICANON := 0o2
  ISIG := 0o1
  IEXTEN := 0o100000
  IXON := 0o2000
  BRKINT := 0o2
  INPCK := 0o20
  ISTRIP := 0o40
  ICRNL := 0o400
  OPOST := 0o1
  ONLCR := 0o4
  CS8 := 0o60
  VMIN := 6
  VTIME := 5

/-- The fields of `struct termios` that the two functions read or write. -/
structure Termios where
  c_iflag : Nat
  c_oflag : Nat
  c_cflag : Nat
  c_lflag : Nat
  c_cc : List Nat
deriving DecidableEq, Repr

/-- `flags & ~mask`: the bits of `mask` cleared in `flags`. -/
def clear_bits (flags mask : Nat) : Nat := flags ^^^ (flags &&& mask)

/-- `enable_raw_mode()`, shell2_complete.c:120, as a function of whether
standard input is a terminal and of the attributes that `tcgetattr` returns;
the result is the attributes of the terminal afterwards (those passed to
`tcsetattr`, or the unchanged ones when the function returns early). -/
def enable_raw_mode (K : TermiosConsts) (isatty : Bool) (t : Termios) : Termios :=
  if ¬ isatty then t
  else
    { c_lflag := clear_bits t.c_lflag (K.ECHO ||| K.ICANON ||| K.ISIG ||| K.IEXTEN),
      c_iflag := clear_bits t.c_iflag (K.IXON ||| K.BRKINT ||| K.INPCK ||| K.ISTRIP) ||| K.ICRNL,
      c_oflag := t.c_oflag ||| (K.OPOST ||| K.ONLCR),
      c_cflag := t.c_cflag ||| K.CS8,
      c_cc := (t.c_cc.set K.VMIN 1).set K.VTIME 0 }

/-- `disable_raw_mode()`, shell2_complete.c:144, in the same terms. -/
def disable_raw_mode (K : TermiosConsts) (isatty : Bool) (t : Termios) : Termios :=
  if ¬ isatty then t
  else
    { t with
      c_lflag := t.c_lflag ||| (K.ECHO ||| K.ICANON ||| K.ISIG ||| K.IEXTEN),
      c_iflag := t.c_iflag ||| (K.IXON ||| K.ICRNL),
      c_oflag := t.c_oflag ||| K.OPOST }

/-- Attributes of a Linux terminal in its usual cooked state, with `BRKINT`
set: `c_iflag = BRKINT | ICRNL | IXON`, `c_oflag = OPOST | ONLCR`,
`c_cflag = CS8 | CREAD | B38400`, `c_lflag = ISIG | ICANON | ECHO | ECHOE |
ECHOK | IEXTEN`, and the usual control characters (`VTIME` 0, `VMIN` 1). -/
def cooked_terminal : Termios where
  c_iflag := 0o2 ||| 0o400 ||| 0o2000
  c_oflag := 0o1 ||| 0o4
  c_cflag := 0o60 ||| 0o200 ||| 0o17
  c_lflag := 0o1 ||| 0o2 ||| 0o10 ||| 0o20 ||| 0o40 ||| 0o100000
  c_cc := [3, 28, 127, 21, 4, 0, 1, 0, 17, 19, 26, 0, 18, 15, 23, 22, 0, 0, 0]

/-! ## The read loop -/

/-- `RIPPLE_RL_BUFSIZE`. -/
def RIPPLE_RL_BUFSIZE : Nat := 1024

/-- The value `EOF` that `getchar` returns at end of input. -/
def EOF : Int := -1

/-- How one iteration of the loop of `ripple_read_line` ends: the loop goes on
with a line buffer, or the function returns (`none` is NULL, `some line` the
finished line). -/
inductive Step where
  | next (lb : LineBuf) : Step
  | ret (line : Option CStr) : Step
deriving DecidableEq, Repr

/-- One iteration of the `while (1)` loop of `ripple_read_line` (lines
869-969) for the value `c` returned by `getchar()`. -/
def read_step (env : Env) (lb : LineBuf) (c : Int) : Step :=
  if c = EOF then
    if lb.buffer.length = 0 then Step.ret none else Step.next lb
  else if c = 10 ∨ c = 13 then Step.ret (some lb.buffer)
  else if c = 9 then Step.next (tab_event env lb)
  else if c = 127 ∨ c = 8 then
    if lb.buffer.length > 0 then Step.next { lb with buffer := lb.buffer.dropLast }
    else Step.next lb
  else if c ≥ 32 ∧ c < 127 then
    let bufsize := if lb.buffer.length ≥ lb.bufsize - 1 then lb.bufsize + RIPPLE_RL_BUFSIZE
      else lb.bufsize
    Step.next { buffer := lb.buffer ++ [Char.ofNat c.toNat], bufsize := bufsize }
  else Step.next lb

/-- The loop of `ripple_read_line` run on the values that successive
`getchar()` calls return: `Step.ret` when the function returns within these
values (the remaining ones are not read), `Step.next` with the line buffer
reached when it is still reading after the last of them. -/
def read_loop (env : Env) : LineBuf → List Int → Step
  | lb, [] => Step.next lb
  | lb, c :: rest =>
    match read_step env lb c with
    | Step.next lb' => read_loop env lb' rest
    | Step.ret line => Step.ret line

/-- `ripple_read_line()`, shell2_complete.c:859, on the values that `getchar()`
returns: the loop started on an empty buffer of `RIPPLE_RL_BUFSIZE` bytes. -/
def ripple_read_line (env : Env) (input : List Int) : Step :=
  read_loop env { buffer := [], bufsize := RIPPLE_RL_BUFSIZE } input

/-- The line editing that the claims describe: a printable character is
appended, a backspace (127 or 8) removes the last character if there is one. -/
def edit_line : CStr → List Int → CStr
  | s, [] => s
  | s, c :: rest =>
    if c = 127 ∨ c = 8 then edit_line s.dropLast rest
    else edit_line (s ++ [Char.ofNat c.toNat]) rest

/-- The invariant of the line buffer: the length is below the capacity and
no character is NUL. -/
def LineBuf.wf (lb : LineBuf) : Prop :=
  lb.buffer.length < lb.bufsize ∧ Char.ofNat 0 ∉ lb.buffer

/-- The strings that the environment hands out are C strings: no directory
entry name holds a NUL. -/
def env_names_cstr (env : Env) : Prop :=
  ∀ dir_path ents, env.opendir dir_path = some ents → ∀ name ∈ ents, Char.ofNat 0 ∉ name

/-- The directories of the search path: the tokens of `PATH` between colons. -/
def search_dirs (env : Env) : List CStr :=
  match env.PATH with
  | none => []
  | some path_env => strtok_tokens [':'] path_env

/-- The name `x` qualifies as a candidate for the prefix `pfx`: it is an entry
of a readable directory of the search path, does not begin with a dot, starts
with `pfx` ignoring case, and the file `dir/x` is executable. -/
def qualifies (env : Env) (pfx : CStr) (x : CStr) : Prop :=
  ∃ dir_path ∈ search_dirs env, ∃ ents, env.opendir dir_path = some ents ∧ x ∈ ents
    ∧ x.head? ≠ some '.' ∧ starts_with_icase x pfx = true
    ∧ env.access_x (dir_path ++ '/' :: x) = true

/-- Every path `dir/name` of an entry of the search path fits the buffer
`char full[1024]`. -/
def paths_fit (env : Env) : Prop :=
  ∀ dir_path ∈ search_dirs env, ∀ ents, env.opendir dir_path = some ents →
    ∀ name ∈ ents, dir_path.length + 1 + name.length < 1024

/-- A directory path of 1024 characters: four components of 255 letters. -/
def long_dir : CStr :=
  '/' :: List.replicate 255 'a' ++ '/' :: List.replicate 255 'b'
    ++ '/' :: List.replicate 255 'c' ++ '/' :: List.replicate 255 'd'

/-- A search path made of the directory `long_dir`, which holds the one entry
`gcc`; the file `gcc` in it is not executable, and the only executable path is
the one obtained by cutting `long_dir` to 1023 characters. -/
def env_long_dir : Env where
  PATH := some long_dir
  opendir := fun d => if d = long_dir then some ["gcc".toList] else none
  access_x := fun p => p == long_dir.take 1023

/-! ## The suggestion renderer -/

/-- What `suggest_command` does, one entry per call of a helper that prints a
block or reaches the suggestion client.  The plain `printf` calls around them
(banner, headings, the list of external candidates, tips) are not recorded. -/
inductive Act where
  /-- The call `print_match_list(partial)`. -/
  | match_list (partial_cmd : CStr) : Act
  /-- The call `print_help_page(h)`. -/
  | help_page (h : BuiltinHelp) : Act
  /-- The call `get_ollama_command_description(cmd)` and its run. -/
  | describe (cmd : CStr) (run : Run) : Act
  /-- The call `print_first_n_nonempty_lines(text, n)`. -/
  | first_lines (text : CStr) (n : Nat) : Act
  /-- The call `get_ollama_completion(prompt)` and its run. -/
  | complete (prompt : CStr) (run : Run) : Act
deriving DecidableEq, Repr

/-- The description block of `suggest_command` (lines 958-962 and 970-975):
the description of `cmd` is requested and, when it is not NULL, its first
three non-empty lines are printed. -/
def describe_and_print (net : Net) (cmd : CStr) : List Act :=
  let run := get_ollama_command_description net cmd
  match run.result with
  | Outcome.value desc => [Act.describe cmd run, Act.first_lines desc 3]
  | _ => [Act.describe cmd run]

/-- The external and network stages of `suggest_command` (lines 953-998). -/
def suggest_external (env : Env) (net : Net) (partial_cmd : CStr) : List Act :=
  let ext_names := collect_path_executables_with_prefix env partial_cmd 32
  let ext_n := ext_names.length
  if ext_n = 1 then describe_and_print net (ext_names.getD 0 [])
  else if ext_n > 1 then
    let best := pick_best_external_candidate ext_names
    if best ≥ 0 then describe_and_print net (ext_names.getD best.toNat []) else []
  else [Act.complete partial_cmd (get_ollama_completion net partial_cmd)]

/-- `suggest_command(partial_cmd)`, ollama_integration.c:910. -/
def suggest_command (env : Env) (net : Net) (partial_cmd : CStr) : List Act :=
  if partial_cmd = [] then [Act.match_list []]
  else
    match find_help_exact_icase partial_cmd with
    | some exact => [Act.help_page exact]
    | none =>
      match count_matches BUILTIN_HELP partial_cmd with
      | (match_count, some single) =>
        if match_count = 1 then [Act.help_page single]
        else if match_count > 1 then [Act.match_list partial_cmd]
        else suggest_external env net partial_cmd
      | (match_count, none) =>
        if match_count > 1 then [Act.match_list partial_cmd]
        else suggest_external env net partial_cmd

/-! ## The prompt templates and the request body -/

/-- The `cd` template of lines 667-673 with `prompt` in place of `%s`. -/
def cd_template (prompt : CStr) : CStr :=
  "User typed: '".toList ++ prompt
    ++ ("'\n\nComplete Command: cd [directory]\n"
        ++ "What it does: Changes the current working directory\n\n"
        ++ "Suggested completions:\n"
        ++ "1. cd ~ (Go to home directory)\n"
        ++ "2. cd .. (Go up one directory)\n"
        ++ "3. cd /path/to/directory (Go to specific path)").toList

/-- The generic template of lines 676-680 with `prompt` in place of `%s`. -/
def generic_template (prompt : CStr) : CStr :=
  "Complete the command '".toList ++ prompt
    ++ ("'. Available commands: version, calc, datetime, ls, pwd, whoami, help, tree, "
        ++ "find, cat, count, mkdir, touch, rm, clear, echo, cd, exit, history, bg.\n\n"
        ++ "Reply in this exact format (3 lines only):\n"
        ++ "Complete: [full command]\n"
        ++ "Does: [one short sentence]\n"
        ++ "Similar: [command1], [command2], [command3]").toList

/-- The fully rendered template for `prompt`: the `cd` template when the
prompt begins with `cd`, the generic one otherwise. -/
def rendered_template (prompt : CStr) : CStr :=
  if prompt.take 2 = "cd".toList then cd_template prompt else generic_template prompt

/-! ## Reading JSON text -/

/-- JSON whitespace skipped (RFC 8259, section 2: space, tab, newline,
carriage return). -/
def skip_ws : CStr → CStr
  | [] => []
  | c :: t => if c = ' ' ∨ c = '\t' ∨ c = '\n' ∨ c = '\r' then skip_ws t else c :: t

/-- The longest run of decimal digits at the head of the text, and the text
after it. -/
def take_digits : CStr → CStr × CStr
  | [] => ([], [])
  | c :: t =>
    if '0' ≤ c ∧ c ≤ '9' then ((c :: (take_digits t).1), (take_digits t).2)
    else ([], c :: t)

/-- The optional fraction part of a JSON number: a point and at least one
digit. -/
def json_frac (s : CStr) : Option (CStr × CStr) :=
  match s with
  | '.' :: t =>
    if (take_digits t).1 = [] then none
    else some ('.' :: (take_digits t).1, (take_digits t).2)
  | _ => some ([], s)

/-- The optional exponent part of a JSON number: `e` or `E`, an optional sign
and at least one digit. -/
def json_exp (s : CStr) : Option (CStr × CStr) :=
  match s with
  | e :: sg :: t =>
    if e = 'e' ∨ e = 'E' then
      if sg = '+' ∨ sg = '-' then
        (if (take_digits t).1 = [] then none
         else some (e :: sg :: (take_digits t).1, (take_digits t).2))
      else
        (if (take_digits (sg :: t)).1 = [] then none
         else some (e :: (take_digits (sg :: t)).1, (take_digits (sg :: t)).2))
    else some ([], s)
  | [e] => if e = 'e' ∨ e = 'E' then none else some ([], s)
  | [] => some ([], [])

/-- A JSON number at the head of the text (RFC 8259, section 6: optional
minus, integer part without leading zeros, optional fraction, optional
exponent): its literal text and the text after it. -/
def json_number (s : CStr) : Option (CStr × CStr) :=
  let sign : CStr := if s.head? = some '-' then ['-'] else []
  let s1 := if s.head? = some '-' then s.tail else s
  let int := (take_digits s1).1
  if int = [] then none
  else if int.head? = some '0' ∧ int.length > 1 then none
  else
    match json_frac (take_digits s1).2 with
    | none => none
    | some (frac, s2) =>
      match json_exp s2 with
      | none => none
      | some (ex, s3) => some (sign ++ int ++ frac ++ ex, s3)

mutual

/-- A JSON value at the head of the text (RFC 8259, section 3), read with at
most `fuel` nested calls: the value and the text after it. -/
def json_value : Nat → CStr → Option (Json × CStr)
  | 0, _ => none
  | fuel + 1, s =>
    match s with
    | '"' :: t =>
      match json_string_chars t with
      | some (str, rest) => some (Json.str str, rest)
      | none => none
    | '\x7b' :: t =>
      match skip_ws t with
      | '\x7d' :: rest => some (Json.obj [], rest)
      | t1 =>
        match json_members fuel t1 with
        | some (fields, rest) => some (Json.obj fields, rest)
        | none => none
    | '[' :: t =>
      match skip_ws t with
      | ']' :: rest => some (Json.arr [], rest)
      | t1 =>
        match json_elements fuel t1 with
        | some (items, rest) => some (Json.arr items, rest)
        | none => none
    | 't' :: 'r' :: 'u' :: 'e' :: rest => some (Json.bool true, rest)
    | 'f' :: 'a' :: 'l' :: 's' :: 'e' :: rest => some (Json.bool false, rest)
    | 'n' :: 'u' :: 'l' :: 'l' :: rest => some (Json.null, rest)
    | _ =>
      match json_number s with
      | some (text, rest) => some (Json.number text, rest)
      | none => none

/-- The members of a JSON object from the first name on, up to and including
the closing brace (RFC 8259, section 4). -/
def json_members : Nat → CStr → Option (List (CStr × Json) × CStr)
  | 0, _ => none
  | fuel + 1, s =>
    match s with
    | '"' :: t =>
      match json_string_chars t with
      | some (key, r1) =>
        match skip_ws r1 with
        | ':' :: r2 =>
          match json_value fuel (skip_ws r2) with
          | some (v, r3) =>
            match skip_ws r3 with
            | '\x7d' :: r4 => some ([(key, v)], r4)
            | ',' :: r4 =>
              match json_members fuel (skip_ws r4) with
              | some (fields, r5) => some ((key, v) :: fields, r5)
              | none => none
            | _ => none
          | none => none
        | _ => none
      | none => none
    | _ => none

/-- The elements of a JSON array from the first value on, up to and including
the closing bracket (RFC 8259, section 5). -/
def json_elements : Nat → CStr → Option (List Json × CStr)
  | 0, _ => none
  | fuel + 1, s =>
    match json_value fuel s with
    | some (v, r1) =>
      match skip_ws r1 with
      | ']' :: r2 => some ([v], r2)
      | ',' :: r2 =>
        match json_elements fuel (skip_ws r2) with
        | some (items, r3) => some (v :: items, r3)
        | none => none
      | _ => none
    | none => none

end

/-- Parsing of a whole text as one JSON value, with whitespace allowed around
it; the fuel `length + 1` exceeds the number of nested calls, each of which
consumes a character. -/
def parse_json (text : CStr) : Option Json :=
  match json_value (text.length + 1) (skip_ws text) with
  | some (v, rest) => if skip_ws rest = [] then some v else none
  | none => none

/-- The object that a request body of `get_ollama_completion` is to denote,
for the value `prompt_text` of its `prompt` field. -/
def completion_request_object (prompt_text : CStr) : Json :=
  Json.obj
    [ ("model".toList, Json.str "tinyllama".toList),
      ("prompt".toList, Json.str prompt_text),
      ("stream".toList, Json.bool false),
      ("temperature".toList, Json.number "0.1".toList),
      ("top_p".toList, Json.number "0.5".toList),
      ("top_k".toList, Json.number "20".toList),
      ("num_predict".toList, Json.number "100".toList) ]

/-- The character is one that `escape_json_string` turns into valid JSON
string text: it is not a control character below U+0020, or it is one of the
three that the function escapes (newline, carriage return, tab). -/
def json_safe (c : Char) : Prop := 32 ≤ c.toNat ∨ c = '\n' ∨ c = '\r' ∨ c = '\t'

instance (c : Char) : Decidable (json_safe c) := by
  unfold json_safe
  exact inferInstance

/-- The text that `get_ollama_completion` formats into `json_data` for the
prompt text `full`, before `snprintf` cuts it to the size of the buffer. -/
def request_body (full : CStr) : CStr :=
  "\x7b\"model\": \"tinyllama\", \"prompt\": \"".toList
    ++ escape_json_string full
    ++ ("\", \"stream\": false, \"temperature\": 0.1, \"top_p\": 0.5, "
        ++ "\"top_k\": 20, \"num_predict\": 100\x7d").toList

/-- A prompt of 2100 letters `x`. -/
def long_prompt : CStr := List.replicate 2100 'x'

/-! ## Further definitions for the remaining properties -/

/-- The characters for which `escape_json_string` writes two characters:
newline, carriage return, tab, backslash and double quote. -/
def is_escaped (c : Char) : Bool :=
  c == '\n' || c == '\r' || c == '\t' || c == '\\' || c == '"'

/-- `builtin_str`, shell2_complete.c:65, in source order. -/
def builtin_str : List CStr :=
  [ "cd".toList, "help".toList, "exit".toList, "bg".toList, "history".toList,
    "clear".toList, "echo".toList, "pwd".toList, "ls".toList, "version".toList,
    "calc".toList, "datetime".toList, "count".toList, "find".toList, "cat".toList,
    "tree".toList, "mkdir".toList, "touch".toList, "rm".toList, "whoami".toList ]

/-- The text after the first occurrence of the character `c`. -/
def after_first (c : Char) : CStr → CStr
  | [] => []
  | x :: t => if x = c then t else after_first c t

/-- The command names that a rendered generic template lists: the words,
separated by commas and spaces, between the first colon of the text and the
full stop that follows. -/
def listed_commands (text : CStr) : List CStr :=
  strtok_tokens [',', ' '] ((after_first ':' text).takeWhile (fun c => c != '.'))

/-- The command names listed in the generic completion prompt template (the
template rendered for the empty prompt). -/
def template_commands : List CStr := listed_commands (generic_template [])

/-- A search path whose one directory holds an executable with a name of 130
letters `a`. -/
def env_long_name : Env where
  PATH := some "/usr/bin".toList
  opendir := fun d => if d = "/usr/bin".toList then some [List.replicate 130 'a'] else none
  access_x := fun _ => true

/-! ## Splitting a line into tokens -/

/-- `RIPPLE_TOK_BUFSIZE`, ollama_integration.c:20. -/
def RIPPLE_TOK_BUFSIZE : Nat := 64

/-- `RIPPLE_TOK_DELIM`, ollama_integration.c:21: space, tab, carriage return,
newline and bell. -/
def RIPPLE_TOK_DELIM : List Char := [' ', '\t', '\r', '\n', Char.ofNat 7]

/-- The token array of `ripple_split_line`: the entries stored so far (their
number is `position`) and the capacity `bufsize`. -/
structure TokBuf where
  tokens : List CStr
  bufsize : Nat
deriving DecidableEq, Repr

/-- The loop `while (token != NULL)` of `ripple_split_line`
(ollama_integration.c:1014) over the tokens that `strtok` still returns.
`alloc n` tells whether an allocation of `n` entries succeeds; the loop gives
`none` where the code returns `NULL` after a failed `realloc`. -/
def split_loop (alloc : Nat → Bool) : TokBuf → List CStr → Option TokBuf
  | tb, [] => some tb
  | tb, token :: rest =>
    let tokens := tb.tokens ++ [token]
    if tokens.length ≥ tb.bufsize then
      let bufsize := tb.bufsize + RIPPLE_TOK_BUFSIZE
      if alloc bufsize then split_loop alloc ⟨tokens, bufsize⟩ rest else none
    else split_loop alloc ⟨tokens, tb.bufsize⟩ rest

/-- `ripple_split_line(line)`, ollama_integration.c:1002: the entries of the
returned array before its `NULL` terminator, or `none` where the code returns
`NULL` (allocation failure). -/
def ripple_split_line (alloc : Nat → Bool) (line : CStr) : Option (List CStr) :=
  if alloc RIPPLE_TOK_BUFSIZE then
    (split_loop alloc ⟨[], RIPPLE_TOK_BUFSIZE⟩ (strtok_tokens RIPPLE_TOK_DELIM line)).map
      (fun tb => tb.tokens)
  else none

/-- A layout of a line as delimiter gaps and runs: `segs` lists each run with
the gap in front of it, `trail` is what follows the last run.  Gaps and
`trail` hold only delimiters, runs are non-empty and hold no delimiter, and
every run but the first has a non-empty gap in front of it. -/
def RunsOf (delims : List Char) (segs : List (CStr × CStr)) (trail : CStr) : Prop :=
  (∀ c ∈ trail, c ∈ delims)
  ∧ (∀ p ∈ segs, (∀ c ∈ p.1, c ∈ delims) ∧ p.2 ≠ [] ∧ ∀ c ∈ p.2, c ∉ delims)
  ∧ (∀ p ∈ segs.tail, p.1 ≠ [])

/-- The list `tokens` is the list of maximal delimiter-free runs of `line`, in
left-to-right order: the line is the concatenation of a layout of gaps and
runs whose runs are `tokens`. -/
def MaximalRuns (delims : List Char) (line : CStr) (tokens : List CStr) : Prop :=
  ∃ segs trail, tokens = segs.map Prod.snd
    ∧ line = segs.flatMap (fun p => p.1 ++ p.2) ++ trail
    ∧ RunsOf delims segs trail

/-! ## Printing the first non-empty lines of a description -/

/-- The line terminators that `print_first_n_nonempty_lines` skips: `\n` and
`\r`. -/
def is_eol (c : Char) : Bool := c == '\n' || c == '\r'

/-- The characters that `print_first_n_nonempty_lines` trims: space and tab. -/
def is_blank (c : Char) : Bool := c == ' ' || c == '\t'

/-- The conversion `(int)(t - p)` of a pointer difference to a 32-bit `int`. -/
def int_cast (k : Nat) : Int :=
  if k % 2 ^ 32 < 2 ^ 31 then ((k % 2 ^ 32 : Nat) : Int) else ((k % 2 ^ 32 : Nat) : Int) - 2 ^ 32

/-- The characters that `printf("%.*s", prec, p)` writes for the string that
starts at `p`: at most `prec` characters, and the whole string when the
precision is negative. -/
def printf_prec (prec : Int) (p : CStr) : CStr :=
  if prec < 0 then p else p.take prec.toNat

/-- The loop `while (*p && printed < n)` of `print_first_n_nonempty_lines`
(ollama_integration.c:887): the lines it prints from the position `p` on, each
without the `\n` that `printf` adds.  One unit of fuel is one iteration;
`none` means the fuel ran out. -/
def print_lines_loop (n : Int) : Nat → CStr → Nat → Option (List CStr)
  | 0, _, _ => none
  | fuel + 1, p, printed =>
    if p ≠ [] ∧ (printed : Int) < n then
      let p1 := p.dropWhile is_eol
      if p1 = [] then some []
      else
        let line := p1.takeWhile (fun c => !is_eol c)
        let e := p1.dropWhile (fun c => !is_eol c)
        let lead := (line.takeWhile is_blank).length
        let p2 := p1.drop lead
        let len := ((line.drop lead).reverse.dropWhile is_blank).length
        if 0 < len then
          (print_lines_loop n fuel e (printed + 1)).map
            (fun out => printf_prec (int_cast len) p2 :: out)
        else print_lines_loop n fuel e printed
    else some []

/-- `print_first_n_nonempty_lines(text, n)`, ollama_integration.c:883: the
lines written to standard output, in order. -/
def print_first_n_nonempty_lines (text : CStr) (n : Int) : Option (List CStr) :=
  if n ≤ 0 then some [] else print_lines_loop n (text.length + 1) text 0

/-- The lines of a text, split at every `\n` and every `\r`. -/
def split_lines : CStr → List CStr
  | [] => [[]]
  | c :: t =>
    if is_eol c then [] :: split_lines t
    else match split_lines t with
      | [] => [[c]]
      | l :: ls => (c :: l) :: ls

/-- A line without its leading and trailing spaces and tabs. -/
def trim (l : CStr) : CStr :=
  ((l.dropWhile is_blank).reverse.dropWhile is_blank).reverse

/-- The lines of a text that are not made only of spaces and tabs, each
trimmed, in order. -/
def nonempty_trimmed_lines (text : CStr) : List CStr :=
  ((split_lines text).filter (fun l => !l.all is_blank)).map trim

/-- A description of four non-empty lines among blank ones. -/
def four_line_text : CStr :=
  "\n  Lists files. \r\n\t\nUsage: ls [dir]\n \nExample: ls -l\nSee also: tree\n".toList

/-! ## The interactive loop and the raw terminal session -/

/-- `is_raw_mode()`, shell2_complete.c:168, as a function of whether standard
input is a terminal and of the attributes that `tcgetattr` returns: true when
canonical mode is off. -/
def is_raw_mode (K : TermiosConsts) (isatty : Bool) (t : Termios) : Bool :=
  if ¬ isatty then false else (t.c_lflag &&& K.ICANON) == 0

/-- How a call of `ripple_read_line` ends when allocation can fail: it returns
a line or `NULL` (with the input values not yet read), it ends the process
through `exit(EXIT_FAILURE)`, or it is still waiting in `getchar()` after the
last input value. -/
inductive ReadEnd where
  | line (l : CStr) (rest : List Int) : ReadEnd
  | null (rest : List Int) : ReadEnd
  | exit_failure : ReadEnd
  | waiting : ReadEnd
deriving DecidableEq, Repr

/-- The loop of `ripple_read_line` where `realloc` can fail: `alloc n` tells
whether an allocation of `n` bytes succeeds.  A printable character that meets
a full buffer (`position >= bufsize - 1`) asks for `bufsize + RIPPLE_RL_BUFSIZE`
bytes, and the failure branch calls `exit(EXIT_FAILURE)`
(shell2_complete.c:954-961); every other step is `read_step`. -/
def read_loop_alloc (alloc : Nat → Bool) (env : Env) : LineBuf → List Int → ReadEnd
  | _, [] => ReadEnd.waiting
  | lb, c :: rest =>
    if (c ≥ 32 ∧ c < 127) ∧ lb.buffer.length ≥ lb.bufsize - 1
        ∧ alloc (lb.bufsize + RIPPLE_RL_BUFSIZE) = false then
      ReadEnd.exit_failure
    else
      match read_step env lb c with
      | Step.next lb1 => read_loop_alloc alloc env lb1 rest
      | Step.ret (some l) => ReadEnd.line l rest
      | Step.ret none => ReadEnd.null rest

/-- `ripple_read_line()`, shell2_complete.c:859, where `malloc` and `realloc`
can fail: a failed `malloc` of the first `RIPPLE_RL_BUFSIZE` bytes calls
`exit(EXIT_FAILURE)` (lines 864-867). -/
def ripple_read_line_alloc (alloc : Nat → Bool) (env : Env) (input : List Int) : ReadEnd :=
  if alloc RIPPLE_RL_BUFSIZE then
    read_loop_alloc alloc env { buffer := [], bufsize := RIPPLE_RL_BUFSIZE } input
  else ReadEnd.exit_failure

/-- `ripple_exit(args)`, shell2_complete.c:232. -/
def ripple_exit (_args : List CStr) : Int := 0

/-- The table `builtin_func`, shell2_complete.c:96: entry 2 is `ripple_exit`;
`other` stands for the other built-in functions. -/
def builtin_func (other : Nat → List CStr → Int) (i : Nat) (args : List CStr) : Int :=
  if i = 2 then ripple_exit args else other i args

/-- `ripple_execute(args)`, shell2_complete.c:796: 1 for an empty command, the
result of the built-in whose name equals `args[0]`, else the result of
`ripple_launch`.  The history side effect is not modelled. -/
def ripple_execute (other : Nat → List CStr → Int) (ripple_launch : List CStr → Int)
    (args : List CStr) : Int :=
  match args with
  | [] => 1
  | cmd :: _ =>
    let i := first_index cmd builtin_str
    if i < builtin_str.length then builtin_func other i args else ripple_launch args

/-- How a run of `ripple_loop` ends, with the terminal attributes at that
moment: the process ended inside the loop through `exit`, the loop returned to
`main`, or the shell is still waiting for input. -/
inductive ProcEnd where
  | exited (t : Termios) : ProcEnd
  | returned (t : Termios) : ProcEnd
  | running (t : Termios) : ProcEnd
deriving DecidableEq, Repr

/-- The `do ... while (status)` loop of `ripple_loop`, shell2_complete.c:826,
on the values that `getchar()` returns, with the call of `disable_raw_mode`
that follows the loop (line 855).  One unit of fuel is one iteration; the
commands run are taken to leave the terminal attributes alone. -/
def ripple_loop_iter (K : TermiosConsts) (isatty : Bool) (alloc alloc_tok : Nat → Bool)
    (env : Env) (other : Nat → List CStr → Int) (ripple_launch : List CStr → Int) :
    Nat → Int → List Int → Termios → ProcEnd
  | 0, _, _, t => ProcEnd.running t
  | fuel + 1, status, input, t =>
    match ripple_read_line_alloc alloc env input with
    | ReadEnd.exit_failure => ProcEnd.exited t
    | ReadEnd.waiting => ProcEnd.running t
    | ReadEnd.null _ => ProcEnd.returned (disable_raw_mode K isatty t)
    | ReadEnd.line l rest =>
      match ripple_split_line alloc_tok l with
      | none =>
        if status ≠ 0 then
          ripple_loop_iter K isatty alloc alloc_tok env other ripple_launch fuel status rest t
        else ProcEnd.returned (disable_raw_mode K isatty t)
      | some args =>
        let status1 := ripple_execute other ripple_launch args
        if status1 ≠ 0 then
          ripple_loop_iter K isatty alloc alloc_tok env other ripple_launch fuel status1 rest t
        else ProcEnd.returned (disable_raw_mode K isatty t)

/-- `ripple_loop()`, shell2_complete.c:817: `enable_raw_mode()`, then the
loop.  `status0` is the value of the uninitialised variable `status`. -/
def ripple_loop (K : TermiosConsts) (isatty : Bool) (alloc alloc_tok : Nat → Bool)
    (env : Env) (other : Nat → List CStr → Int) (ripple_launch : List CStr → Int)
    (status0 : Int) (input : List Int) (t : Termios) : ProcEnd :=
  ripple_loop_iter K isatty alloc alloc_tok env other ripple_launch (input.length + 1)
    status0 input (enable_raw_mode K isatty t)

/-! # Theorems -/

/-! ## Lemmas on the built-in resolver -/

theorem snprintf_s_fits (size : Nat) (s : CStr) (h : s.length < size) : snprintf_s size s = s := by
  unfold snprintf_s
  exact List.take_of_length_le (by omega)

theorem count_matches_foldl (table : List BuiltinHelp) (p : CStr) (n : Nat) (s : Option BuiltinHelp) :
    table.foldl
      (fun st h => if starts_with_icase h.name p then (st.1 + 1, some h) else st) (n, s)
    = (n + (table.filter (fun h => starts_with_icase h.name p)).length,
       ((table.filter (fun h => starts_with_icase h.name p)).getLast?).or s) := by
  induction table generalizing n s with
  | nil => simp
  | cons a t ih =>
    simp only [List.foldl_cons, List.filter_cons]
    by_cases ha : starts_with_icase a.name p = true
    · simp only [ha, if_true, ih, List.length_cons]
      refine Prod.ext (by simp; omega) ?_
      simp only
      cases hf : List.filter (fun h => starts_with_icase h.name p) t with
      | nil => simp
      | cons b u => simp [List.getLast?_eq_getLast _ (List.cons_ne_nil b u)]
    · simp only [ha, ih]
      simp

theorem count_matches_eq (table : List BuiltinHelp) (p : CStr) :
    count_matches table p
    = ((table.filter (fun h => starts_with_icase h.name p)).length,
       (table.filter (fun h => starts_with_icase h.name p)).getLast?) := by
  unfold count_matches
  rw [count_matches_foldl]
  simp

theorem starts_with_icase_trans (n e P : CStr) (hn : starts_with_icase n P = true)
    (he : starts_with_icase e P = true) (hlen : e.length = P.length) :
    starts_with_icase n e = true := by
  induction P generalizing n e with
  | nil =>
    cases e with
    | nil => simp [starts_with_icase]
    | cons a t => simp at hlen
  | cons p ps ih =>
    cases e with
    | nil => simp at hlen
    | cons a t =>
      cases n with
      | nil => simp [starts_with_icase] at hn
      | cons b u =>
        simp only [starts_with_icase, bne_iff_ne, ne_eq, ite_not, Bool.if_false_right,
          Bool.and_eq_true, decide_eq_true_eq] at hn he ⊢
        refine ⟨hn.1.trans he.1.symm, ih u t hn.2 he.2 (by simpa using hlen)⟩

set_option maxRecDepth 100000 in
theorem builtin_no_proper_extension :
    ∀ a ∈ BUILTIN_HELP, ∀ b ∈ BUILTIN_HELP, starts_with_icase b.name a.name = true → a = b := by
  decide

set_option maxRecDepth 100000 in
theorem builtin_help_nodup : BUILTIN_HELP.Nodup := by
  decide

/-- C1.  For every non-empty partial `P` and every output buffer large enough
for any catalogue name, if exactly one record `h` of `BUILTIN_HELP` has a name
starting with `P` ignoring case, `complete_builtin_command(P)` returns 1 and
writes `h.name` as stored in the catalogue. -/
theorem complete_builtin_command_unique (P out : CStr) (out_sz : Nat) (h : BuiltinHelp)
    (hP : P ≠ [])
    (hsz : ∀ e ∈ BUILTIN_HELP, e.name.length < out_sz)
    (huniq : BUILTIN_HELP.filter (fun e => starts_with_icase e.name P) = [h]) :
    complete_builtin_command P out out_sz = (1, h.name) := by
  have hmem : h ∈ BUILTIN_HELP := by
    have : h ∈ BUILTIN_HELP.filter (fun e => starts_with_icase e.name P) := by
      rw [huniq]; simp
    exact (List.mem_filter.1 this).1
  have hsz0 : out_sz ≠ 0 := by
    have := hsz h hmem
    omega
  unfold complete_builtin_command
  rw [if_neg hsz0, if_neg hP]
  cases hex : find_help_exact_icase P with
  | some e =>
    have hfind := List.find?_some hex
    have hemem : e ∈ BUILTIN_HELP := List.mem_of_find?_eq_some hex
    have hpre : starts_with_icase e.name P = true := by
      simp only [Bool.and_eq_true] at hfind
      exact hfind.2
    have hin : e ∈ BUILTIN_HELP.filter (fun e => starts_with_icase e.name P) :=
      List.mem_filter.2 ⟨hemem, hpre⟩
    rw [huniq] at hin
    have heq : e = h := by simpa using hin
    subst heq
    simp only
    rw [snprintf_s_fits _ _ (hsz e hemem)]
  | none =>
    simp only
    rw [count_matches_eq, huniq]
    simp only [List.length_singleton, List.getLast?_singleton, if_true]
    rw [snprintf_s_fits _ _ (hsz h hmem)]

/-- Witness of C1 at the partial `CD`, which equals the stored name `cd` up
to letter case. -/
theorem complete_builtin_command_unique_witness :
    ("CD".toList ≠ [] ∧ (∀ e ∈ BUILTIN_HELP, e.name.length < 128)
      ∧ BUILTIN_HELP.filter (fun e => starts_with_icase e.name "CD".toList)
          = [⟨"cd".toList, "Change directory (move between folders)".toList⟩])
    ∧ complete_builtin_command "CD".toList [] 128 = (1, "cd".toList) :=
  ⟨⟨by decide, by decide, by decide⟩,
   complete_builtin_command_unique "CD".toList [] 128
     ⟨"cd".toList, "Change directory (move between folders)".toList⟩
     (by decide) (by decide) (by decide)⟩

theorem find_help_exact_none_of_two (P : CStr)
    (h2 : 2 ≤ (BUILTIN_HELP.filter (fun e => starts_with_icase e.name P)).length) :
    find_help_exact_icase P = none := by
  cases hex : find_help_exact_icase P with
  | none => rfl
  | some e =>
    exfalso
    have hfind := List.find?_some hex
    have hemem : e ∈ BUILTIN_HELP := List.mem_of_find?_eq_some hex
    simp only [Bool.and_eq_true, beq_iff_eq] at hfind
    have hall : ∀ x ∈ BUILTIN_HELP.filter (fun e => starts_with_icase e.name P), x = e := by
      intro x hx
      have hx' := List.mem_filter.1 hx
      exact (builtin_no_proper_extension e hemem x hx'.1
        (starts_with_icase_trans x.name e.name P hx'.2 hfind.2 hfind.1)).symm
    have hnd : (BUILTIN_HELP.filter (fun e => starts_with_icase e.name P)).Nodup :=
      builtin_help_nodup.filter _
    generalize BUILTIN_HELP.filter (fun e => starts_with_icase e.name P) = l at h2 hall hnd
    match l, h2, hall, hnd with
    | a :: b :: t, _, hall, hnd =>
      have ha := hall a (by simp)
      have hb := hall b (by simp)
      have hne : a ≠ b := by
        intro hab
        rw [List.nodup_cons] at hnd
        exact hnd.1 (by simp [hab])
      exact hne (ha.trans hb.symm)

/-- C2 (amended).  For every non-empty partial `P` that is a case-insensitive
prefix of at least two built-in names, and an output buffer of at least one
byte, `complete_builtin_command(P)` returns 2 and writes the empty string, and
`print_match_list(P)` prints, between its heading and its closing tip, one
line for each catalogue name that starts with `P` ignoring case, each once, in
catalogue order. -/
theorem complete_builtin_command_ambiguous (P out : CStr) (out_sz : Nat)
    (hP : P ≠ []) (hsz : out_sz ≠ 0)
    (h2 : 2 ≤ (builtin_names.filter (fun n => starts_with_icase n P)).length) :
    complete_builtin_command P out out_sz = (2, [])
    ∧ (print_match_list_entries P).map BuiltinHelp.name
        = builtin_names.filter (fun n => starts_with_icase n P)
    ∧ (print_match_list_entries P).Nodup
    ∧ print_match_list P
        = ("Possible commands for '".toList ++ P ++ "':".toList)
          :: ((BUILTIN_HELP.filter (fun e => starts_with_icase e.name P)).map match_line
              ++ [[], "Tip: keep typing to narrow it down, then press TAB again for detailed help.".toList]) := by
  have hfm : builtin_names.filter (fun n => starts_with_icase n P)
      = (BUILTIN_HELP.filter (fun e => starts_with_icase e.name P)).map BuiltinHelp.name := by
    unfold builtin_names
    rw [List.filter_map]
    rfl
  have hent : print_match_list_entries P
      = BUILTIN_HELP.filter (fun e => starts_with_icase e.name P) := by
    unfold print_match_list_entries
    have : P.isEmpty = false := by
      cases P with
      | nil => exact absurd rfl hP
      | cons a t => rfl
    simp [this]
  have h2' : 2 ≤ (BUILTIN_HELP.filter (fun e => starts_with_icase e.name P)).length := by
    rw [hfm, List.length_map] at h2
    exact h2
  refine ⟨?_, ?_, ?_, ?_⟩
  · unfold complete_builtin_command
    rw [if_neg hsz, if_neg hP, find_help_exact_none_of_two P h2']
    simp only
    rw [count_matches_eq]
    cases hl : (BUILTIN_HELP.filter (fun e => starts_with_icase e.name P)).getLast? with
    | none =>
      simp only
      rw [if_pos (by omega)]
    | some s =>
      simp only
      rw [if_neg (by omega), if_pos (by omega)]
  · rw [hent, hfm]
  · rw [hent]
    exact builtin_help_nodup.filter _
  · unfold print_match_list
    rw [hent]
    simp

/-- Witness of C2 (amended) at the partial `c`, a prefix of `cd`, `clear`,
`calc`, `count` and `cat`. -/
theorem complete_builtin_command_ambiguous_witness :
    ("c".toList ≠ [] ∧ (128 : Nat) ≠ 0
      ∧ 2 ≤ (builtin_names.filter (fun n => starts_with_icase n "c".toList)).length)
    ∧ complete_builtin_command "c".toList [] 128 = (2, []) :=
  ⟨⟨by decide, by decide, by decide⟩,
   (complete_builtin_command_ambiguous "c".toList [] 128 (by decide) (by decide) (by decide)).1⟩

/-- C2 as stated fails at the empty partial: it is a prefix of all twenty
built-in names, and `complete_builtin_command` returns 0, not 2. -/
theorem complete_builtin_command_empty_counterexample :
    2 ≤ (builtin_names.filter (fun n => starts_with_icase n [])).length
    ∧ (complete_builtin_command [] [] 128).1 = 0
    ∧ ¬ (complete_builtin_command [] [] 128 = (2, [])) := by
  decide

/-! ## Lemmas on the tie-break -/

/-- The loop invariant of `pick_best_external_candidate` after the first `m`
names have been examined. -/
structure PickInv (names : List CStr) (st : PickState) (m : Nat) : Prop where
  best_lt : st.best < m
  bad_eq : st.best_bad = has_hyphen_or_digit (names.getD st.best [])
  len_eq : st.best_len = (names.getD st.best []).length
  least : ∀ j, j < m → ¬ strictly_better (names.getD j []) (names.getD st.best [])
  tie_iff : st.tie = true ↔
    ∃ j, j < m ∧ j ≠ st.best ∧ same_rank (names.getD j []) (names.getD st.best [])

theorem pick_step_inv (names : List CStr) (st : PickState) (m : Nat)
    (hinv : PickInv names st m) :
    PickInv names (pick_step st m (names.getD m [])) (m + 1) := by
  obtain ⟨hlt, hbad, hlen, hleast, htie⟩ := hinv
  unfold pick_step
  simp only
  unfold strictly_better at hleast
  unfold same_rank at htie
  by_cases h1 : has_hyphen_or_digit (names.getD m []) < st.best_bad
  · rw [if_pos h1]
    refine ⟨by simp, rfl, rfl, ?_, ?_⟩
    · intro j hj
      unfold strictly_better
      simp only
      rcases Nat.lt_succ_iff_lt_or_eq.1 hj with h | h
      · have := hleast j h
        omega
      · subst h; omega
    · unfold same_rank
      simp only
      constructor
      · intro h; exact absurd h (by simp)
      · rintro ⟨j, hj, hne, hb, hl⟩
        rcases Nat.lt_succ_iff_lt_or_eq.1 hj with h | h
        · have := hleast j h
          omega
        · exact absurd h hne
  · rw [if_neg h1]
    by_cases h2 : has_hyphen_or_digit (names.getD m []) = st.best_bad
    · rw [if_pos h2]
      by_cases h3 : (names.getD m []).length < st.best_len
      · rw [if_pos h3]
        refine ⟨by simp, h2.symm, rfl, ?_, ?_⟩
        · intro j hj
          unfold strictly_better
          simp only
          rcases Nat.lt_succ_iff_lt_or_eq.1 hj with h | h
          · have := hleast j h
            omega
          · subst h; omega
        · unfold same_rank
          simp only
          constructor
          · intro h; exact absurd h (by simp)
          · rintro ⟨j, hj, hne, hb, hl⟩
            rcases Nat.lt_succ_iff_lt_or_eq.1 hj with h | h
            · have := hleast j h
              omega
            · exact absurd h hne
      · rw [if_neg h3]
        by_cases h4 : (names.getD m []).length = st.best_len
        · rw [if_pos h4]
          refine ⟨by simp; omega, hbad, hlen, ?_, ?_⟩
          · intro j hj
            unfold strictly_better
            simp only
            rcases Nat.lt_succ_iff_lt_or_eq.1 hj with h | h
            · exact hleast j h
            · subst h; omega
          · unfold same_rank
            simp only
            constructor
            · intro _
              exact ⟨m, by omega, by omega, by omega, by omega⟩
            · intro _; trivial
        · rw [if_neg h4]
          refine ⟨by omega, hbad, hlen, ?_, ?_⟩
          · intro j hj
            unfold strictly_better
            rcases Nat.lt_succ_iff_lt_or_eq.1 hj with h | h
            · exact hleast j h
            · subst h; omega
          · unfold same_rank
            rw [htie]
            constructor
            · rintro ⟨j, hj, hne, hr⟩
              exact ⟨j, by omega, hne, hr⟩
            · rintro ⟨j, hj, hne, hb, hl⟩
              rcases Nat.lt_succ_iff_lt_or_eq.1 hj with h | h
              · exact ⟨j, h, hne, hb, hl⟩
              · subst h; omega
    · rw [if_neg h2]
      refine ⟨by omega, hbad, hlen, ?_, ?_⟩
      · intro j hj
        unfold strictly_better
        rcases Nat.lt_succ_iff_lt_or_eq.1 hj with h | h
        · exact hleast j h
        · subst h; omega
      · unfold same_rank
        rw [htie]
        constructor
        · rintro ⟨j, hj, hne, hr⟩
          exact ⟨j, by omega, hne, hr⟩
        · rintro ⟨j, hj, hne, hb, hl⟩
          rcases Nat.lt_succ_iff_lt_or_eq.1 hj with h | h
          · exact ⟨j, h, hne, hb, hl⟩
          · subst h; omega

theorem pick_loop_inv (names : List CStr) (rest : List CStr) (st : PickState) (m : Nat)
    (hdrop : names.drop m = rest) (hm : m ≤ names.length) (hinv : PickInv names st m) :
    PickInv names (pick_loop st m rest) names.length := by
  induction rest generalizing st m with
  | nil =>
    have : names.length ≤ m := List.drop_eq_nil_iff.1 hdrop
    have hmE : m = names.length := by omega
    subst hmE
    exact hinv
  | cons x rest ih =>
    have hlt : m < names.length := by
      by_contra hge
      have : names.drop m = [] := List.drop_eq_nil_iff.2 (by omega)
      rw [this] at hdrop
      exact List.noConfusion hdrop
    have hx : names.getD m [] = x := by
      have h1 : names[m]? = some x := by
        rw [← List.head?_drop, hdrop]; rfl
      simp [List.getD_eq_getElem?_getD, h1]
    have hdrop' : names.drop (m + 1) = rest := by
      rw [← List.drop_drop, hdrop]; rfl
    unfold pick_loop
    rw [← hx]
    exact ih _ (m + 1) hdrop' hlt (pick_step_inv names st m hinv)

theorem pick_final_inv (first : CStr) (rest : List CStr) :
    PickInv (first :: rest)
      (pick_loop
        { best := 0, best_bad := has_hyphen_or_digit first, best_len := first.length, tie := false }
        1 rest)
      (first :: rest).length := by
  apply pick_loop_inv (first :: rest) rest _ 1 (by simp) (by simp)
  refine ⟨by simp, by simp, by simp, ?_, ?_⟩
  · intro j hj
    have : j = 0 := by omega
    subst this
    unfold strictly_better
    simp
  · simp only [Bool.false_eq_true, false_iff, not_exists, not_and]
    intro j hj hne
    omega

theorem pick_best_characterization (names : List CStr) (hne : names ≠ []) :
    (∀ b, b < names.length →
      (pick_best_external_candidate names = (b : Int) ↔
        ∀ j, j < names.length → j ≠ b →
          strictly_better (names.getD b []) (names.getD j [])))
    ∧ (pick_best_external_candidate names = -1 ↔
        ∃ i j, i < names.length ∧ j < names.length ∧ i ≠ j
          ∧ same_rank (names.getD i []) (names.getD j [])
          ∧ ∀ k, k < names.length → ¬ strictly_better (names.getD k []) (names.getD i []))
    ∧ (pick_best_external_candidate names = -1
        ∨ ∃ b, b < names.length ∧ pick_best_external_candidate names = (b : Int))
    ∧ pick_best_external_candidate ["gcc".toList, "gcc-12".toList, "gcov".toList] = 0
    ∧ pick_best_external_candidate ["gcc".toList, "gdc".toList] = -1 := by
  cases names with
  | nil => exact absurd rfl hne
  | cons first rest =>
    have hinv := pick_final_inv first rest
    obtain ⟨hlt, -, -, hleast, htie⟩ := hinv
    generalize hst : pick_loop
        { best := 0, best_bad := has_hyphen_or_digit first, best_len := first.length, tie := false }
        1 rest = st at hlt hleast htie
    have hpick : pick_best_external_candidate (first :: rest)
        = if st.tie then -1 else (st.best : Int) := by
      simp only [pick_best_external_candidate, hst]
    unfold strictly_better at hleast
    unfold same_rank at htie
    refine ⟨?_, ?_, ?_, by decide, by decide⟩
    · intro b hb
      rw [hpick]
      constructor
      · intro h j hj hjb
        by_cases ht : st.tie = true
        · rw [if_pos ht] at h
          omega
        · rw [if_neg ht] at h
          have hbb : st.best = b := by exact_mod_cast h
          have h1 := hleast j hj
          have h3 : ¬ (has_hyphen_or_digit ((first :: rest).getD j [])
                = has_hyphen_or_digit ((first :: rest).getD st.best [])
              ∧ ((first :: rest).getD j []).length
                = ((first :: rest).getD st.best []).length) :=
            fun hr => ht (htie.2 ⟨j, hj, by omega, hr⟩)
          rw [hbb] at h1 h3
          unfold strictly_better
          omega
      · intro h
        have hbest : st.best = b := by
          by_contra hne'
          have h1 := h st.best hlt hne'
          have h2 := hleast b hb
          unfold strictly_better at h1
          omega
        have ht : ¬ st.tie = true := by
          intro ht
          obtain ⟨j, hj, hjne, hr⟩ := htie.1 ht
          have h1 := h j hj (by omega)
          unfold strictly_better at h1
          rw [hbest] at hr
          omega
        rw [if_neg ht, hbest]
    · rw [hpick]
      constructor
      · intro h
        by_cases ht : st.tie = true
        · obtain ⟨j, hj, hjne, hr⟩ := htie.1 ht
          refine ⟨st.best, j, hlt, hj, fun e => hjne e.symm, ?_, ?_⟩
          · unfold same_rank; omega
          · intro k hk
            unfold strictly_better
            exact hleast k hk
        · rw [if_neg ht] at h
          omega
      · rintro ⟨i, j, hi, hj, hij, hr, hmin⟩
        unfold same_rank at hr
        unfold strictly_better at hmin
        have h1 := hleast i hi
        have h2 := hmin st.best hlt
        have ht : st.tie = true := by
          apply htie.2
          by_cases hib : i = st.best
          · exact ⟨j, hj, by omega, by omega⟩
          · exact ⟨i, hi, hib, by omega⟩
        rw [if_pos ht]
    · rw [hpick]
      by_cases ht : st.tie = true
      · left; rw [if_pos ht]
      · right; exact ⟨st.best, hlt, by rw [if_neg ht]⟩

theorem digit_range_iff (c : Char) : ('0' ≤ c ∧ c ≤ '9') ↔ c.isDigit = true := by
  simp [Char.isDigit, Char.le_def]

theorem has_hyphen_or_digit_spec (s : CStr) :
    (has_hyphen_or_digit s = 1 ↔ contains_hyphen_or_digit s)
    ∧ (has_hyphen_or_digit s = 0 ↔ ¬ contains_hyphen_or_digit s) := by
  unfold contains_hyphen_or_digit
  induction s with
  | nil => simp [has_hyphen_or_digit]
  | cons c t ih =>
    by_cases hc : c = '-' ∨ ('0' ≤ c ∧ c ≤ '9')
    · have hc2 : c = '-' ∨ c.isDigit = true := by
        rcases hc with h | h
        · exact Or.inl h
        · exact Or.inr ((digit_range_iff c).1 h)
      simp only [has_hyphen_or_digit, if_pos hc]
      refine ⟨⟨fun _ => ⟨c, List.mem_cons_self _ _, hc2⟩, fun _ => trivial⟩, ?_⟩
      constructor
      · intro h; exact absurd h (by decide)
      · intro h; exact absurd ⟨c, List.mem_cons_self _ _, hc2⟩ h
    · have hc2 : ¬ (c = '-' ∨ c.isDigit = true) := by
        intro h
        apply hc
        rcases h with h | h
        · exact Or.inl h
        · exact Or.inr ((digit_range_iff c).2 h)
      simp only [has_hyphen_or_digit, if_neg hc]
      constructor
      · rw [ih.1]
        constructor
        · rintro ⟨x, hx, hp⟩
          exact ⟨x, List.mem_cons_of_mem _ hx, hp⟩
        · rintro ⟨x, hx, hp⟩
          rcases List.mem_cons.1 hx with h | h
          · rw [h] at hp; exact absurd hp hc2
          · exact ⟨x, h, hp⟩
      · rw [ih.2]
        constructor
        · rintro h ⟨x, hx, hp⟩
          rcases List.mem_cons.1 hx with h1 | h1
          · rw [h1] at hp; exact hc2 hp
          · exact h ⟨x, h1, hp⟩
        · rintro h ⟨x, hx, hp⟩
          exact h ⟨x, List.mem_cons_of_mem _ hx, hp⟩

theorem has_hyphen_or_digit_cases (s : CStr) :
    (contains_hyphen_or_digit s ∧ has_hyphen_or_digit s = 1)
    ∨ (¬ contains_hyphen_or_digit s ∧ has_hyphen_or_digit s = 0) := by
  by_cases h : contains_hyphen_or_digit s
  · exact Or.inl ⟨h, (has_hyphen_or_digit_spec s).1.2 h⟩
  · exact Or.inr ⟨h, (has_hyphen_or_digit_spec s).2.2 h⟩

theorem strictly_better_iff (a b : CStr) :
    strictly_better a b ↔
      ((¬ contains_hyphen_or_digit a ∧ contains_hyphen_or_digit b)
        ∨ ((contains_hyphen_or_digit a ↔ contains_hyphen_or_digit b) ∧ a.length < b.length)) := by
  unfold strictly_better
  rcases has_hyphen_or_digit_cases a with ⟨ha, ea⟩ | ⟨ha, ea⟩ <;>
    rcases has_hyphen_or_digit_cases b with ⟨hb, eb⟩ | ⟨hb, eb⟩ <;>
    rw [ea, eb] <;> simp [ha, hb]

theorem same_rank_iff (a b : CStr) :
    same_rank a b ↔
      ((contains_hyphen_or_digit a ↔ contains_hyphen_or_digit b) ∧ a.length = b.length) := by
  unfold same_rank
  rcases has_hyphen_or_digit_cases a with ⟨ha, ea⟩ | ⟨ha, ea⟩ <;>
    rcases has_hyphen_or_digit_cases b with ⟨hb, eb⟩ | ⟨hb, eb⟩ <;>
    rw [ea, eb] <;> simp [ha, hb]

/-- C3.  For every non-empty candidate list (pairwise distinct or not),
`pick_best_external_candidate` returns the index `b` exactly when `names[b]`
is strictly better than every other candidate, and returns -1 exactly when the
least rank is attained by two or more candidates; the result is always -1 or a
valid index.  The order is the lexicographic one of the claim: `a` is strictly
better than `b` exactly when `a` holds no hyphen or digit and `b` holds one,
or both agree on that and `a` is shorter; two names have the same rank exactly
when they agree on holding a hyphen or digit and have the same length.
`{gcc, gcc-12, gcov}` resolves to index 0 (`gcc`), `{gcc, gdc}` to -1,
`{python3, pythonw}` to index 1 (`pythonw`, same length, no digit) and
`{a-b, abcde}` to index 1 (`abcde`, longer, no hyphen). -/
theorem pick_best_external_candidate_spec (names : List CStr) (hne : names ≠ []) :
    (∀ b, b < names.length →
      (pick_best_external_candidate names = (b : Int) ↔
        ∀ j, j < names.length → j ≠ b →
          strictly_better (names.getD b []) (names.getD j [])))
    ∧ (pick_best_external_candidate names = -1 ↔
        ∃ i j, i < names.length ∧ j < names.length ∧ i ≠ j
          ∧ same_rank (names.getD i []) (names.getD j [])
          ∧ ∀ k, k < names.length → ¬ strictly_better (names.getD k []) (names.getD i []))
    ∧ (pick_best_external_candidate names = -1
        ∨ ∃ b, b < names.length ∧ pick_best_external_candidate names = (b : Int))
    ∧ pick_best_external_candidate ["gcc".toList, "gcc-12".toList, "gcov".toList] = 0
    ∧ pick_best_external_candidate ["gcc".toList, "gdc".toList] = -1
    ∧ (∀ a b : CStr, strictly_better a b ↔
        ((¬ contains_hyphen_or_digit a ∧ contains_hyphen_or_digit b)
          ∨ ((contains_hyphen_or_digit a ↔ contains_hyphen_or_digit b)
              ∧ a.length < b.length)))
    ∧ (∀ a b : CStr, same_rank a b ↔
        ((contains_hyphen_or_digit a ↔ contains_hyphen_or_digit b) ∧ a.length = b.length))
    ∧ (∀ s : CStr, (has_hyphen_or_digit s = 1 ↔ ∃ c ∈ s, c = '-' ∨ c.isDigit = true)
        ∧ (has_hyphen_or_digit s = 0 ↔ ∀ c ∈ s, c ≠ '-' ∧ c.isDigit = false))
    ∧ pick_best_external_candidate ["python3".toList, "pythonw".toList] = 1
    ∧ pick_best_external_candidate ["a-b".toList, "abcde".toList] = 1 := by
  obtain ⟨h1, h2, h3, h4, h5⟩ := pick_best_characterization names hne
  refine ⟨h1, h2, h3, h4, h5, strictly_better_iff, same_rank_iff, ?_, by decide, by decide⟩
  intro s
  refine ⟨(has_hyphen_or_digit_spec s).1, ?_⟩
  rw [(has_hyphen_or_digit_spec s).2]
  unfold contains_hyphen_or_digit
  constructor
  · intro h c hc
    constructor
    · intro hd
      exact h ⟨c, hc, Or.inl hd⟩
    · cases hdig : c.isDigit with
      | false => rfl
      | true => exact absurd ⟨c, hc, Or.inr hdig⟩ h
  · rintro h ⟨c, hc, hp⟩
    rcases hp with hp | hp
    · exact (h c hc).1 hp
    · rw [(h c hc).2] at hp
      exact Bool.noConfusion hp

/-- Witness of C3 at the candidate list `{gcc, gcc-12, gcov}`: index 0 is
returned and `gcc` is strictly better than both other candidates. -/
theorem pick_best_external_candidate_spec_witness :
    ["gcc".toList, "gcc-12".toList, "gcov".toList] ≠ []
    ∧ ∀ j, j < 3 → j ≠ 0 →
        strictly_better ("gcc".toList)
          (["gcc".toList, "gcc-12".toList, "gcov".toList].getD j []) :=
  ⟨by decide,
   ((pick_best_external_candidate_spec
      ["gcc".toList, "gcc-12".toList, "gcov".toList] (by decide)).1 0 (by decide)).1
     (by decide)⟩

/-! ## Lemmas on the path executable index -/

theorem first_occurrences_snoc (l : List CStr) (x : CStr) :
    first_occurrences (l ++ [x])
      = if x ∈ l then first_occurrences l else first_occurrences l ++ [x] := by
  unfold first_occurrences
  rw [List.reverse_append, List.reverse_singleton, List.singleton_append]
  by_cases h : x ∈ l
  · rw [if_pos h, List.dedup_cons_of_mem (List.mem_reverse.2 h)]
  · rw [if_neg h, List.dedup_cons_of_not_mem (fun hc => h (List.mem_reverse.1 hc)),
      List.reverse_cons]

theorem mem_first_occurrences (l : List CStr) (x : CStr) :
    x ∈ first_occurrences l ↔ x ∈ l := by
  unfold first_occurrences
  rw [List.mem_reverse, List.mem_dedup, List.mem_reverse]

theorem first_occurrences_nodup (l : List CStr) : (first_occurrences l).Nodup := by
  unfold first_occurrences
  exact List.nodup_reverse.2 (List.nodup_dedup _)

theorem first_occurrences_prefix (l m : List CStr) :
    first_occurrences l <+: first_occurrences (l ++ m) := by
  induction m generalizing l with
  | nil => simp
  | cons x m ih =>
    have h1 : first_occurrences l <+: first_occurrences (l ++ [x]) := by
      rw [first_occurrences_snoc]
      split
      · exact List.prefix_refl _
      · exact List.prefix_append _ _
    have h2 := ih (l ++ [x])
    rw [List.append_assoc, List.singleton_append] at h2
    exact h1.trans h2

theorem add_candidates_full (max_names : Nat) (xs names : List CStr)
    (h : ¬ names.length < max_names) : add_candidates max_names xs names = names := by
  cases xs with
  | nil => rfl
  | cons x xs => simp only [add_candidates, if_pos h]

theorem add_candidates_append (max_names : Nat) (xs ys names : List CStr) :
    add_candidates max_names (xs ++ ys) names
      = add_candidates max_names ys (add_candidates max_names xs names) := by
  induction xs generalizing names with
  | nil => rfl
  | cons x xs ih =>
    rw [List.cons_append]
    simp only [add_candidates]
    by_cases h : ¬ names.length < max_names
    · rw [if_pos h, if_pos h, add_candidates_full _ _ _ h]
    · rw [if_neg h, if_neg h]
      by_cases hx : x ∈ names
      · rw [if_pos hx, if_pos hx, ih]
      · rw [if_neg hx, if_neg hx, ih]

theorem add_candidates_eq_take (max_names : Nat) (xs pre names : List CStr)
    (hnames : names = (first_occurrences pre).take max_names) :
    add_candidates max_names xs names = (first_occurrences (pre ++ xs)).take max_names := by
  induction xs generalizing pre names with
  | nil => simpa using hnames
  | cons x xs ih =>
    have hsplit : pre ++ x :: xs = (pre ++ [x]) ++ xs := by simp
    simp only [add_candidates]
    by_cases h : ¬ names.length < max_names
    · rw [if_pos h]
      have hlen : max_names ≤ (first_occurrences pre).length := by
        rw [hnames, List.length_take] at h
        omega
      obtain ⟨t, ht⟩ := first_occurrences_prefix pre (x :: xs)
      rw [← ht, List.take_append_of_le_length hlen]
      exact hnames
    · rw [if_neg h]
      have hlen : (first_occurrences pre).length < max_names := by
        rw [hnames, List.length_take] at h
        omega
      have hnames' : names = first_occurrences pre := by
        rw [hnames]
        exact List.take_of_length_le (by omega)
      rw [hsplit]
      by_cases hx : x ∈ names
      · rw [if_pos hx]
        apply ih
        have hxp : x ∈ pre := (mem_first_occurrences pre x).1 (hnames' ▸ hx)
        rw [first_occurrences_snoc, if_pos hxp]
        exact hnames
      · rw [if_neg hx]
        apply ih
        have hxp : x ∉ pre := fun hc => hx (hnames' ▸ (mem_first_occurrences pre x).2 hc)
        rw [first_occurrences_snoc, if_neg hxp, hnames']
        exact (List.take_of_length_le (by simp; omega)).symm

theorem scan_dir_eq (env : Env) (pfx : CStr) (max_names : Nat) (dir_path : CStr)
    (ents names : List CStr) (hfit : ∀ name ∈ ents, name.length < 256) :
    scan_dir env pfx max_names dir_path ents names
      = add_candidates max_names
          (ents.filter (fun name =>
            !(name.head? == some '.') && starts_with_icase name pfx
              && env.access_x (full_path dir_path name)))
          names := by
  induction ents generalizing names with
  | nil => rfl
  | cons e ents ih =>
    have hfit' : ∀ name ∈ ents, name.length < 256 := fun n hn => hfit n (List.mem_cons_of_mem _ hn)
    have he : snprintf_s 256 e = e := snprintf_s_fits 256 e (hfit e (List.mem_cons_self _ _))
    simp only [scan_dir]
    by_cases h : ¬ names.length < max_names
    · rw [if_pos h, add_candidates_full _ _ _ h]
    · rw [if_neg h]
      by_cases h1 : e.head? = some '.'
      · rw [if_pos h1, ih _ hfit', List.filter_cons_of_neg (by simp [h1])]
      · rw [if_neg h1]
        by_cases h2 : starts_with_icase e pfx = true
        · rw [if_neg (by simpa using h2)]
          by_cases h3 : env.access_x (full_path dir_path e) = true
          · rw [if_neg (by simpa using h3), List.filter_cons_of_pos (by simp [h1, h2, h3])]
            simp only [add_candidates, if_neg h]
            have hdup : is_duplicate_name e names = true ↔ e ∈ names := by
              unfold is_duplicate_name
              simp only [List.any_eq_true, beq_iff_eq]
              constructor
              · rintro ⟨x, hx, rfl⟩; exact hx
              · intro hm; exact ⟨e, hm, rfl⟩
            by_cases h4 : e ∈ names
            · rw [if_pos (hdup.2 h4), if_pos h4, ih _ hfit']
            · rw [if_neg (fun hc => h4 (hdup.1 hc)), if_neg h4, he, ih _ hfit']
          · rw [if_pos (by simpa using h3), ih _ hfit',
              List.filter_cons_of_neg (by simp [h3])]
        · rw [if_pos (by simpa using h2), ih _ hfit',
            List.filter_cons_of_neg (by simp [h2])]

theorem scan_path_eq (env : Env) (pfx : CStr) (max_names : Nat) (dirs names : List CStr)
    (hfit : dirent_names_fit env) :
    scan_path env pfx max_names dirs names
      = add_candidates max_names (dirs.flatMap (dir_candidates env pfx)) names := by
  induction dirs generalizing names with
  | nil => rfl
  | cons d dirs ih =>
    simp only [scan_path, List.flatMap_cons]
    rw [add_candidates_append]
    by_cases h : ¬ names.length < max_names
    · rw [if_pos h, add_candidates_full _ _ _ h, add_candidates_full _ _ _ h]
    · rw [if_neg h]
      cases hd : env.opendir d with
      | none =>
        simp only [dir_candidates, hd]
        rw [ih]
        rfl
      | some ents =>
        simp only [dir_candidates, hd]
        rw [ih, scan_dir_eq env pfx max_names d ents names (hfit d ents hd)]

theorem collect_eq_take (env : Env) (pfx : CStr) (max_names : Nat)
    (hfit : dirent_names_fit env) (hp : pfx ≠ []) :
    collect_path_executables_with_prefix env pfx max_names
      = (first_occurrences (path_candidates env pfx)).take max_names := by
  unfold collect_path_executables_with_prefix path_candidates
  rw [if_neg hp]
  cases hP : env.PATH with
  | none => simp [first_occurrences]
  | some path_env =>
    simp only
    by_cases he : path_env = []
    · rw [if_pos he, he]
      simp [strtok_tokens, strtok_aux, first_occurrences]
    · rw [if_neg he, scan_path_eq env pfx max_names _ _ hfit]
      have := add_candidates_eq_take max_names
        ((strtok_tokens [':'] path_env).flatMap (dir_candidates env pfx)) [] []
        (by simp [first_occurrences])
      simpa using this

set_option maxRecDepth 1000000 in
theorem collect_long_entry :
    collect_path_executables_with_prefix env_long_entry "g".toList 32
      = [List.replicate 255 'g', List.replicate 255 'g'] := by
  decide

/-- C4 (evaluation at the failing input).  The line `c` holds no space and is
a prefix of five built-in names, so `complete_builtin_command` returns 2; the
tab handler then still runs the external resolution, and with a search path
whose only candidate is `cc` the line buffer becomes `cc`. -/
theorem tab_event_ambiguous_builtin_spliced_external :
    strrchr "c".toList ' ' = none
    ∧ builtin_names.filter (fun n => starts_with_icase n "c".toList)
        = ["cd".toList, "clear".toList, "calc".toList, "count".toList, "cat".toList]
    ∧ complete_builtin_command "c".toList [] 128 = (2, [])
    ∧ complete_external_command env_only_cc "c".toList [] 128 = (1, "cc".toList)
    ∧ tab_event env_only_cc ⟨"c".toList, 1024⟩ = ⟨"cc".toList, 1024⟩
    ∧ tab_event env_only_cc ⟨"c".toList, 1024⟩ ≠ ⟨"c".toList, 1024⟩ := by
  decide

theorem collect_flag_loop_mem (partial_arg : CStr) (max_out : Nat)
    (flags acc : List FlagHelp) :
    ∀ f ∈ collect_flag_loop partial_arg max_out flags acc, f ∈ acc ∨ f ∈ flags := by
  induction flags generalizing acc with
  | nil => intro f hf; exact Or.inl hf
  | cons g flags ih =>
    intro f hf
    simp only [collect_flag_loop] at hf
    by_cases h1 : ¬ acc.length < max_out
    · rw [if_pos h1] at hf
      exact Or.inl hf
    · rw [if_neg h1] at hf
      by_cases h2 : partial_arg = [] ∨ starts_with g.flag partial_arg = true
      · rw [if_pos h2] at hf
        rcases ih _ f hf with h | h
        · rcases List.mem_append.1 h with h' | h'
          · exact Or.inl h'
          · simp at h'; subst h'; exact Or.inr (List.mem_cons_self _ _)
        · exact Or.inr (List.mem_cons_of_mem _ h)
      · rw [if_neg h2] at hf
        rcases ih _ f hf with h | h
        · exact Or.inl h
        · exact Or.inr (List.mem_cons_of_mem _ h)

theorem gcc_flags_nonempty_short :
    ∀ f ∈ GCC_FLAGS, f.flag ≠ [] ∧ f.flag.length < 128 := by
  decide

theorem complete_external_arg_unique_flag (cmd partial_arg out F : CStr) (out_sz : Nat)
    (hres : complete_external_arg cmd partial_arg out out_sz = (1, F)) (hsz : 128 ≤ out_sz) :
    ∃ f ∈ GCC_FLAGS, F = f.flag := by
  unfold complete_external_arg at hres
  have hsz0 : out_sz ≠ 0 := by omega
  rw [if_neg hsz0] at hres
  by_cases h1 : cmd = []
  · rw [if_pos h1] at hres; simp at hres
  · rw [if_neg h1] at hres
    by_cases h2 : cmd ≠ "gcc".toList
    · rw [if_pos h2] at hres; simp at hres
    · rw [if_neg h2] at hres
      simp only at hres
      by_cases h3 : (collect_flag_matches GCC_FLAGS partial_arg 32).length = 1
      · rw [if_pos h3] at hres
        obtain ⟨f, hfound⟩ := List.length_eq_one.1 h3
        rw [hfound] at hres
        have hf : f ∈ GCC_FLAGS := by
          have hm : f ∈ collect_flag_matches GCC_FLAGS partial_arg 32 := by rw [hfound]; simp
          unfold collect_flag_matches at hm
          rw [if_neg (by decide)] at hm
          rcases collect_flag_loop_mem _ _ _ _ f hm with h | h
          · simp at h
          · exact h
        refine ⟨f, hf, ?_⟩
        simp only [List.map_cons, List.map_nil, List.getD_cons_zero, Prod.mk.injEq,
          true_and] at hres
        rw [← hres]
        exact snprintf_s_fits _ _ (by have := (gcc_flags_nonempty_short f hf).2; omega)
      · rw [if_neg h3] at hres
        by_cases h4 : (collect_flag_matches GCC_FLAGS partial_arg 32).length > 1
        · rw [if_pos h4] at hres; simp at hres
        · rw [if_neg h4] at hres; simp at hres

/-- C5 (amended).  On a tab event with a line that contains a space (the last
one at offset `i`), whose first token is `gcc` and whose text after the last
space resolves uniquely to a flag `F`, and where the spliced line fits the
buffer (`i + 1 + length F < bufsize`), the line buffer afterwards is exactly
the line up to and including its last space followed by `F`, and the capacity
is unchanged. -/
theorem tab_event_flag_splice (env : Env) (lb : LineBuf) (i : Nat) (F : CStr)
    (hsp : strrchr lb.buffer ' ' = some i)
    (hcmd : first_token lb.buffer = "gcc".toList)
    (hres : complete_external_arg "gcc".toList (lb.buffer.drop (i + 1)) [] 128 = (1, F))
    (hfit : i + 1 + F.length < lb.bufsize) :
    tab_event env lb = { buffer := lb.buffer.take (i + 1) ++ F, bufsize := lb.bufsize } := by
  obtain ⟨f, hf, hF⟩ := complete_external_arg_unique_flag _ _ _ _ _ hres (le_refl _)
  have hne : F ≠ [] := hF ▸ (gcc_flags_nonempty_short f hf).1
  unfold tab_event
  rw [hsp]
  simp only [tab_argument, hcmd, hres]
  rw [if_pos ⟨trivial, hne⟩, if_pos (by omega), snprintf_s_fits _ _ (by omega)]

/-- Witness of C5 (amended): the line `gcc -Wal` becomes `gcc -Wall`. -/
theorem tab_event_flag_splice_witness :
    (strrchr "gcc -Wal".toList ' ' = some 3
      ∧ first_token "gcc -Wal".toList = "gcc".toList
      ∧ complete_external_arg "gcc".toList ("gcc -Wal".toList.drop (3 + 1)) [] 128
          = (1, "-Wall".toList)
      ∧ 3 + 1 + "-Wall".toList.length < 1024)
    ∧ tab_event env_only_cc ⟨"gcc -Wal".toList, 1024⟩ = ⟨"gcc -Wall".toList, 1024⟩ :=
  ⟨⟨by decide, by decide, by decide, by decide⟩,
   tab_event_flag_splice env_only_cc ⟨"gcc -Wal".toList, 1024⟩ 3 "-Wall".toList
     (by decide) (by decide) (by decide) (by decide)⟩

set_option maxRecDepth 1000000 in
/-- C5 as stated fails on a line close to the capacity of the buffer: for the
1016-character line `gcc`, 1010 spaces, `-fs` in the initial buffer of 1024
bytes, the partial `-fs` resolves uniquely to `-fsanitize=address`, and the
buffer afterwards ends in the cut token `-fsanitize`. -/
theorem tab_event_flag_splice_truncated_counterexample :
    long_gcc_line.length < 1024
    ∧ strrchr long_gcc_line ' ' = some 1012
    ∧ first_token long_gcc_line = "gcc".toList
    ∧ complete_external_arg "gcc".toList (long_gcc_line.drop 1013) [] 128
        = (1, "-fsanitize=address".toList)
    ∧ (tab_event env_only_cc ⟨long_gcc_line, 1024⟩).buffer
        = long_gcc_line.take 1013 ++ "-fsanitize".toList
    ∧ (tab_event env_only_cc ⟨long_gcc_line, 1024⟩).buffer
        ≠ long_gcc_line.take 1013 ++ "-fsanitize=address".toList := by
  decide

/-! ## The network suggestion client -/

theorem read_response_perform_failed (net : Net) (res : Nat) (body : CStr) (h : res ≠ 0) :
    read_response net res body = Outcome.null := by
  unfold read_response
  rw [if_pos h]

theorem read_response_no_field (net : Net) (res : Nat) (body : CStr)
    (h : json_object_object_get_ex (net.json_tokener_parse body) "response".toList = none) :
    read_response net res body = Outcome.null := by
  unfold read_response
  split
  · rfl
  · split
    · rfl
    · rw [h]

theorem read_response_parse_failed (net : Net) (res : Nat) (body : CStr)
    (h : net.json_tokener_parse body = Json.null) :
    read_response net res body = Outcome.null := by
  apply read_response_no_field
  rw [h]
  rfl

theorem read_response_value (net : Net) (res : Nat) (body v : CStr)
    (h : read_response net res body = Outcome.value v) :
    res = 0 ∧ ∃ fields field,
      net.json_tokener_parse body = Json.obj fields
      ∧ json_object_object_get_ex (Json.obj fields) "response".toList = some field
      ∧ json_object_get_string net field = some v := by
  by_cases hres : res ≠ 0
  · rw [read_response_perform_failed net res body hres] at h
    exact Outcome.noConfusion h
  · refine ⟨by omega, ?_⟩
    cases hget : json_object_object_get_ex (net.json_tokener_parse body) "response".toList with
    | none =>
      rw [read_response_no_field net res body hget] at h
      exact Outcome.noConfusion h
    | some field =>
      cases hp : net.json_tokener_parse body with
      | obj fields =>
        rw [hp] at hget
        refine ⟨fields, field, rfl, hget, ?_⟩
        unfold read_response at h
        rw [if_neg hres, hp] at h
        simp only [hget] at h
        cases hs : json_object_get_string net field with
        | none => rw [hs] at h; exact Outcome.noConfusion h
        | some s =>
          rw [hs] at h
          simp only [Outcome.value.injEq] at h
          rw [h]
      | null => rw [hp] at hget; simp [json_object_object_get_ex] at hget
      | bool b => rw [hp] at hget; simp [json_object_object_get_ex] at hget
      | number t => rw [hp] at hget; simp [json_object_object_get_ex] at hget
      | str s => rw [hp] at hget; simp [json_object_object_get_ex] at hget
      | arr items => rw [hp] at hget; simp [json_object_object_get_ex] at hget

theorem read_response_contained (net : Net) (request : CStr) (hinit : net.curl_easy_init_ok = true) :
    contained net request
      (read_response net (net.curl_easy_perform request).1 (net.curl_easy_perform request).2) := by
  refine ⟨read_response_perform_failed net _ _, read_response_parse_failed net _ _,
    read_response_no_field net _ _, ?_⟩
  intro v hv
  exact ⟨hinit, read_response_value net _ _ v hv⟩

theorem null_contained (net : Net) (request : CStr) : contained net request Outcome.null :=
  ⟨fun _ => rfl, fun _ => rfl, fun _ => rfl, fun _ hv => Outcome.noConfusion hv⟩

/-- C7.  For every world (transport, response body, parser) and every prompt,
`get_ollama_completion` returns NULL, and does not fault, whenever the
transport reports a failure, the body does not parse, or the parsed value has
no `response` field, and it returns a string only when the transport
succeeded and the body parsed as an object with a `response` field, the
string being the one of that field; the same holds for
`get_ollama_command_description` on every command that is not overridden. -/
theorem ollama_client_failure_containment (net : Net) (prompt cmd : CStr)
    (hov : is_overridden cmd = false) :
    contained net (completion_request prompt) (get_ollama_completion net prompt).result
    ∧ contained net (description_request net cmd)
        (get_ollama_command_description net cmd).result := by
  constructor
  · unfold get_ollama_completion
    by_cases hinit : net.curl_easy_init_ok = true
    · rw [if_pos hinit]
      exact read_response_contained net _ hinit
    · rw [if_neg hinit]
      exact null_contained net _
  · unfold get_ollama_command_description
    by_cases hc : cmd = []
    · rw [if_pos hc]
      exact null_contained net _
    · rw [if_neg hc, hov]
      simp only [Bool.false_eq_true, if_false]
      by_cases hinit : net.curl_easy_init_ok = true
      · rw [if_pos hinit]
        exact read_response_contained net _ hinit
      · rw [if_neg hinit]
        exact null_contained net _

/-- Witness of C7: with an unreachable service both functions return NULL for
the prompt `xyz` and the command `git`. -/
theorem ollama_client_failure_containment_witness :
    is_overridden "git".toList = false
    ∧ (get_ollama_completion net_unreachable "xyz".toList).result = Outcome.null
    ∧ (get_ollama_command_description net_unreachable "git".toList).result = Outcome.null :=
  ⟨by decide,
   (ollama_client_failure_containment net_unreachable "xyz".toList "git".toList
      (by decide)).1.1 (by decide),
   (ollama_client_failure_containment net_unreachable "xyz".toList "git".toList
      (by decide)).2.1 (by decide)⟩

/-- C8.  For the tool `gcc`, `get_ollama_command_description` returns the fixed
three-line text and makes no call that leaves the process (no HTTP request, no
subprocess), in every world; so two runs in different worlds give the same
result. -/
theorem gcc_description_is_fixed (net net2 : Net) :
    get_ollama_command_description net "gcc".toList
      = { result := Outcome.value gcc_fixed_description, calls := [] }
    ∧ get_ollama_command_description net "gcc".toList
      = get_ollama_command_description net2 "gcc".toList
    ∧ (gcc_fixed_description.filter (fun c => c = '\n')).length = 3
    ∧ gcc_fixed_description.getLast? = some '\n' := by
  have h : ∀ n : Net, get_ollama_command_description n "gcc".toList
      = { result := Outcome.value gcc_fixed_description, calls := [] } := by
    intro n
    unfold get_ollama_command_description
    rw [if_neg (by decide), if_pos (by decide)]
  exact ⟨h net, (h net).trans (h net2).symm, by decide, by decide⟩

/-- C6 (evaluation at a failing input).  For the help text `ESC[1mUsage`,
which holds the control character U+001B, `escape_json_string` leaves that
character as it is, and the text between quotation marks is not a JSON string
literal: parsing it fails instead of yielding the input. -/
theorem escape_json_string_control_character :
    escape_json_string "\x1b[1mUsage".toList = "\x1b[1mUsage".toList
    ∧ parse_json_string (json_string_field "\x1b[1mUsage".toList) = none
    ∧ parse_json_string (json_string_field "\x1b[1mUsage".toList)
        ≠ some "\x1b[1mUsage".toList := by
  decide

/-! ## The raw terminal session -/

/-- C9 (evaluation at a failing input).  On a Linux terminal in its usual
cooked state with `BRKINT` set, `enable_raw_mode` followed by
`disable_raw_mode` leaves `c_iflag` without `BRKINT`: the attributes after the
round trip differ from the ones before it (all other modelled fields are
equal). -/
theorem raw_mode_round_trip_loses_brkint :
    cooked_terminal.c_iflag = 0o2402
    ∧ (disable_raw_mode linux_termios true
        (enable_raw_mode linux_termios true cooked_terminal)).c_iflag = 0o2400
    ∧ disable_raw_mode linux_termios true (enable_raw_mode linux_termios true cooked_terminal)
        = { cooked_terminal with c_iflag := 0o2400 }
    ∧ disable_raw_mode linux_termios true (enable_raw_mode linux_termios true cooked_terminal)
        ≠ cooked_terminal := by
  decide

/-! ## The read loop -/

theorem read_step_cases (env : Env) (lb : LineBuf) (c : Int) :
    ((32 ≤ c ∧ c < 127) →
      read_step env lb c
        = Step.next
            { buffer := lb.buffer ++ [Char.ofNat c.toNat],
              bufsize := if lb.buffer.length ≥ lb.bufsize - 1
                then lb.bufsize + RIPPLE_RL_BUFSIZE else lb.bufsize })
    ∧ (¬ (32 ≤ c ∧ c < 127) →
        (c = EOF ∧ read_step env lb c
            = (if lb.buffer.length = 0 then Step.ret none else Step.next lb))
        ∨ ((c = 10 ∨ c = 13) ∧ read_step env lb c = Step.ret (some lb.buffer))
        ∨ (c = 9 ∧ read_step env lb c = Step.next (tab_event env lb))
        ∨ ((c = 127 ∨ c = 8) ∧ read_step env lb c
            = Step.next { lb with buffer := lb.buffer.dropLast })
        ∨ read_step env lb c = Step.next lb) := by
  unfold read_step EOF
  constructor
  · intro h
    rw [if_neg (by omega), if_neg (by omega), if_neg (by omega), if_neg (by omega),
      if_pos (by omega)]
  · intro h
    by_cases h1 : c = -1
    · left
      rw [if_pos h1]
      exact ⟨h1, rfl⟩
    · rw [if_neg h1]
      by_cases h2 : c = 10 ∨ c = 13
      · right; left
        rw [if_pos h2]
        exact ⟨h2, rfl⟩
      · rw [if_neg h2]
        by_cases h3 : c = 9
        · right; right; left
          rw [if_pos h3]
          exact ⟨h3, rfl⟩
        · rw [if_neg h3]
          by_cases h4 : c = 127 ∨ c = 8
          · right; right; right; left
            rw [if_pos h4]
            refine ⟨h4, ?_⟩
            by_cases h5 : lb.buffer.length > 0
            · rw [if_pos h5]
            · rw [if_neg h5]
              have : lb.buffer = [] := List.length_eq_zero.1 (by omega)
              cases lb with
              | mk b s =>
                simp only at this
                subst this
                rfl
          · right; right; right; right
            rw [if_neg h4, if_neg (by omega)]

/-- C12 (amended).  In the read loop an input code `c` is appended to the line
buffer when it lies in the half-open range [0x20, 0x7F), the capacity growing
by `RIPPLE_RL_BUFSIZE` when the buffer is full; every code outside that range
is handled as end-of-input, terminator, tab or backspace, or is ignored
without changing the buffer. -/
theorem read_step_insertion_range (env : Env) (lb : LineBuf) (c : Int) :
    ((32 ≤ c ∧ c < 127) →
      read_step env lb c
        = Step.next
            { buffer := lb.buffer ++ [Char.ofNat c.toNat],
              bufsize := if lb.buffer.length ≥ lb.bufsize - 1
                then lb.bufsize + RIPPLE_RL_BUFSIZE else lb.bufsize })
    ∧ (¬ (32 ≤ c ∧ c < 127) →
        (c = EOF ∧ read_step env lb c
            = (if lb.buffer.length = 0 then Step.ret none else Step.next lb))
        ∨ ((c = 10 ∨ c = 13) ∧ read_step env lb c = Step.ret (some lb.buffer))
        ∨ (c = 9 ∧ read_step env lb c = Step.next (tab_event env lb))
        ∨ ((c = 127 ∨ c = 8) ∧ read_step env lb c
            = Step.next { lb with buffer := lb.buffer.dropLast })
        ∨ read_step env lb c = Step.next lb) :=
  read_step_cases env lb c

/-- Witness of C12 (amended): the code 0x61 (`a`) is appended to the line
`l`. -/
theorem read_step_insertion_range_witness :
    ((32 : Int) ≤ 97 ∧ (97 : Int) < 127)
    ∧ read_step env_only_cc ⟨"l".toList, 1024⟩ 97 = Step.next ⟨"la".toList, 1024⟩ :=
  ⟨by decide,
   (read_step_insertion_range env_only_cc ⟨"l".toList, 1024⟩ 97).1 (by decide)⟩

/-- C12 as stated fails at the code 0x7E (`~`): it lies outside [0x20, 0x7E)
and the read loop appends it to the line buffer. -/
theorem read_step_tilde_counterexample :
    ¬ ((32 : Int) ≤ 126 ∧ (126 : Int) < 126)
    ∧ read_step env_only_cc ⟨"l".toList, 1024⟩ 126 = Step.next ⟨"l~".toList, 1024⟩
    ∧ ripple_read_line env_only_cc [126, 10] = Step.ret (some "~".toList) := by
  decide

/-- C13.  In `ripple_read_line` an end-of-input event with an empty buffer
ends the read with NULL; with a non-empty buffer it leaves the buffer and the
capacity as they are and the read goes on with the next event. -/
theorem read_step_end_of_input (env : Env) (lb : LineBuf) :
    (lb.buffer.length = 0 → read_step env lb EOF = Step.ret none
      ∧ ∀ rest, read_loop env lb (EOF :: rest) = Step.ret none)
    ∧ (lb.buffer.length ≠ 0 → read_step env lb EOF = Step.next lb
      ∧ ∀ rest, read_loop env lb (EOF :: rest) = read_loop env lb rest) := by
  constructor
  · intro h
    have h1 : read_step env lb EOF = Step.ret none := by
      unfold read_step
      rw [if_pos rfl, if_pos h]
    refine ⟨h1, fun rest => ?_⟩
    simp only [read_loop, h1]
  · intro h
    have h1 : read_step env lb EOF = Step.next lb := by
      unfold read_step
      rw [if_pos rfl, if_neg h]
    refine ⟨h1, fun rest => ?_⟩
    simp only [read_loop, h1]

/-- Witness of C13: end of input on the empty buffer returns NULL, and after
the character `a` it is ignored. -/
theorem read_step_end_of_input_witness :
    ((⟨[], 1024⟩ : LineBuf).buffer.length = 0
      ∧ read_step env_only_cc ⟨[], 1024⟩ EOF = Step.ret none)
    ∧ ((⟨"a".toList, 1024⟩ : LineBuf).buffer.length ≠ 0
      ∧ read_step env_only_cc ⟨"a".toList, 1024⟩ EOF = Step.next ⟨"a".toList, 1024⟩) :=
  ⟨⟨by decide, ((read_step_end_of_input env_only_cc ⟨[], 1024⟩).1 (by decide)).1⟩,
   ⟨by decide, ((read_step_end_of_input env_only_cc ⟨"a".toList, 1024⟩).2 (by decide)).1⟩⟩

theorem read_loop_append (env : Env) (lb : LineBuf) (a b : List Int) :
    read_loop env lb (a ++ b)
      = match read_loop env lb a with
        | Step.next lb' => read_loop env lb' b
        | Step.ret line => Step.ret line := by
  induction a generalizing lb with
  | nil => rfl
  | cons c a ih =>
    rw [List.cons_append]
    simp only [read_loop]
    cases read_step env lb c with
    | next lb' => exact ih lb'
    | ret line => rfl

theorem read_loop_edits (env : Env) (events : List Int) (lb : LineBuf)
    (hev : ∀ c ∈ events, (32 ≤ c ∧ c < 127) ∨ c = 127 ∨ c = 8) :
    ∃ bufsize, read_loop env lb events
      = Step.next { buffer := edit_line lb.buffer events, bufsize := bufsize } := by
  induction events generalizing lb with
  | nil => exact ⟨lb.bufsize, rfl⟩
  | cons c rest ih =>
    have hrest : ∀ c ∈ rest, (32 ≤ c ∧ c < 127) ∨ c = 127 ∨ c = 8 :=
      fun x hx => hev x (List.mem_cons_of_mem _ hx)
    simp only [read_loop, edit_line]
    by_cases hb : c = 127 ∨ c = 8
    · have hstep : read_step env lb c = Step.next { lb with buffer := lb.buffer.dropLast } := by
        rcases (read_step_cases env lb c).2 (by omega) with h | h | h | h | h
        · exact absurd h.1 (by unfold EOF; omega)
        · exact absurd h.1 (by omega)
        · exact absurd h.1 (by omega)
        · exact h.2
        · rw [h]
          unfold read_step EOF at h
          rw [if_neg (by omega), if_neg (by omega), if_neg (by omega), if_pos hb] at h
          by_cases h5 : lb.buffer.length > 0
          · rw [if_pos h5] at h
            exact h.symm
          · have hnil : lb.buffer = [] := List.length_eq_zero.1 (by omega)
            cases lb with
            | mk b s =>
              simp only at hnil
              subst hnil
              rfl
      rw [hstep, if_pos hb]
      exact ih _ hrest
    · have hr : 32 ≤ c ∧ c < 127 := by
        rcases hev c (List.mem_cons_self _ _) with h | h | h
        · exact h
        · exact absurd (Or.inl h) hb
        · exact absurd (Or.inr h) hb
      rw [(read_step_cases env lb c).1 hr, if_neg hb]
      exact ih _ hrest

/-- C14.  For every sequence of printable characters (codes in [0x20, 0x7F))
and backspace events (127 or 8) followed by a line terminator (`\n` or `\r`),
`ripple_read_line` returns exactly the string obtained by appending each
printable character and removing the last character, if there is one, at each
backspace; after any number of the events before the terminator the function
is still reading. -/
theorem ripple_read_line_edits (env : Env) (events : List Int) (t : Int)
    (hev : ∀ c ∈ events, (32 ≤ c ∧ c < 127) ∨ c = 127 ∨ c = 8)
    (ht : t = 10 ∨ t = 13) :
    ripple_read_line env (events ++ [t]) = Step.ret (some (edit_line [] events))
    ∧ ∀ k, ∃ lb, ripple_read_line env (events.take k) = Step.next lb := by
  constructor
  · unfold ripple_read_line
    rw [read_loop_append]
    obtain ⟨bs, hbs⟩ := read_loop_edits env events { buffer := [], bufsize := RIPPLE_RL_BUFSIZE } hev
    rw [hbs]
    simp only [read_loop]
    rcases (read_step_cases env ⟨edit_line [] events, bs⟩ t).2 (by omega)
      with h | h | h | h | h
    · exact absurd h.1 (by unfold EOF; omega)
    · rw [h.2]
    · exact absurd h.1 (by omega)
    · exact absurd h.1 (by omega)
    · unfold read_step EOF at h
      rw [if_neg (by omega), if_pos ht] at h
      exact Step.noConfusion h
  · intro k
    obtain ⟨bs, hbs⟩ := read_loop_edits env (events.take k)
      { buffer := [], bufsize := RIPPLE_RL_BUFSIZE }
      (fun c hc => hev c (List.mem_of_mem_take hc))
    exact ⟨_, hbs⟩

/-- Witness of C14: typing `l`, `s`, `x`, backspace and newline yields the
line `ls`. -/
theorem ripple_read_line_edits_witness :
    ((∀ c ∈ [(108 : Int), 115, 120, 127], (32 ≤ c ∧ c < 127) ∨ c = 127 ∨ c = 8)
      ∧ ((10 : Int) = 10 ∨ (10 : Int) = 13))
    ∧ ripple_read_line env_only_cc ([108, 115, 120, 127] ++ [10]) = Step.ret (some "ls".toList) :=
  ⟨⟨by decide, by decide⟩,
   (ripple_read_line_edits env_only_cc [108, 115, 120, 127] 10 (by decide) (by decide)).1⟩

/-! ## The invariant of the line buffer -/

theorem scan_dir_mem (env : Env) (pfx : CStr) (max_names : Nat) (dir_path : CStr)
    (ents names : List CStr) :
    ∀ x ∈ scan_dir env pfx max_names dir_path ents names,
      x ∈ names ∨ ∃ name ∈ ents, x = snprintf_s 256 name
        ∧ starts_with_icase name pfx = true := by
  induction ents generalizing names with
  | nil => intro x hx; exact Or.inl hx
  | cons e ents ih =>
    intro x hx
    have lift : (x ∈ names ∨ ∃ name ∈ ents, x = snprintf_s 256 name
          ∧ starts_with_icase name pfx = true) →
        (x ∈ names ∨ ∃ name ∈ e :: ents, x = snprintf_s 256 name
          ∧ starts_with_icase name pfx = true) := by
      rintro (h | ⟨n, hn, hx⟩)
      · exact Or.inl h
      · exact Or.inr ⟨n, List.mem_cons_of_mem _ hn, hx⟩
    simp only [scan_dir] at hx
    by_cases h : ¬ names.length < max_names
    · rw [if_pos h] at hx
      exact Or.inl hx
    · rw [if_neg h] at hx
      by_cases h1 : e.head? = some '.'
      · rw [if_pos h1] at hx
        exact lift (ih _ x hx)
      · rw [if_neg h1] at hx
        by_cases h2 : ¬ starts_with_icase e pfx = true
        · rw [if_pos h2] at hx
          exact lift (ih _ x hx)
        · rw [if_neg h2] at hx
          by_cases h3 : ¬ env.access_x (full_path dir_path e) = true
          · rw [if_pos h3] at hx
            exact lift (ih _ x hx)
          · rw [if_neg h3] at hx
            by_cases h4 : is_duplicate_name e names = true
            · rw [if_pos h4] at hx
              exact lift (ih _ x hx)
            · rw [if_neg h4] at hx
              rcases ih _ x hx with h' | h'
              · rcases List.mem_append.1 h' with h'' | h''
                · exact Or.inl h''
                · simp only [List.mem_singleton] at h''
                  exact Or.inr ⟨e, List.mem_cons_self _ _, h'', not_not.1 h2⟩
              · exact lift (Or.inr h')

theorem scan_path_mem (env : Env) (pfx : CStr) (max_names : Nat) (dirs names : List CStr) :
    ∀ x ∈ scan_path env pfx max_names dirs names,
      x ∈ names ∨ ∃ dir_path ents name, env.opendir dir_path = some ents ∧ name ∈ ents
        ∧ x = snprintf_s 256 name ∧ starts_with_icase name pfx = true := by
  induction dirs generalizing names with
  | nil => intro x hx; exact Or.inl hx
  | cons d dirs ih =>
    intro x hx
    simp only [scan_path] at hx
    by_cases h : ¬ names.length < max_names
    · rw [if_pos h] at hx
      exact Or.inl hx
    · rw [if_neg h] at hx
      cases hd : env.opendir d with
      | none =>
        rw [hd] at hx
        exact ih _ x hx
      | some ents =>
        rw [hd] at hx
        rcases ih _ x hx with h' | h'
        · rcases scan_dir_mem env pfx max_names d ents names x h' with h'' | ⟨n, hn, hx'⟩
          · exact Or.inl h''
          · exact Or.inr ⟨d, ents, n, hd, hn, hx'⟩
        · exact Or.inr h'

theorem collect_mem (env : Env) (pfx : CStr) (max_names : Nat) :
    ∀ x ∈ collect_path_executables_with_prefix env pfx max_names,
      ∃ dir_path ents name, env.opendir dir_path = some ents ∧ name ∈ ents
        ∧ x = snprintf_s 256 name ∧ starts_with_icase name pfx = true := by
  intro x hx
  unfold collect_path_executables_with_prefix at hx
  by_cases hp : pfx = []
  · rw [if_pos hp] at hx; simp at hx
  · rw [if_neg hp] at hx
    cases hP : env.PATH with
    | none => rw [hP] at hx; simp at hx
    | some path_env =>
      rw [hP] at hx
      simp only at hx
      by_cases he : path_env = []
      · rw [if_pos he] at hx; simp at hx
      · rw [if_neg he] at hx
        rcases scan_path_mem env pfx max_names _ _ x hx with h | h
        · simp at h
        · exact h

theorem snprintf_s_no_nul (size : Nat) (s : CStr) (h : Char.ofNat 0 ∉ s) :
    Char.ofNat 0 ∉ snprintf_s size s := by
  unfold snprintf_s
  exact fun hc => h (List.mem_of_mem_take hc)

theorem snprintf_s_length (size : Nat) (s : CStr) (h : 0 < size) :
    (snprintf_s size s).length < size := by
  unfold snprintf_s
  rw [List.length_take]
  omega

theorem getD_no_nul (names : List CStr) (i : Nat) (h : ∀ x ∈ names, Char.ofNat 0 ∉ x) :
    Char.ofNat 0 ∉ names.getD i [] := by
  rw [List.getD_eq_getElem?_getD]
  cases hi : names[i]? with
  | none => simp
  | some x =>
    simp only [Option.getD_some]
    exact h x (List.getElem?_mem hi)

theorem complete_external_command_no_nul (env : Env) (p out : CStr) (out_sz : Nat)
    (hsz : out_sz ≠ 0) (henv : env_names_cstr env) :
    Char.ofNat 0 ∉ (complete_external_command env p out out_sz).2 := by
  have hnames : ∀ x ∈ collect_path_executables_with_prefix env p 32, Char.ofNat 0 ∉ x := by
    intro x hx
    obtain ⟨d, ents, n, hd, hn, hxn, -⟩ := collect_mem env p 32 x hx
    rw [hxn]
    exact snprintf_s_no_nul _ _ (henv d ents hd n hn)
  unfold complete_external_command
  rw [if_neg hsz]
  by_cases h1 : p = []
  · rw [if_pos h1]; simp
  · rw [if_neg h1]
    by_cases h2 : (p.any (fun c => c == ' ' || c == '\t')) = true
    · rw [if_pos h2]; simp
    · rw [if_neg h2]
      simp only
      by_cases h3 : ( collect_path_executables_with_prefix env p 32).length = 1
      · rw [if_pos h3]
        exact snprintf_s_no_nul _ _ (getD_no_nul _ _ hnames)
      · rw [if_neg h3]
        by_cases h4 : ( collect_path_executables_with_prefix env p 32).length > 1
        · rw [if_pos h4]
          by_cases h5 : pick_best_external_candidate
              ( collect_path_executables_with_prefix env p 32) ≥ 0
          · rw [if_pos h5]
            exact snprintf_s_no_nul _ _ (getD_no_nul _ _ hnames)
          · rw [if_neg h5]; simp
        · rw [if_neg h4]; simp

theorem builtin_names_no_nul : ∀ h ∈ BUILTIN_HELP, Char.ofNat 0 ∉ h.name := by
  decide

theorem gcc_flags_no_nul : ∀ f ∈ GCC_FLAGS, Char.ofNat 0 ∉ f.flag := by
  decide

theorem complete_builtin_command_result (P out : CStr) (out_sz : Nat) (hsz : out_sz ≠ 0) :
    (complete_builtin_command P out out_sz).2 = []
    ∨ ∃ h ∈ BUILTIN_HELP, starts_with_icase h.name P = true
        ∧ complete_builtin_command P out out_sz = (1, snprintf_s out_sz h.name) := by
  unfold complete_builtin_command
  rw [if_neg hsz]
  by_cases hP : P = []
  · rw [if_pos hP]; exact Or.inl rfl
  · rw [if_neg hP]
    cases hex : find_help_exact_icase P with
    | some e =>
      right
      have hfind := List.find?_some hex
      simp only [Bool.and_eq_true] at hfind
      exact ⟨e, List.mem_of_find?_eq_some hex, hfind.2, rfl⟩
    | none =>
      simp only
      rw [count_matches_eq]
      cases hl : (BUILTIN_HELP.filter (fun h => starts_with_icase h.name P)).getLast? with
      | none =>
        simp only
        split <;> exact Or.inl rfl
      | some s =>
        simp only
        have hs := List.mem_of_getLast?_eq_some hl
        have hs' := List.mem_filter.1 hs
        by_cases h1 : (BUILTIN_HELP.filter (fun h => starts_with_icase h.name P)).length = 1
        · rw [if_pos h1]
          exact Or.inr ⟨s, hs'.1, hs'.2, rfl⟩
        · rw [if_neg h1]
          split <;> exact Or.inl rfl

theorem char_toNat_ofNat (n : Nat) (h : n < 0xd800) : (Char.ofNat n).toNat = n := by
  unfold Char.ofNat
  rw [dif_pos (Or.inl h)]
  rfl

theorem tab_argument_wf (lb : LineBuf) (i : Nat) (hwf : lb.wf) :
    (tab_argument lb i).wf ∧ (tab_argument lb i).bufsize = lb.bufsize := by
  unfold tab_argument
  simp only
  by_cases h1 : (complete_external_arg (first_token lb.buffer) (lb.buffer.drop (i + 1)) [] 128).1 = 1
      ∧ (complete_external_arg (first_token lb.buffer) (lb.buffer.drop (i + 1)) [] 128).2 ≠ []
  · rw [if_pos h1]
    by_cases h2 : i + 1 < lb.bufsize
    · rw [if_pos h2]
      refine ⟨⟨?_, ?_⟩, rfl⟩
      · simp only [List.length_append, List.length_take]
        have := snprintf_s_length (lb.bufsize - (i + 1))
          (complete_external_arg (first_token lb.buffer) (lb.buffer.drop (i + 1)) [] 128).2
          (by omega)
        omega
      · obtain ⟨f, hf, hF⟩ := complete_external_arg_unique_flag (first_token lb.buffer)
          (lb.buffer.drop (i + 1)) [] _ 128 (Prod.ext h1.1 rfl) (le_refl _)
        intro hc
        rcases List.mem_append.1 hc with h | h
        · exact hwf.2 (List.mem_of_mem_take h)
        · exact snprintf_s_no_nul _ _ (fun hh => gcc_flags_no_nul f hf (hF ▸ hh)) h
    · rw [if_neg h2]
      exact ⟨hwf, rfl⟩
  · rw [if_neg h1]
    exact ⟨hwf, rfl⟩

theorem tab_command_wf (env : Env) (henv : env_names_cstr env) (lb : LineBuf) (hwf : lb.wf) :
    (tab_command env lb).wf ∧ (tab_command env lb).bufsize = lb.bufsize := by
  have hpos : 0 < lb.bufsize := by
    have := hwf.1
    omega
  unfold tab_command
  simp only
  by_cases h1 : (complete_builtin_command lb.buffer [] 128).1 = 1
      ∧ (complete_builtin_command lb.buffer [] 128).2 ≠ []
  · rw [if_pos h1]
    refine ⟨⟨snprintf_s_length _ _ hpos, ?_⟩, rfl⟩
    apply snprintf_s_no_nul
    rcases complete_builtin_command_result lb.buffer [] 128 (by decide) with h | ⟨b, hb, -, hr⟩
    · exact absurd h h1.2
    · rw [hr]
      exact snprintf_s_no_nul _ _ (builtin_names_no_nul b hb)
  · rw [if_neg h1]
    by_cases h2 : (complete_external_command env lb.buffer
          (complete_builtin_command lb.buffer [] 128).2 128).1 = 1
        ∧ (complete_external_command env lb.buffer
          (complete_builtin_command lb.buffer [] 128).2 128).2 ≠ []
    · rw [if_pos h2]
      refine ⟨⟨snprintf_s_length _ _ hpos, ?_⟩, rfl⟩
      exact snprintf_s_no_nul _ _
        (complete_external_command_no_nul env _ _ 128 (by decide) henv)
    · rw [if_neg h2]
      exact ⟨hwf, rfl⟩

theorem tab_event_wf (env : Env) (henv : env_names_cstr env) (lb : LineBuf) (hwf : lb.wf) :
    (tab_event env lb).wf ∧ (tab_event env lb).bufsize = lb.bufsize := by
  unfold tab_event
  cases strrchr lb.buffer ' ' with
  | none => exact tab_command_wf env henv lb hwf
  | some i => exact tab_argument_wf lb i hwf

theorem read_step_wf (env : Env) (henv : env_names_cstr env) (lb lb' : LineBuf) (c : Int)
    (hwf : lb.wf) (hstep : read_step env lb c = Step.next lb') :
    lb'.wf
    ∧ (lb'.bufsize ≠ lb.bufsize ↔ (32 ≤ c ∧ c < 127) ∧ lb.buffer.length + 1 = lb.bufsize)
    ∧ (lb'.bufsize ≠ lb.bufsize → lb'.bufsize = lb.bufsize + RIPPLE_RL_BUFSIZE) := by
  obtain ⟨hlen, hnul⟩ := hwf
  by_cases hr : 32 ≤ c ∧ c < 127
  · rw [(read_step_cases env lb c).1 hr] at hstep
    simp only [Step.next.injEq] at hstep
    subst hstep
    simp only
    unfold RIPPLE_RL_BUFSIZE
    refine ⟨⟨?_, ?_⟩, ?_, ?_⟩
    · simp only [List.length_append, List.length_singleton]
      split <;> omega
    · intro hc
      rcases List.mem_append.1 hc with h | h
      · exact hnul h
      · simp only [List.mem_singleton] at h
        have h0 : (Char.ofNat 0).toNat = (Char.ofNat c.toNat).toNat := by rw [h]
        rw [char_toNat_ofNat 0 (by decide), char_toNat_ofNat c.toNat (by omega)] at h0
        omega
    · split <;> constructor <;> intro h <;> omega
    · split <;> intro h <;> omega
  · have same : ∀ l : LineBuf, l.wf → l.bufsize = lb.bufsize →
        l.wf ∧ (l.bufsize ≠ lb.bufsize ↔ (32 ≤ c ∧ c < 127) ∧ lb.buffer.length + 1 = lb.bufsize)
        ∧ (l.bufsize ≠ lb.bufsize → l.bufsize = lb.bufsize + RIPPLE_RL_BUFSIZE) := by
      intro l hl hb
      refine ⟨hl, ⟨fun h => absurd hb h, fun h => absurd h.1 hr⟩, fun h => absurd hb h⟩
    rcases (read_step_cases env lb c).2 hr with h | h | h | h | h
    · rw [h.2] at hstep
      by_cases h0 : lb.buffer.length = 0
      · rw [if_pos h0] at hstep; exact Step.noConfusion hstep
      · rw [if_neg h0] at hstep
        simp only [Step.next.injEq] at hstep
        subst hstep
        exact same lb ⟨hlen, hnul⟩ rfl
    · rw [h.2] at hstep; exact Step.noConfusion hstep
    · rw [h.2] at hstep
      simp only [Step.next.injEq] at hstep
      subst hstep
      have := tab_event_wf env henv lb ⟨hlen, hnul⟩
      exact same _ this.1 this.2
    · rw [h.2] at hstep
      simp only [Step.next.injEq] at hstep
      subst hstep
      refine same _ ⟨?_, ?_⟩ rfl
      · simp only [List.length_dropLast]
        omega
      · exact fun hc => hnul (List.dropLast_subset _ hc)
    · rw [h] at hstep
      simp only [Step.next.injEq] at hstep
      subst hstep
      exact same lb ⟨hlen, hnul⟩ rfl

theorem read_loop_wf (env : Env) (henv : env_names_cstr env) (input : List Int)
    (lb lb' : LineBuf) (hwf : lb.wf) (h : read_loop env lb input = Step.next lb') : lb'.wf := by
  induction input generalizing lb with
  | nil =>
    simp only [read_loop, Step.next.injEq] at h
    subst h
    exact hwf
  | cons c rest ih =>
    simp only [read_loop] at h
    cases hs : read_step env lb c with
    | ret line => rw [hs] at h; exact Step.noConfusion h
    | next lb1 =>
      rw [hs] at h
      exact ih lb1 (read_step_wf env henv lb lb1 c hwf hs).1 h

/-- C15.  With an environment whose names are C strings, every line buffer
that `ripple_read_line` reaches satisfies `length < bufsize` (capacity at
least length + 1) and holds no NUL; every event that keeps the loop running
(insert, backspace, ignored end-of-input, tab with or without a splice)
preserves this, and the capacity changes exactly on the insertion of a
character into a full buffer (`length + 1 = bufsize`), where it grows by
`RIPPLE_RL_BUFSIZE` = 1024. -/
theorem line_buffer_invariant (env : Env) (henv : env_names_cstr env) :
    (∀ input lb, ripple_read_line env input = Step.next lb → lb.wf)
    ∧ (∀ lb c lb', lb.wf → read_step env lb c = Step.next lb' →
        lb'.wf
        ∧ (lb'.bufsize ≠ lb.bufsize ↔ (32 ≤ c ∧ c < 127) ∧ lb.buffer.length + 1 = lb.bufsize)
        ∧ (lb'.bufsize ≠ lb.bufsize → lb'.bufsize = lb.bufsize + 1024)) := by
  constructor
  · intro input lb h
    unfold ripple_read_line at h
    refine read_loop_wf env henv input _ lb ⟨?_, ?_⟩ h
    · unfold RIPPLE_RL_BUFSIZE; simp
    · simp
  · intro lb c lb' hwf hstep
    exact read_step_wf env henv lb lb' c hwf hstep

/-- Witness of C15: after the character `a` the line buffer `a` of capacity
1024 satisfies the invariant. -/
theorem line_buffer_invariant_witness :
    env_names_cstr env_only_cc ∧ LineBuf.wf ⟨"a".toList, 1024⟩ := by
  have henv : env_names_cstr env_only_cc := by
    intro d ents h name hn
    simp only [env_only_cc] at h
    split_ifs at h
    cases h
    simp only [List.mem_singleton] at hn
    subst hn
    decide
  exact ⟨henv, (line_buffer_invariant env_only_cc henv).1 [97] ⟨"a".toList, 1024⟩ (by decide)⟩

/-! ## Soundness and completeness of the path executable index -/

theorem long_dir_length : long_dir.length = 1024 := by
  simp only [long_dir, List.length_cons, List.length_append, List.length_replicate]

theorem long_dir_no_colon : ∀ c ∈ long_dir, c ∉ [':'] := by
  intro c hc
  simp only [long_dir, List.mem_cons, List.mem_append, List.mem_replicate] at hc
  have h5 : c = '/' ∨ c = 'a' ∨ c = 'b' ∨ c = 'c' ∨ c = 'd' := by tauto
  rcases h5 with h | h | h | h | h <;> (rw [h]; decide)

theorem strtok_aux_no_delim (delims : List Char) (s cur : CStr) (h : ∀ c ∈ s, c ∉ delims) :
    strtok_aux delims s cur = if cur ++ s = [] then [] else [cur ++ s] := by
  induction s generalizing cur with
  | nil => simp [strtok_aux]
  | cons c t ih =>
    simp only [strtok_aux]
    rw [if_neg (h c (List.mem_cons_self _ _)), ih _ (fun x hx => h x (List.mem_cons_of_mem _ hx))]
    simp

theorem long_dir_ne_nil : long_dir ≠ [] := by
  intro h
  have := long_dir_length
  rw [h] at this
  simp at this

theorem strtok_tokens_long_dir : strtok_tokens [':'] long_dir = [long_dir] := by
  unfold strtok_tokens
  rw [strtok_aux_no_delim _ _ _ long_dir_no_colon, List.nil_append, if_neg long_dir_ne_nil]

theorem full_path_long_dir : full_path long_dir "gcc".toList = long_dir.take 1023 := by
  unfold full_path snprintf_s
  exact List.take_append_of_le_length (by rw [long_dir_length]; decide)

theorem access_long_dir_gcc :
    env_long_dir.access_x (long_dir ++ '/' :: "gcc".toList) = false := by
  simp only [env_long_dir, beq_eq_false_iff_ne, ne_eq]
  intro h
  have hl := congrArg List.length h
  rw [List.length_append, List.length_take, long_dir_length] at hl
  simp at hl

theorem scan_path_single (env : Env) (pfx : CStr) (max_names : Nat) (d : CStr)
    (ents : List CStr) (ho : env.opendir d = some ents) (hm : 0 < max_names) :
    scan_path env pfx max_names [d] [] = scan_dir env pfx max_names d ents [] := by
  simp only [scan_path, ho]
  rw [if_neg (by simp only [List.length_nil]; omega)]

theorem scan_dir_single (env : Env) (pfx : CStr) (max_names : Nat) (d e : CStr)
    (hm : 0 < max_names) (hdot : e.head? ≠ some '.')
    (hpre : starts_with_icase e pfx = true) (hacc : env.access_x (full_path d e) = true) :
    scan_dir env pfx max_names d [e] [] = [snprintf_s 256 e] := by
  simp only [scan_dir]
  rw [if_neg (by simp only [List.length_nil]; omega), if_neg hdot, if_neg (by simpa using hpre),
    if_neg (by simpa using hacc), if_neg (by simp [is_duplicate_name])]
  rfl

theorem collect_long_dir :
    collect_path_executables_with_prefix env_long_dir "g".toList 32 = ["gcc".toList] := by
  unfold collect_path_executables_with_prefix
  rw [if_neg (by decide)]
  have hP : env_long_dir.PATH = some long_dir := rfl
  rw [hP]
  have hopen : env_long_dir.opendir long_dir = some ["gcc".toList] := by
    simp only [env_long_dir, if_true]
  have hacc : env_long_dir.access_x (full_path long_dir "gcc".toList) = true := by
    rw [full_path_long_dir]
    simp only [env_long_dir, beq_self_eq_true]
  show (if long_dir = [] then [] else
    scan_path env_long_dir "g".toList 32 (strtok_tokens [':'] long_dir) []) = ["gcc".toList]
  rw [if_neg long_dir_ne_nil, strtok_tokens_long_dir,
    scan_path_single env_long_dir _ 32 long_dir _ hopen (by decide),
    scan_dir_single env_long_dir _ 32 long_dir _ (by decide) (by decide) (by decide) hacc]
  decide

theorem mem_path_candidates (env : Env) (pfx x : CStr) (hpaths : paths_fit env) :
    x ∈ path_candidates env pfx ↔ qualifies env pfx x := by
  unfold path_candidates qualifies
  have hsd : search_dirs env = match env.PATH with
      | none => []
      | some path_env => strtok_tokens [':'] path_env := rfl
  unfold paths_fit at hpaths
  rw [hsd] at hpaths ⊢
  cases hP : env.PATH with
  | none => simp
  | some path_env =>
    rw [hP] at hpaths
    simp only at hpaths ⊢
    rw [List.mem_flatMap]
    constructor
    · rintro ⟨d, hd, hx⟩
      unfold dir_candidates at hx
      cases ho : env.opendir d with
      | none => rw [ho] at hx; simp at hx
      | some ents =>
        rw [ho] at hx
        simp only [List.mem_filter, Bool.and_eq_true, Bool.not_eq_true', beq_eq_false_iff_ne,
          ne_eq] at hx
        obtain ⟨hxe, ⟨hdot, hpre⟩, hacc⟩ := hx
        refine ⟨d, hd, ents, ho, hxe, hdot, hpre, ?_⟩
        have hfull : full_path d x = d ++ '/' :: x := by
          unfold full_path
          apply snprintf_s_fits
          have := hpaths d hd ents ho x hxe
          simp only [List.length_append, List.length_cons]
          omega
        rw [← hfull]
        exact hacc
    · rintro ⟨d, hd, ents, ho, hxe, hdot, hpre, hacc⟩
      refine ⟨d, hd, ?_⟩
      unfold dir_candidates
      rw [ho]
      simp only [List.mem_filter, Bool.and_eq_true, Bool.not_eq_true', beq_eq_false_iff_ne,
        ne_eq]
      have hfull : full_path d x = d ++ '/' :: x := by
        unfold full_path
        apply snprintf_s_fits
        have := hpaths d hd ents ho x hxe
        simp only [List.length_append, List.length_cons]
        omega
      rw [hfull]
      exact ⟨hxe, ⟨hdot, hpre⟩, hacc⟩

/-- C11 (amended).  For every non-empty prefix and every search path whose
entry names are all shorter than 256 bytes (a slot of `names[][256]`) and
whose paths `dir/name` fit the 1024-byte buffer `full`, every name returned by `collect_path_executables_with_prefix` is an
entry of a readable search-path directory, does not begin with a dot, starts
with the prefix ignoring case and is executable; the result has at most
`max_names` names; when every duplicate-free list of qualifying names has at
most `max_names` elements, every qualifying name is returned; and a directory
that cannot be opened is skipped with no other effect. -/
theorem collect_path_executables_sound_complete (env : Env) (pfx : CStr) (max_names : Nat)
    (hp : pfx ≠ []) (hfit : dirent_names_fit env) (hpaths : paths_fit env) :
    (∀ x ∈ collect_path_executables_with_prefix env pfx max_names, qualifies env pfx x)
    ∧ ( collect_path_executables_with_prefix env pfx max_names).length ≤ max_names
    ∧ ((∀ l : List CStr, l.Nodup → (∀ x ∈ l, qualifies env pfx x) → l.length ≤ max_names) →
        ∀ x, qualifies env pfx x → x ∈ collect_path_executables_with_prefix env pfx max_names)
    ∧ (∀ d dirs names, env.opendir d = none →
        scan_path env pfx max_names (d :: dirs) names = scan_path env pfx max_names dirs names) := by
  have heq := collect_eq_take env pfx max_names hfit hp
  rw [heq]
  refine ⟨?_, ?_, ?_, ?_⟩
  · intro x hx
    exact (mem_path_candidates env pfx x hpaths).1
      ((mem_first_occurrences _ x).1 (List.mem_of_mem_take hx))
  · rw [List.length_take]
    omega
  · intro hbound x hx
    have hlen : (first_occurrences (path_candidates env pfx)).length ≤ max_names :=
      hbound _ (first_occurrences_nodup _)
        (fun y hy => (mem_path_candidates env pfx y hpaths).1 ((mem_first_occurrences _ y).1 hy))
    rw [List.take_of_length_le hlen]
    exact (mem_first_occurrences _ x).2 ((mem_path_candidates env pfx x hpaths).2 hx)
  · intro d dirs names hd
    simp only [scan_path, hd]
    by_cases h : ¬ names.length < max_names
    · rw [if_pos h]
      cases dirs with
      | nil => rfl
      | cons d2 dirs => simp only [scan_path, if_pos h]
    · rw [if_neg h]

/-- C11 as stated fails when a path `dir/name` does not fit the 1024-byte
buffer `full`: for a directory path of 1024 characters the executable check
is made on the path cut to 1023 characters, and the entry `gcc`, which is not
executable, is returned.  It also fails when an entry name does not fit a slot
of `names[][256]`: for an executable of 256 letters `g` the name returned is
its cut to 255 characters, which is no entry of any directory. -/
theorem collect_long_dir_counterexample :
    "g".toList ≠ []
    ∧ collect_path_executables_with_prefix env_long_dir "g".toList 32 = ["gcc".toList]
    ∧ env_long_dir.access_x (long_dir ++ '/' :: "gcc".toList) = false
    ∧ ¬ qualifies env_long_dir "g".toList "gcc".toList
    ∧ List.replicate 255 'g' ∈ collect_path_executables_with_prefix env_long_entry "g".toList 32
    ∧ ¬ qualifies env_long_entry "g".toList (List.replicate 255 'g') := by
  refine ⟨by decide, collect_long_dir, access_long_dir_gcc, ?_, ?_, ?_⟩
  · rintro ⟨d, hd, ents, -, -, -, -, hacc⟩
    have hsd : search_dirs env_long_dir = [long_dir] := by
      simp only [search_dirs, env_long_dir]
      exact strtok_tokens_long_dir
    rw [hsd, List.mem_singleton] at hd
    subst hd
    rw [access_long_dir_gcc] at hacc
    exact Bool.noConfusion hacc
  · rw [collect_long_entry]
    exact List.mem_cons_self _ _
  · rintro ⟨d, -, ents, ho, hx, -⟩
    simp only [env_long_entry] at ho
    split_ifs at ho
    cases ho
    have hlen := congrArg List.length (List.mem_singleton.1 hx)
    simp only [List.length_replicate] at hlen
    exact absurd hlen (by decide)

/-- Witness of C11 (amended): on the two-directory search path every name
returned for the prefix `g` qualifies. -/
theorem collect_path_executables_sound_complete_witness :
    ("g".toList ≠ [] ∧ dirent_names_fit env_two_dirs ∧ paths_fit env_two_dirs)
    ∧ (∀ x ∈ collect_path_executables_with_prefix env_two_dirs "g".toList 32,
        qualifies env_two_dirs "g".toList x) := by
  have hfit : dirent_names_fit env_two_dirs := by
    intro d ents h name hn
    simp only [env_two_dirs] at h
    split_ifs at h <;> cases h <;> simp at hn <;> rcases hn with rfl | rfl <;> decide
  have hpaths : paths_fit env_two_dirs := by
    intro d _ ents h name hn
    simp only [env_two_dirs] at h
    split_ifs at h with h1 h2
    · cases h
      subst h1
      simp at hn
      rcases hn with rfl | rfl <;> decide
    · cases h
      subst h2
      simp at hn
      rcases hn with rfl | rfl <;> decide
  exact ⟨⟨by decide, hfit, hpaths⟩,
    (collect_path_executables_sound_complete env_two_dirs "g".toList 32 (by decide)
      hfit hpaths).1⟩

/-! ## Argument-flag resolution -/

theorem starts_with_iff (s q : CStr) : starts_with s q = true ↔ ∃ t, s = q ++ t := by
  induction q generalizing s with
  | nil => simp [starts_with]
  | cons c q ih =>
    cases s with
    | nil => simp [starts_with]
    | cons a s =>
      simp only [starts_with, bne_iff_ne, ne_eq, ite_not, List.cons_append, List.cons.injEq]
      by_cases hac : a = c
      · rw [if_pos hac, ih]
        constructor
        · rintro ⟨t, ht⟩
          exact ⟨t, hac, ht⟩
        · rintro ⟨t, -, ht⟩
          exact ⟨t, ht⟩
      · rw [if_neg hac]
        constructor
        · intro h; exact Bool.noConfusion h
        · rintro ⟨t, h, -⟩
          exact absurd h hac

theorem collect_flag_loop_eq (partial_arg : CStr) (max_out : Nat) (flags acc : List FlagHelp)
    (hroom : acc.length + flags.length ≤ max_out) :
    collect_flag_loop partial_arg max_out flags acc
      = acc ++ flags.filter (fun f => starts_with f.flag partial_arg) := by
  induction flags generalizing acc with
  | nil => simp [collect_flag_loop]
  | cons f flags ih =>
    simp only [collect_flag_loop, List.length_cons] at hroom ⊢
    rw [if_neg (by omega)]
    by_cases hc : partial_arg = [] ∨ starts_with f.flag partial_arg = true
    · have hs : starts_with f.flag partial_arg = true := by
        rcases hc with h | h
        · rw [h]
          cases f.flag <;> rfl
        · exact h
      rw [if_pos hc, ih _ (by simp only [List.length_append, List.length_singleton]; omega)]
      simp [List.filter_cons, hs]
    · have hs : ¬ starts_with f.flag partial_arg = true := fun h => hc (Or.inr h)
      rw [if_neg hc, ih _ (by omega)]
      simp [List.filter_cons, hs]

theorem collect_flag_matches_gcc (partial_arg : CStr) :
    collect_flag_matches GCC_FLAGS partial_arg 32
      = GCC_FLAGS.filter (fun f => starts_with f.flag partial_arg) := by
  unfold collect_flag_matches
  rw [if_neg (by decide), collect_flag_loop_eq _ _ _ _ (by decide)]
  rfl

/-- C16.  For the tool `gcc`, every partial token `p` and every output buffer
larger than all flags, `complete_external_arg` returns 0 with empty output
when no flag of `GCC_FLAGS` has the prefix `p`, returns 1 and writes the flag
when exactly one has, and returns 2 with empty output when two or more have;
for every command other than exactly `gcc` it returns 0 with empty output.
Here "has the prefix `p`" is `starts_with`, which holds exactly when the flag
is `p` followed by some text. -/
theorem complete_external_arg_spec (p out : CStr) (out_sz : Nat)
    (hsz : ∀ f ∈ GCC_FLAGS, f.flag.length < out_sz) :
    (GCC_FLAGS.filter (fun f => starts_with f.flag p) = [] →
      complete_external_arg "gcc".toList p out out_sz = (0, []))
    ∧ (∀ f, GCC_FLAGS.filter (fun f => starts_with f.flag p) = [f] →
        complete_external_arg "gcc".toList p out out_sz = (1, f.flag))
    ∧ (2 ≤ (GCC_FLAGS.filter (fun f => starts_with f.flag p)).length →
        complete_external_arg "gcc".toList p out out_sz = (2, []))
    ∧ (∀ cmd, cmd ≠ "gcc".toList → complete_external_arg cmd p out out_sz = (0, []))
    ∧ (∀ s q : CStr, starts_with s q = true ↔ ∃ t, s = q ++ t) := by
  have hsz0 : out_sz ≠ 0 := by
    have := hsz ⟨"--help".toList, "Show help".toList⟩ (by decide)
    omega
  have hgcc : complete_external_arg "gcc".toList p out out_sz
      = if (GCC_FLAGS.filter (fun f => starts_with f.flag p)).length = 1 then
          (1, snprintf_s out_sz
            (((GCC_FLAGS.filter (fun f => starts_with f.flag p)).map FlagHelp.flag).getD 0 []))
        else if (GCC_FLAGS.filter (fun f => starts_with f.flag p)).length > 1 then (2, [])
        else (0, []) := by
    unfold complete_external_arg
    rw [if_neg hsz0, if_neg (by decide), if_neg (by decide), collect_flag_matches_gcc]
  refine ⟨?_, ?_, ?_, ?_, starts_with_iff⟩
  · intro h
    rw [hgcc, h]
    rfl
  · intro f h
    rw [hgcc, h]
    have hf : f ∈ GCC_FLAGS := by
      have : f ∈ GCC_FLAGS.filter (fun f => starts_with f.flag p) := by rw [h]; simp
      exact (List.mem_filter.1 this).1
    simp only [List.length_singleton, if_true, List.map_cons, List.map_nil,
      List.getD_cons_zero]
    rw [snprintf_s_fits _ _ (hsz f hf)]
  · intro h
    rw [hgcc, if_neg (by omega), if_pos (by omega)]
  · intro cmd hcmd
    unfold complete_external_arg
    rw [if_neg hsz0]
    by_cases h1 : cmd = []
    · rw [if_pos h1]
    · rw [if_neg h1, if_pos hcmd]

/-- Witness of C16: with the 128-byte buffer of the caller, the partial `-Wal`
has the single match `-Wall`. -/
theorem complete_external_arg_spec_witness :
    (∀ f ∈ GCC_FLAGS, f.flag.length < 128)
    ∧ complete_external_arg "gcc".toList "-Wal".toList [] 128 = (1, "-Wall".toList) :=
  ⟨by decide,
   (complete_external_arg_spec "-Wal".toList [] 128 (by decide)).2.1
     ⟨"-Wall".toList, "Enable common warnings".toList⟩ (by decide)⟩

/-- C17 (amended).  Argument-flag resolution uses the exact, case-sensitive
prefix test: a record `f` is among the matches that `collect_flag_matches`
finds in `GCC_FLAGS` for the partial `p` exactly when `f` is a record of the
table whose flag is `p` followed by some text; so `-Wal` resolves uniquely to
`-Wall` and `-wall` matches no flag. -/
theorem collect_flag_matches_case_sensitive (p : CStr) (f : FlagHelp) :
    (f ∈ collect_flag_matches GCC_FLAGS p 32 ↔ f ∈ GCC_FLAGS ∧ ∃ t, f.flag = p ++ t)
    ∧ complete_external_arg "gcc".toList "-Wal".toList [] 128 = (1, "-Wall".toList)
    ∧ complete_external_arg "gcc".toList "-wall".toList [] 128 = (0, []) := by
  refine ⟨?_, by decide, by decide⟩
  rw [collect_flag_matches_gcc, List.mem_filter, starts_with_iff]

/-- C17 as stated fails at the partial `-wall` and the flag `-Wall`: the flag
starts with the partial ignoring case, but it is not a match, and the partial
does not resolve to it. -/
theorem collect_flag_matches_icase_counterexample :
    starts_with_icase "-Wall".toList "-wall".toList = true
    ∧ (⟨"-Wall".toList, "Enable common warnings".toList⟩ : FlagHelp) ∈ GCC_FLAGS
    ∧ (⟨"-Wall".toList, "Enable common warnings".toList⟩ : FlagHelp)
        ∉ collect_flag_matches GCC_FLAGS "-wall".toList 32
    ∧ complete_external_arg "gcc".toList "-wall".toList [] 128 ≠ (1, "-Wall".toList) := by
  decide

/-! ## The suggestion renderer -/

theorem describe_and_print_no_complete (net : Net) (cmd prompt : CStr) (run : Run) :
    Act.complete prompt run ∉ describe_and_print net cmd := by
  unfold describe_and_print
  simp only
  split <;> simp

theorem suggest_external_complete (env : Env) (net : Net) (P prompt : CStr) (run : Run) :
    Act.complete prompt run ∈ suggest_external env net P ↔
      collect_path_executables_with_prefix env P 32 = []
      ∧ prompt = P ∧ run = get_ollama_completion net P := by
  unfold suggest_external
  simp only
  by_cases h1 : ( collect_path_executables_with_prefix env P 32).length = 1
  · rw [if_pos h1]
    constructor
    · intro h; exact absurd h (describe_and_print_no_complete net _ _ _)
    · rintro ⟨h, -⟩
      rw [h] at h1
      simp at h1
  · rw [if_neg h1]
    by_cases h2 : ( collect_path_executables_with_prefix env P 32).length > 1
    · rw [if_pos h2]
      constructor
      · intro h
        split at h
        · exact absurd h (describe_and_print_no_complete net _ _ _)
        · simp at h
      · rintro ⟨h, -⟩
        rw [h] at h2
        simp at h2
    · rw [if_neg h2]
      have h0 : collect_path_executables_with_prefix env P 32 = [] :=
        List.length_eq_zero.1 (by omega)
      simp only [List.mem_singleton, Act.complete.injEq]
      constructor
      · rintro ⟨hp, hr⟩
        exact ⟨h0, hp, hr⟩
      · rintro ⟨-, hp, hr⟩
        exact ⟨hp, hr⟩

theorem suggest_command_cases (env : Env) (net : Net) (P : CStr) (hP : P ≠ []) :
    (BUILTIN_HELP.filter (fun e => starts_with_icase e.name P) = [] →
      find_help_exact_icase P = none
      ∧ suggest_command env net P = suggest_external env net P)
    ∧ (BUILTIN_HELP.filter (fun e => starts_with_icase e.name P) ≠ [] →
        (∃ h, suggest_command env net P = [Act.help_page h])
        ∨ suggest_command env net P = [Act.match_list P]) := by
  constructor
  · intro hnone
    have hex : find_help_exact_icase P = none := by
      cases hf : find_help_exact_icase P with
      | none => rfl
      | some e =>
        have hfind := List.find?_some hf
        simp only [Bool.and_eq_true] at hfind
        have : e ∈ BUILTIN_HELP.filter (fun e => starts_with_icase e.name P) :=
          List.mem_filter.2 ⟨List.mem_of_find?_eq_some hf, hfind.2⟩
        rw [hnone] at this
        simp at this
    refine ⟨hex, ?_⟩
    unfold suggest_command
    rw [if_neg hP, hex]
    simp only
    rw [count_matches_eq, hnone]
    rfl
  · intro hsome
    unfold suggest_command
    rw [if_neg hP]
    cases hf : find_help_exact_icase P with
    | some e => exact Or.inl ⟨e, rfl⟩
    | none =>
      simp only
      rw [count_matches_eq]
      cases hl : (BUILTIN_HELP.filter (fun e => starts_with_icase e.name P)).getLast? with
      | none =>
        rw [List.getLast?_eq_none_iff] at hl
        exact absurd hl hsome
      | some s =>
        simp only
        have hlen : (BUILTIN_HELP.filter (fun e => starts_with_icase e.name P)).length ≠ 0 :=
          fun h => hsome (List.length_eq_zero.1 h)
        by_cases h1 : (BUILTIN_HELP.filter (fun e => starts_with_icase e.name P)).length = 1
        · rw [if_pos h1]
          exact Or.inl ⟨s, rfl⟩
        · rw [if_neg h1, if_pos (by omega)]
          exact Or.inr rfl

/-- C18.  `suggest_command(P)` calls `get_ollama_completion` if and only if
`P` is non-empty, no built-in name matches `P` exactly or as a
case-insensitive prefix, and the path executable index returns no candidate
for `P`; when it does, the call is the single recorded action and its prompt
is `P`; in every other case no such call is made. -/
theorem suggest_command_completion_iff (env : Env) (net : Net) (P : CStr) :
    ((∃ prompt run, Act.complete prompt run ∈ suggest_command env net P) ↔
      (P ≠ [] ∧ find_help_exact_icase P = none
        ∧ BUILTIN_HELP.filter (fun e => starts_with_icase e.name P) = []
        ∧ collect_path_executables_with_prefix env P 32 = []))
    ∧ (∀ prompt run, Act.complete prompt run ∈ suggest_command env net P →
        prompt = P ∧ run = get_ollama_completion net P
        ∧ suggest_command env net P = [Act.complete P (get_ollama_completion net P)]) := by
  have key : ∀ prompt run, Act.complete prompt run ∈ suggest_command env net P →
      P ≠ [] ∧ find_help_exact_icase P = none
      ∧ BUILTIN_HELP.filter (fun e => starts_with_icase e.name P) = []
      ∧ collect_path_executables_with_prefix env P 32 = []
      ∧ prompt = P ∧ run = get_ollama_completion net P
      ∧ suggest_command env net P = [Act.complete P (get_ollama_completion net P)] := by
    intro prompt run hmem
    have hP : P ≠ [] := by
      intro hP
      unfold suggest_command at hmem
      rw [if_pos hP] at hmem
      simp at hmem
    have hcases := suggest_command_cases env net P hP
    by_cases hnone : BUILTIN_HELP.filter (fun e => starts_with_icase e.name P) = []
    · obtain ⟨hex, hs⟩ := hcases.1 hnone
      rw [hs] at hmem
      obtain ⟨h0, hp, hr⟩ := (suggest_external_complete env net P prompt run).1 hmem
      refine ⟨hP, hex, hnone, h0, hp, hr, ?_⟩
      rw [hs]
      unfold suggest_external
      simp only [h0, List.length_nil]
      rfl
    · rcases hcases.2 hnone with ⟨h, hh⟩ | hh
      · rw [hh] at hmem; simp at hmem
      · rw [hh] at hmem; simp at hmem
  constructor
  · constructor
    · rintro ⟨prompt, run, hmem⟩
      obtain ⟨h1, h2, h3, h4, -⟩ := key prompt run hmem
      exact ⟨h1, h2, h3, h4⟩
    · rintro ⟨hP, -, hnone, h0⟩
      refine ⟨P, get_ollama_completion net P, ?_⟩
      rw [((suggest_command_cases env net P hP).1 hnone).2]
      exact (suggest_external_complete env net P _ _).2 ⟨h0, rfl, rfl⟩
  · intro prompt run hmem
    obtain ⟨-, -, -, -, h5, h6, h7⟩ := key prompt run hmem
    exact ⟨h5, h6, h7⟩

set_option maxRecDepth 100000 in
/-- Witness of C18: for the partial `xyz`, which matches no built-in and no
entry of the search path, the only action is the completion request. -/
theorem suggest_command_completion_iff_witness :
    Act.complete "xyz".toList (get_ollama_completion net_unreachable "xyz".toList)
      ∈ suggest_command env_only_cc net_unreachable "xyz".toList
    ∧ suggest_command env_only_cc net_unreachable "xyz".toList
        = [Act.complete "xyz".toList (get_ollama_completion net_unreachable "xyz".toList)] :=
  ⟨by decide,
   ((suggest_command_completion_iff env_only_cc net_unreachable "xyz".toList).2
      "xyz".toList (get_ollama_completion net_unreachable "xyz".toList) (by decide)).2.2⟩

/-! ## The prompt templates and the request body -/

theorem completion_full_prompt_eq (prompt : CStr) :
    completion_full_prompt prompt = snprintf_s 2048 (rendered_template prompt) := by
  unfold completion_full_prompt rendered_template cd_template generic_template
  split <;> rfl

/-- C19 (amended).  For a prompt that begins with `cd`, `get_ollama_completion`
renders the fixed `cd` template (cut to the 2047 characters of `full_prompt`)
as the prompt of its request; whenever it obtains a curl handle it issues
exactly one HTTP request, whose body carries that template, and its result is
what the handling of the response yields, so it depends on the transport. -/
theorem get_ollama_completion_cd (net : Net) (prompt : CStr)
    (hcd : prompt.take 2 = "cd".toList) :
    completion_full_prompt prompt = snprintf_s 2048 (cd_template prompt)
    ∧ (net.curl_easy_init_ok = true →
        get_ollama_completion net prompt
          = { result := read_response net
                (net.curl_easy_perform (completion_request prompt)).1
                (net.curl_easy_perform (completion_request prompt)).2,
              calls := [Call.http_post OLLAMA_API_URL (completion_request prompt)] })
    ∧ (net.curl_easy_init_ok = false →
        get_ollama_completion net prompt = { result := Outcome.null, calls := [] }) := by
  refine ⟨?_, ?_, ?_⟩
  · rw [completion_full_prompt_eq]
    unfold rendered_template
    rw [if_pos hcd]
  · intro h
    unfold get_ollama_completion
    rw [if_pos h]
  · intro h
    unfold get_ollama_completion
    rw [if_neg (by rw [h]; decide)]

set_option maxRecDepth 100000 in
/-- Witness of C19 (amended): for the prompt `cdx` and a service that answers,
one HTTP request is made and the answer of the service is returned. -/
theorem get_ollama_completion_cd_witness :
    ("cdx".toList.take 2 = "cd".toList ∧ net_answering.curl_easy_init_ok = true)
    ∧ get_ollama_completion net_answering "cdx".toList
        = { result := Outcome.value "Complete: ls".toList,
            calls := [Call.http_post OLLAMA_API_URL (completion_request "cdx".toList)] } :=
  ⟨⟨by decide, by decide⟩,
   (get_ollama_completion_cd net_answering "cdx".toList (by decide)).2.1 (by decide)⟩

set_option maxRecDepth 100000 in
/-- C19 as stated fails at the prompt `cdx`, which `suggest_command` passes to
`get_ollama_completion` when the search path has no candidate for it: an HTTP
request is issued, and the result is the answer of the service, not a fixed
text: it differs between a service that answers and one that is unreachable. -/
theorem get_ollama_completion_cd_counterexample :
    "cdx".toList.take 2 = "cd".toList
    ∧ suggest_command env_only_cc net_answering "cdx".toList
        = [Act.complete "cdx".toList (get_ollama_completion net_answering "cdx".toList)]
    ∧ (get_ollama_completion net_answering "cdx".toList).calls
        = [Call.http_post OLLAMA_API_URL (completion_request "cdx".toList)]
    ∧ (get_ollama_completion net_answering "cdx".toList).result
        = Outcome.value "Complete: ls".toList
    ∧ (get_ollama_completion net_unreachable "cdx".toList).result = Outcome.null
    ∧ get_ollama_completion net_answering "cdx".toList
        ≠ get_ollama_completion net_unreachable "cdx".toList := by
  decide

theorem json_string_chars_escape (s rest : CStr) (hs : ∀ c ∈ s, json_safe c) :
    json_string_chars (escape_json_string s ++ '"' :: rest) = some (s, rest) := by
  induction s with
  | nil => simp [escape_json_string, json_string_chars]
  | cons c s ih =>
    have ih' := ih (fun x hx => hs x (List.mem_cons_of_mem _ hx))
    have hc := hs c (List.mem_cons_self _ _)
    simp only [escape_json_string]
    by_cases h1 : c = '\n'
    · subst h1
      simp [json_string_chars, ih']
    · by_cases h2 : c = '\r'
      · subst h2
        simp [json_string_chars, ih']
      · by_cases h3 : c = '\t'
        · subst h3
          simp [json_string_chars, ih']
        · by_cases h4 : c = '\\'
          · subst h4
            simp [json_string_chars, ih']
          · by_cases h5 : c = '"'
            · subst h5
              simp [json_string_chars, ih']
            · rw [if_neg h1, if_neg h2, if_neg h3, if_neg h4, if_neg h5]
              have h32 : ¬ c.toNat < 32 := by
                unfold json_safe at hc
                rcases hc with h | h | h | h
                · omega
                · exact absurd h h1
                · exact absurd h h2
                · exact absurd h h3
              rw [List.cons_append, json_string_chars]
              · simp [h32, ih']
              · exact h5
              · intro a b c' d r hh _
                exact h4 hh
              · intro e r hh _
                exact h4 hh

theorem json_members_tail (f : Nat) :
    json_members (f + 6)
      ("\"stream\": false, \"temperature\": 0.1, \"top_p\": 0.5, \"top_k\": 20, \"num_predict\": 100\x7d").toList
    = some ([ ("stream".toList, Json.bool false),
              ("temperature".toList, Json.number "0.1".toList),
              ("top_p".toList, Json.number "0.5".toList),
              ("top_k".toList, Json.number "20".toList),
              ("num_predict".toList, Json.number "100".toList) ], []) := by
  rfl

theorem json_members_step (f : Nat) (t key r1 r2 r3 r4 r5 : CStr) (v : Json)
    (fields : List (CStr × Json))
    (hk : json_string_chars t = some (key, r1))
    (hc : skip_ws r1 = ':' :: r2)
    (hv : json_value f (skip_ws r2) = some (v, r3))
    (hcomma : skip_ws r3 = ',' :: r4)
    (hm : json_members f (skip_ws r4) = some (fields, r5)) :
    json_members (f + 1) ('"' :: t) = some ((key, v) :: fields, r5) := by
  have h : json_members (f + 1) ('"' :: t)
      = match json_string_chars t with
        | some (key, r1) =>
          match skip_ws r1 with
          | ':' :: r2 =>
            match json_value f (skip_ws r2) with
            | some (v, r3) =>
              match skip_ws r3 with
              | '\x7d' :: r4 => some ([(key, v)], r4)
              | ',' :: r4 =>
                match json_members f (skip_ws r4) with
                | some (fields, r5) => some ((key, v) :: fields, r5)
                | none => none
              | _ => none
            | none => none
          | _ => none
        | none => none := rfl
  rw [h, hk]
  simp only [hc, hv, hcomma, hm]

theorem json_value_string (f : Nat) (s rest : CStr) (hs : ∀ c ∈ s, json_safe c) :
    json_value (f + 1) ('"' :: (escape_json_string s ++ '"' :: rest))
      = some (Json.str s, rest) := by
  have h : json_value (f + 1) ('"' :: (escape_json_string s ++ '"' :: rest))
      = match json_string_chars (escape_json_string s ++ '"' :: rest) with
        | some (str, rest) => some (Json.str str, rest)
        | none => none := rfl
  rw [h, json_string_chars_escape s rest hs]

theorem json_value_object (f : Nat) (t rest : CStr) (fields : List (CStr × Json))
    (hm : json_members f ('"' :: t) = some (fields, rest)) :
    json_value (f + 1) ('\x7b' :: '"' :: t) = some (Json.obj fields, rest) := by
  have h : json_value (f + 1) ('\x7b' :: '"' :: t)
      = match json_members f ('"' :: t) with
        | some (fields, rest) => some (Json.obj fields, rest)
        | none => none := rfl
  rw [h, hm]

/-- The text of a request body for the prompt text `full`, before it is cut
to the size of `json_data`. -/
theorem request_body_shape (full : CStr) :
    "\x7b\"model\": \"tinyllama\", \"prompt\": \"".toList
      ++ escape_json_string full
      ++ ("\", \"stream\": false, \"temperature\": 0.1, \"top_p\": 0.5, "
          ++ "\"top_k\": 20, \"num_predict\": 100\x7d").toList
    = '\x7b' :: '"' :: (escape_json_string "model".toList ++ '"' :: ':' :: ' ' :: '"' ::
        (escape_json_string "tinyllama".toList ++ '"' :: ',' :: ' ' :: '"' ::
          (escape_json_string "prompt".toList ++ '"' :: ':' :: ' ' :: '"' ::
            (escape_json_string full ++ '"' :: ',' :: ' ' ::
              ("\"stream\": false, \"temperature\": 0.1, \"top_p\": 0.5, \"top_k\": 20, \"num_predict\": 100\x7d").toList)))) := by
  rfl

theorem parse_request_body (full : CStr) (hs : ∀ c ∈ full, json_safe c) :
    parse_json
      ("\x7b\"model\": \"tinyllama\", \"prompt\": \"".toList
        ++ escape_json_string full
        ++ ("\", \"stream\": false, \"temperature\": 0.1, \"top_p\": 0.5, "
            ++ "\"top_k\": 20, \"num_predict\": 100\x7d").toList)
      = some (completion_request_object full) := by
  have hlen : ∃ k, ("\x7b\"model\": \"tinyllama\", \"prompt\": \"".toList
        ++ escape_json_string full
        ++ ("\", \"stream\": false, \"temperature\": 0.1, \"top_p\": 0.5, "
            ++ "\"top_k\": 20, \"num_predict\": 100\x7d").toList).length + 1 = k + 9 := by
    have h34 : "\x7b\"model\": \"tinyllama\", \"prompt\": \"".toList.length = 34 := by decide
    obtain ⟨k, hk⟩ := Nat.exists_eq_add_of_le
      (show 9 ≤ ("\x7b\"model\": \"tinyllama\", \"prompt\": \"".toList
        ++ escape_json_string full
        ++ ("\", \"stream\": false, \"temperature\": 0.1, \"top_p\": 0.5, "
            ++ "\"top_k\": 20, \"num_predict\": 100\x7d").toList).length + 1 by
        simp only [List.length_append, h34]
        omega)
    exact ⟨k, by omega⟩
  obtain ⟨k, hk⟩ := hlen
  unfold parse_json
  rw [hk, request_body_shape]
  have hws : ∀ t, skip_ws ('\x7b' :: t) = '\x7b' :: t := fun t => rfl
  rw [hws]
  have hprompt := json_members_step (k + 6) _ "prompt".toList _ _ _ _ _ (Json.str full) _
    (json_string_chars_escape "prompt".toList
      (':' :: ' ' :: '"' :: (escape_json_string full ++ '"' :: ',' :: ' ' ::
        ("\"stream\": false, \"temperature\": 0.1, \"top_p\": 0.5, \"top_k\": 20, \"num_predict\": 100\x7d").toList))
      (by decide))
    rfl
    (json_value_string (k + 5) full _ hs)
    rfl
    (json_members_tail k)
  have hmodel := json_members_step (k + 7) _ "model".toList _ _ _ _ _
    (Json.str "tinyllama".toList) _
    (json_string_chars_escape "model".toList
      (':' :: ' ' :: '"' :: (escape_json_string "tinyllama".toList ++ '"' :: ',' :: ' ' :: '"' ::
        (escape_json_string "prompt".toList ++ '"' :: ':' :: ' ' :: '"' ::
          (escape_json_string full ++ '"' :: ',' :: ' ' ::
            ("\"stream\": false, \"temperature\": 0.1, \"top_p\": 0.5, \"top_k\": 20, \"num_predict\": 100\x7d").toList))))
      (by decide))
    rfl
    (json_value_string (k + 6) "tinyllama".toList _ (by decide))
    rfl
    hprompt
  rw [json_value_object (k + 8) _ _ _ hmodel]
  rfl

theorem completion_request_eq (prompt : CStr) :
    completion_request prompt = snprintf_s 4096 (request_body (completion_full_prompt prompt)) :=
  rfl

set_option maxRecDepth 100000 in
theorem rendered_template_safe (prompt : CStr) (hsafe : ∀ c ∈ prompt, json_safe c) :
    ∀ c ∈ rendered_template prompt, json_safe c := by
  intro c hc
  unfold rendered_template at hc
  split at hc
  · unfold cd_template at hc
    rcases List.mem_append.1 hc with h | h
    · rcases List.mem_append.1 h with h' | h'
      · exact (show ∀ c ∈ "User typed: '".toList, json_safe c by decide) c h'
      · exact hsafe c h'
    · exact (show ∀ c ∈ ("'\n\nComplete Command: cd [directory]\n"
        ++ "What it does: Changes the current working directory\n\n"
        ++ "Suggested completions:\n"
        ++ "1. cd ~ (Go to home directory)\n"
        ++ "2. cd .. (Go up one directory)\n"
        ++ "3. cd /path/to/directory (Go to specific path)").toList, json_safe c by decide) c h
  · unfold generic_template at hc
    rcases List.mem_append.1 hc with h | h
    · rcases List.mem_append.1 h with h' | h'
      · exact (show ∀ c ∈ "Complete the command '".toList, json_safe c by decide) c h'
      · exact hsafe c h'
    · exact (show ∀ c ∈ ("'. Available commands: version, calc, datetime, ls, pwd, whoami, help, tree, "
        ++ "find, cat, count, mkdir, touch, rm, clear, echo, cd, exit, history, bg.\n\n"
        ++ "Reply in this exact format (3 lines only):\n"
        ++ "Complete: [full command]\n"
        ++ "Does: [one short sentence]\n"
        ++ "Similar: [command1], [command2], [command3]").toList, json_safe c by decide) c h

/-- C20 (amended).  For every prompt string that holds no control character
below U+0020 other than newline, carriage return and tab, whose rendered
template is shorter than the 2048 bytes of `full_prompt` and whose request
body is shorter than the 4096 bytes of `json_data`, the request body built by
`get_ollama_completion` is a well-formed JSON object with exactly the fields
model = "tinyllama", prompt, stream = false, temperature = 0.1, top_p = 0.5,
top_k = 20 and num_predict = 100, in this order, and the decoded value of its
prompt field is the fully rendered template for that prompt; this body is the
one of the HTTP request that the function issues. -/
theorem completion_request_wellformed (net : Net) (prompt : CStr)
    (hsafe : ∀ c ∈ prompt, json_safe c)
    (hfit1 : (rendered_template prompt).length < 2048)
    (hfit2 : (request_body (rendered_template prompt)).length < 4096) :
    parse_json (completion_request prompt)
      = some (completion_request_object (rendered_template prompt))
    ∧ (net.curl_easy_init_ok = true →
        (get_ollama_completion net prompt).calls
          = [Call.http_post OLLAMA_API_URL (completion_request prompt)]) := by
  constructor
  · rw [completion_request_eq, completion_full_prompt_eq, snprintf_s_fits _ _ hfit1,
      snprintf_s_fits _ _ hfit2]
    exact parse_request_body _ (rendered_template_safe prompt hsafe)
  · intro h
    unfold get_ollama_completion
    rw [if_pos h]

set_option maxRecDepth 100000 in
/-- Witness of C20 (amended): the request body for the prompt `xyz`. -/
theorem completion_request_wellformed_witness :
    ((∀ c ∈ "xyz".toList, json_safe c)
      ∧ (rendered_template "xyz".toList).length < 2048
      ∧ (request_body (rendered_template "xyz".toList)).length < 4096)
    ∧ parse_json (completion_request "xyz".toList)
        = some (completion_request_object (rendered_template "xyz".toList)) :=
  ⟨⟨by decide, by decide, by decide⟩,
   (completion_request_wellformed net_answering "xyz".toList (by decide) (by decide)
      (by decide)).1⟩

theorem escape_json_string_plain (s : CStr)
    (hs : ∀ c ∈ s, c ≠ '\n' ∧ c ≠ '\r' ∧ c ≠ '\t' ∧ c ≠ '\\' ∧ c ≠ '"') :
    escape_json_string s = s := by
  induction s with
  | nil => rfl
  | cons c s ih =>
    obtain ⟨h1, h2, h3, h4, h5⟩ := hs c (List.mem_cons_self _ _)
    simp only [escape_json_string]
    rw [if_neg h1, if_neg h2, if_neg h3, if_neg h4, if_neg h5,
      ih (fun x hx => hs x (List.mem_cons_of_mem _ hx))]

theorem long_prompt_full :
    completion_full_prompt long_prompt
      = ("Complete the command '".toList ++ long_prompt).take 2047 := by
  rw [completion_full_prompt_eq]
  unfold rendered_template
  rw [if_neg (by unfold long_prompt; rw [List.take_replicate]; decide)]
  unfold generic_template snprintf_s
  exact List.take_append_of_le_length
    (by unfold long_prompt
        simp only [List.length_append, List.length_replicate]
        omega)

theorem long_prompt_full_length : (completion_full_prompt long_prompt).length = 2047 := by
  rw [long_prompt_full, List.length_take]
  unfold long_prompt
  simp only [List.length_append, List.length_replicate]
  omega

theorem long_prompt_full_plain :
    ∀ c ∈ completion_full_prompt long_prompt,
      32 ≤ c.toNat ∧ c ≠ '\n' ∧ c ≠ '\r' ∧ c ≠ '\t' ∧ c ≠ '\\' ∧ c ≠ '"' := by
  intro c hc
  rw [long_prompt_full] at hc
  rcases List.mem_append.1 (List.mem_of_mem_take hc) with h | h
  · exact (show ∀ c ∈ "Complete the command '".toList,
      32 ≤ c.toNat ∧ c ≠ '\n' ∧ c ≠ '\r' ∧ c ≠ '\t' ∧ c ≠ '\\' ∧ c ≠ '"' by decide) c h
  · unfold long_prompt at h
    rw [List.eq_of_mem_replicate h]
    decide

theorem completion_request_object_inj (a b : CStr)
    (h : completion_request_object a = completion_request_object b) : a = b := by
  unfold completion_request_object at h
  injection h with h
  injection h with _ h
  injection h with h _
  injection h with _ h
  injection h

/-- C20 as stated fails for a prompt of 2100 letters `x`: the request body is
a well-formed JSON object, but the value of its prompt field is the rendered
template cut to the 2047 characters of `full_prompt`, not the fully rendered
template. -/
theorem completion_request_truncated_counterexample :
    parse_json (completion_request long_prompt)
      = some (completion_request_object (completion_full_prompt long_prompt))
    ∧ (completion_full_prompt long_prompt).length = 2047
    ∧ 2100 ≤ (rendered_template long_prompt).length
    ∧ parse_json (completion_request long_prompt)
        ≠ some (completion_request_object (rendered_template long_prompt)) := by
  have hplain := long_prompt_full_plain
  have hlen := long_prompt_full_length
  have hesc : escape_json_string (completion_full_prompt long_prompt)
      = completion_full_prompt long_prompt :=
    escape_json_string_plain _ (fun c hc => (hplain c hc).2)
  have hbody : (request_body (completion_full_prompt long_prompt)).length < 4096 := by
    unfold request_body
    rw [hesc]
    have h34 : "\x7b\"model\": \"tinyllama\", \"prompt\": \"".toList.length = 34 := by decide
    have h89 : ("\", \"stream\": false, \"temperature\": 0.1, \"top_p\": 0.5, "
          ++ "\"top_k\": 20, \"num_predict\": 100\x7d").toList.length ≤ 100 := by decide
    simp only [List.length_append, h34, hlen]
    omega
  have hparse : parse_json (completion_request long_prompt)
      = some (completion_request_object (completion_full_prompt long_prompt)) := by
    rw [completion_request_eq, snprintf_s_fits _ _ hbody]
    exact parse_request_body _ (fun c hc => Or.inl (hplain c hc).1)
  have hrend : 2100 ≤ (rendered_template long_prompt).length := by
    unfold rendered_template
    split
    · unfold cd_template long_prompt
      simp only [List.length_append, List.length_replicate]
      omega
    · unfold generic_template long_prompt
      simp only [List.length_append, List.length_replicate]
      omega
  refine ⟨hparse, hlen, hrend, ?_⟩
  rw [hparse]
  intro h
  have := completion_request_object_inj _ _ (Option.some.inj h)
  rw [this] at hlen
  omega

/-! ## Length and round trip of the JSON escaping -/

theorem escape_json_string_length (s : CStr) :
    (escape_json_string s).length = s.length + (s.filter is_escaped).length := by
  induction s with
  | nil => rfl
  | cons c s ih =>
    simp only [escape_json_string]
    by_cases h1 : c = '\n'
    · subst h1
      rw [if_pos rfl, List.filter_cons_of_pos (by decide)]
      simp only [List.length_cons, ih]
      omega
    · rw [if_neg h1]
      by_cases h2 : c = '\r'
      · subst h2
        rw [if_pos rfl, List.filter_cons_of_pos (by decide)]
        simp only [List.length_cons, ih]
        omega
      · rw [if_neg h2]
        by_cases h3 : c = '\t'
        · subst h3
          rw [if_pos rfl, List.filter_cons_of_pos (by decide)]
          simp only [List.length_cons, ih]
          omega
        · rw [if_neg h3]
          by_cases h4 : c = '\\'
          · subst h4
            rw [if_pos rfl, List.filter_cons_of_pos (by decide)]
            simp only [List.length_cons, ih]
            omega
          · rw [if_neg h4]
            by_cases h5 : c = '"'
            · subst h5
              rw [if_pos rfl, List.filter_cons_of_pos (by decide)]
              simp only [List.length_cons, ih]
              omega
            · rw [if_neg h5, List.filter_cons_of_neg (by simp [is_escaped, h1, h2, h3, h4, h5])]
              simp only [List.length_cons, ih]
              omega

/-- C28.  For every input string `s` of length `n`, `escape_json_string(s)`
has length `n` plus the number of characters of `s` among newline, carriage
return, tab, backslash and double quote, hence at most `2n`, below the
`2n + 1` bytes allocated; and when `s` holds no control character below
U+0020 other than newline, carriage return and tab, reading the result as
the body of a JSON string literal yields `s`. -/
theorem escape_json_string_length_and_round_trip (s : CStr) :
    (escape_json_string s).length = s.length + (s.filter is_escaped).length
    ∧ (escape_json_string s).length ≤ 2 * s.length
    ∧ (escape_json_string s).length < 2 * s.length + 1
    ∧ ((∀ c ∈ s, json_safe c) →
        json_string_chars (escape_json_string s ++ ['"']) = some (s, [])
        ∧ parse_json_string (json_string_field s) = some s) := by
  have hlen := escape_json_string_length s
  have hle : (s.filter is_escaped).length ≤ s.length := List.length_filter_le _ _
  refine ⟨hlen, by omega, by omega, ?_⟩
  intro hs
  have h := json_string_chars_escape s [] hs
  refine ⟨h, ?_⟩
  unfold parse_json_string json_string_field
  simp only [h]

/-- Witness of C28: a string with a quote, a backslash, a newline and a tab
is escaped to four more characters and read back unchanged. -/
theorem escape_json_string_length_and_round_trip_witness :
    (∀ c ∈ "a\"b\\c\nd\t".toList, json_safe c)
    ∧ (escape_json_string "a\"b\\c\nd\t".toList).length = 8 + 4
    ∧ parse_json_string (json_string_field "a\"b\\c\nd\t".toList)
        = some "a\"b\\c\nd\t".toList :=
  ⟨by decide,
   (escape_json_string_length_and_round_trip "a\"b\\c\nd\t".toList).1,
   ((escape_json_string_length_and_round_trip "a\"b\\c\nd\t".toList).2.2.2 (by decide)).2⟩

/-! ## The built-in vocabulary -/

set_option maxRecDepth 100000 in
/-- C23.  The three listings of the built-in vocabulary agree: the dispatch
table `builtin_str` holds the names of the `BUILTIN_HELP` catalogue, the same
20 names in the same order, and the command names listed in the generic
completion prompt template are 20 distinct names that form the same set. -/
theorem builtin_vocabulary_agrees :
    builtin_str = builtin_names
    ∧ builtin_names.length = 20
    ∧ builtin_names.Nodup
    ∧ template_commands
        = [ "version".toList, "calc".toList, "datetime".toList, "ls".toList, "pwd".toList,
            "whoami".toList, "help".toList, "tree".toList, "find".toList, "cat".toList,
            "count".toList, "mkdir".toList, "touch".toList, "rm".toList, "clear".toList,
            "echo".toList, "cd".toList, "exit".toList, "history".toList, "bg".toList ]
    ∧ template_commands.length = 20
    ∧ template_commands.Nodup
    ∧ (∀ x ∈ template_commands, x ∈ builtin_names)
    ∧ (∀ x ∈ builtin_names, x ∈ template_commands) := by
  decide

theorem eq_singleton_of_all_eq {α : Type} (l : List α) (e : α) (hmem : e ∈ l)
    (hall : ∀ x ∈ l, x = e) (hnd : l.Nodup) : l = [e] := by
  match l, hmem, hall, hnd with
  | [a], _, hall, _ => rw [hall a (by simp)]
  | a :: b :: t, _, hall, hnd =>
    exfalso
    have ha := hall a (by simp)
    have hb := hall b (by simp)
    rw [List.nodup_cons] at hnd
    exact hnd.1 (by simp [ha, hb])

theorem filter_of_exact (P : CStr) (e : BuiltinHelp) (hex : find_help_exact_icase P = some e) :
    BUILTIN_HELP.filter (fun h => starts_with_icase h.name P) = [e] := by
  have hfind := List.find?_some hex
  have hemem : e ∈ BUILTIN_HELP := List.mem_of_find?_eq_some hex
  simp only [Bool.and_eq_true, beq_iff_eq] at hfind
  apply eq_singleton_of_all_eq
  · exact List.mem_filter.2 ⟨hemem, hfind.2⟩
  · intro x hx
    have hx' := List.mem_filter.1 hx
    exact (builtin_no_proper_extension e hemem x hx'.1
      (starts_with_icase_trans x.name e.name P hx'.2 hfind.2 hfind.1)).symm
  · exact builtin_help_nodup.filter _

set_option maxRecDepth 100000 in
/-- C24.  No name of the `BUILTIN_HELP` catalogue is a case-insensitive
prefix of a different catalogue name, and the names are pairwise distinct
ignoring case; hence whenever the exact-match short-circuit of
`complete_builtin_command` fires for a partial `P`, the record found is the
only record whose name starts with `P` ignoring case: the count of prefix
matches is exactly one. -/
theorem builtin_names_prefix_free :
    (∀ a ∈ BUILTIN_HELP, ∀ b ∈ BUILTIN_HELP,
      starts_with_icase b.name a.name = true → a = b)
    ∧ (builtin_names.map (fun n => n.map tolower)).Nodup
    ∧ (∀ P e, find_help_exact_icase P = some e →
        BUILTIN_HELP.filter (fun h => starts_with_icase h.name P) = [e]
        ∧ (count_matches BUILTIN_HELP P).1 = 1) := by
  refine ⟨builtin_no_proper_extension, by decide, ?_⟩
  intro P e hex
  have h := filter_of_exact P e hex
  refine ⟨h, ?_⟩
  rw [count_matches_eq, h]
  rfl

/-! ## Display and splice classify a partial alike -/

theorem builtin_names_short : ∀ h ∈ BUILTIN_HELP, h.name.length < 128 := by
  decide

theorem suggest_external_acts (env : Env) (net : Net) (P : CStr) :
    ∀ a ∈ suggest_external env net P,
      (∀ h, a ≠ Act.help_page h) ∧ (∀ p, a ≠ Act.match_list p) := by
  have hdesc : ∀ cmd, ∀ a ∈ describe_and_print net cmd,
      (∀ h, a ≠ Act.help_page h) ∧ (∀ p, a ≠ Act.match_list p) := by
    intro cmd a ha
    unfold describe_and_print at ha
    simp only at ha
    split at ha
    · simp only [List.mem_cons, List.mem_singleton, List.not_mem_nil, or_false] at ha
      rcases ha with h | h <;> (subst h; exact ⟨fun _ hc => Act.noConfusion hc,
        fun _ hc => Act.noConfusion hc⟩)
    · simp only [List.mem_singleton] at ha
      subst ha
      exact ⟨fun _ hc => Act.noConfusion hc, fun _ hc => Act.noConfusion hc⟩
  intro a ha
  unfold suggest_external at ha
  simp only at ha
  split at ha
  · exact hdesc _ a ha
  · split at ha
    · split at ha
      · exact hdesc _ a ha
      · simp at ha
    · simp only [List.mem_singleton] at ha
      subst ha
      exact ⟨fun _ hc => Act.noConfusion hc, fun _ hc => Act.noConfusion hc⟩

theorem builtin_classification (env : Env) (net : Net) (P out : CStr) (hP : P ≠ []) :
    (∃ h ∈ BUILTIN_HELP, complete_builtin_command P out 128 = (1, h.name)
        ∧ suggest_command env net P = [Act.help_page h])
    ∨ (complete_builtin_command P out 128 = (2, [])
        ∧ suggest_command env net P = [Act.match_list P])
    ∨ (complete_builtin_command P out 128 = (0, [])
        ∧ suggest_command env net P = suggest_external env net P) := by
  unfold complete_builtin_command suggest_command
  rw [if_neg (by decide), if_neg hP, if_neg hP]
  cases hex : find_help_exact_icase P with
  | some e =>
    left
    have hemem : e ∈ BUILTIN_HELP := List.mem_of_find?_eq_some hex
    exact ⟨e, hemem, by simp only [snprintf_s_fits _ _ (builtin_names_short e hemem)], rfl⟩
  | none =>
    simp only
    rw [count_matches_eq]
    cases hl : (BUILTIN_HELP.filter (fun h => starts_with_icase h.name P)).getLast? with
    | none =>
      have hnil := List.getLast?_eq_none_iff.1 hl
      right; right
      simp only [hnil, List.length_nil]
      exact ⟨rfl, rfl⟩
    | some s =>
      simp only
      have hs : s ∈ BUILTIN_HELP :=
        (List.mem_filter.1 (List.mem_of_getLast?_eq_some hl)).1
      have hne : (BUILTIN_HELP.filter (fun h => starts_with_icase h.name P)).length ≠ 0 := by
        intro h0
        rw [List.length_eq_zero.1 h0] at hl
        simp at hl
      by_cases h1 : (BUILTIN_HELP.filter (fun h => starts_with_icase h.name P)).length = 1
      · left
        rw [if_pos h1, if_pos h1, snprintf_s_fits _ _ (builtin_names_short s hs)]
        exact ⟨s, hs, rfl, rfl⟩
      · right; left
        rw [if_neg h1, if_neg h1, if_pos (by omega), if_pos (by omega)]
        exact ⟨rfl, rfl⟩

/-- C29.  The display pipeline and the splice pipeline classify a partial
alike with respect to built-ins: for every non-empty partial `P` (and the
128-byte buffer of the tab handler), `suggest_command(P)` prints the help page
of the built-in named `N` exactly when `complete_builtin_command(P)` returns 1
with `N`, prints the built-in match list exactly when it returns 2, and goes
on to the external and network stages exactly when it returns 0; these are
the only return values. -/
theorem builtin_display_splice_agree (env : Env) (net : Net) (P out : CStr) (hP : P ≠ []) :
    (∀ N, complete_builtin_command P out 128 = (1, N) ↔
      ∃ h ∈ BUILTIN_HELP, h.name = N ∧ suggest_command env net P = [Act.help_page h])
    ∧ ((complete_builtin_command P out 128).1 = 2 ↔
        suggest_command env net P = [Act.match_list P])
    ∧ ((complete_builtin_command P out 128).1 = 0 ↔
        suggest_command env net P = suggest_external env net P)
    ∧ ((complete_builtin_command P out 128).1 = 0
        ∨ (complete_builtin_command P out 128).1 = 1
        ∨ (complete_builtin_command P out 128).1 = 2) := by
  have hext := suggest_external_acts env net P
  have no_help : ∀ h, suggest_external env net P ≠ [Act.help_page h] := by
    intro h hc
    exact (hext (Act.help_page h) (by rw [hc]; simp)).1 h rfl
  have no_list : ∀ p, suggest_external env net P ≠ [Act.match_list p] := by
    intro p hc
    exact (hext (Act.match_list p) (by rw [hc]; simp)).2 p rfl
  rcases builtin_classification env net P out hP with ⟨h, hh, hc, hs⟩ | ⟨hc, hs⟩ | ⟨hc, hs⟩
  · refine ⟨?_, ?_, ?_, ?_⟩
    · intro N
      constructor
      · intro hN
        rw [hc] at hN
        simp only [Prod.mk.injEq, true_and] at hN
        exact ⟨h, hh, hN, hs⟩
      · rintro ⟨h', -, hn, hs'⟩
        rw [hs] at hs'
        simp only [List.cons.injEq, Act.help_page.injEq, and_true] at hs'
        rw [hc, ← hn, hs']
    · rw [hc, hs]
      constructor
      · intro h2; simp at h2
      · intro h2; simp at h2
    · rw [hc]
      constructor
      · intro h2; simp at h2
      · intro h2
        rw [hs] at h2
        exact absurd h2.symm (no_help h)
    · rw [hc]; right; left; rfl
  · refine ⟨?_, ?_, ?_, ?_⟩
    · intro N
      constructor
      · intro hN
        rw [hc] at hN
        simp at hN
      · rintro ⟨h', -, -, hs'⟩
        rw [hs] at hs'
        simp at hs'
    · rw [hc, hs]
      simp
    · rw [hc]
      constructor
      · intro h2; exact absurd h2 (by decide)
      · intro h2
        rw [hs] at h2
        exact absurd h2.symm (no_list P)
    · rw [hc]; right; right; rfl
  · refine ⟨?_, ?_, ?_, ?_⟩
    · intro N
      constructor
      · intro hN
        rw [hc] at hN
        simp at hN
      · rintro ⟨h', -, -, hs'⟩
        rw [hs] at hs'
        exact absurd hs' (no_help h')
    · rw [hc]
      constructor
      · intro h2; exact absurd h2 (by decide)
      · intro h2
        rw [hs] at h2
        exact absurd h2 (no_list P)
    · rw [hc]
      simp only [true_iff]
      exact hs
    · rw [hc]; left; rfl

set_option maxRecDepth 100000 in
/-- Witness of C29: for the partial `ver` the splice pipeline returns 1 with
`version` and the display pipeline prints the help page of `version`. -/
theorem builtin_display_splice_agree_witness :
    "ver".toList ≠ []
    ∧ complete_builtin_command "ver".toList [] 128 = (1, "version".toList)
    ∧ ∃ h ∈ BUILTIN_HELP, h.name = "version".toList
        ∧ suggest_command env_only_cc net_unreachable "ver".toList = [Act.help_page h] :=
  ⟨by decide, by decide,
   ((builtin_display_splice_agree env_only_cc net_unreachable "ver".toList [] (by decide)).1
      "version".toList).1 (by decide)⟩

/-! ## Completion extends what was typed -/

theorem starts_with_icase_length (s p : CStr) (h : starts_with_icase s p = true) :
    p.length ≤ s.length := by
  induction p generalizing s with
  | nil => simp
  | cons c p ih =>
    cases s with
    | nil => simp [starts_with_icase] at h
    | cons a s =>
      simp only [starts_with_icase, bne_iff_ne, ne_eq, ite_not, Bool.if_false_right,
        Bool.and_eq_true, decide_eq_true_eq] at h
      have := ih s h.2
      simp only [List.length_cons]
      omega

theorem starts_with_icase_take (s p : CStr) (k : Nat) (h : starts_with_icase s p = true)
    (hk : p.length ≤ k) : starts_with_icase (s.take k) p = true := by
  induction p generalizing s k with
  | nil => cases s.take k <;> rfl
  | cons c p ih =>
    cases s with
    | nil => simp [starts_with_icase] at h
    | cons a s =>
      cases k with
      | zero => simp at hk
      | succ k =>
        simp only [starts_with_icase, bne_iff_ne, ne_eq, ite_not, Bool.if_false_right,
          Bool.and_eq_true, decide_eq_true_eq, List.take_succ_cons] at h ⊢
        exact ⟨h.1, ih s k h.2 (by simpa using hk)⟩

theorem complete_builtin_one (P out N : CStr)
    (h : complete_builtin_command P out 128 = (1, N)) :
    ∃ b ∈ BUILTIN_HELP, N = b.name ∧ starts_with_icase b.name P = true := by
  rcases complete_builtin_command_result P out 128 (by decide) with h0 | ⟨b, hb, hpre, hr⟩
  · exfalso
    rw [h] at h0
    simp only at h0
    subst h0
    unfold complete_builtin_command at h
    rw [if_neg (by decide)] at h
    by_cases hP : P = []
    · rw [if_pos hP] at h; simp at h
    · rw [if_neg hP] at h
      cases hex : find_help_exact_icase P with
      | some e =>
        rw [hex] at h
        simp only [Prod.mk.injEq, true_and] at h
        have hemem : e ∈ BUILTIN_HELP := List.mem_of_find?_eq_some hex
        rw [snprintf_s_fits _ _ (builtin_names_short e hemem)] at h
        exact (show ∀ b ∈ BUILTIN_HELP, b.name ≠ [] by decide) e hemem h
      | none =>
        rw [hex] at h
        simp only at h
        rw [count_matches_eq] at h
        cases hl : (BUILTIN_HELP.filter (fun h => starts_with_icase h.name P)).getLast? with
        | none =>
          rw [hl] at h
          simp only at h
          split at h <;> simp at h
        | some s =>
          rw [hl] at h
          simp only at h
          have hs : s ∈ BUILTIN_HELP :=
            (List.mem_filter.1 (List.mem_of_getLast?_eq_some hl)).1
          split at h
          · simp only [Prod.mk.injEq, true_and] at h
            rw [snprintf_s_fits _ _ (builtin_names_short s hs)] at h
            exact (show ∀ b ∈ BUILTIN_HELP, b.name ≠ [] by decide) s hs h
          · split at h <;> simp at h
  · rw [hr, snprintf_s_fits _ _ (builtin_names_short b hb)] at h
    simp only [Prod.mk.injEq, true_and] at h
    exact ⟨b, hb, h.symm, hpre⟩

theorem complete_builtin_command_out (P out out2 : CStr) :
    complete_builtin_command P out 128 = complete_builtin_command P out2 128 := by
  have h128 : ¬ (128 : Nat) = 0 := by decide
  unfold complete_builtin_command
  rw [if_neg h128, if_neg h128]

set_option maxRecDepth 100000 in
theorem complete_builtin_idempotent :
    ∀ b ∈ BUILTIN_HELP, complete_builtin_command b.name [] 128 = (1, b.name) := by
  decide

theorem complete_external_one (env : Env) (P out N : CStr)
    (h : complete_external_command env P out 128 = (1, N)) :
    ∃ name, starts_with_icase name P = true
      ∧ N = snprintf_s 128 (snprintf_s 256 name) := by
  have hget : ∀ i, i < ( collect_path_executables_with_prefix env P 32).length →
      ∃ name, starts_with_icase name P = true
        ∧ ( collect_path_executables_with_prefix env P 32).getD i [] = snprintf_s 256 name := by
    intro i hi
    have hmem : ( collect_path_executables_with_prefix env P 32).getD i []
        ∈ collect_path_executables_with_prefix env P 32 := by
      rw [List.getD_eq_getElem _ _ hi]
      exact List.getElem_mem hi
    obtain ⟨d, ents, name, -, -, hx, hpre⟩ := collect_mem env P 32 _ hmem
    exact ⟨name, hpre, hx⟩
  unfold complete_external_command at h
  rw [if_neg (by decide)] at h
  by_cases h1 : P = []
  · rw [if_pos h1] at h; simp at h
  · rw [if_neg h1] at h
    by_cases h2 : (P.any (fun c => c == ' ' || c == '\t')) = true
    · rw [if_pos h2] at h; simp at h
    · rw [if_neg h2] at h
      simp only at h
      by_cases h3 : ( collect_path_executables_with_prefix env P 32).length = 1
      · rw [if_pos h3] at h
        simp only [Prod.mk.injEq, true_and] at h
        obtain ⟨name, hpre, hx⟩ := hget 0 (by omega)
        exact ⟨name, hpre, by rw [← h, hx]⟩
      · rw [if_neg h3] at h
        by_cases h4 : ( collect_path_executables_with_prefix env P 32).length > 1
        · rw [if_pos h4] at h
          have hne : collect_path_executables_with_prefix env P 32 ≠ [] := by
            intro hc
            rw [hc] at h4
            simp at h4
          by_cases h5 : pick_best_external_candidate
              ( collect_path_executables_with_prefix env P 32) ≥ 0
          · rw [if_pos h5] at h
            simp only [Prod.mk.injEq, true_and] at h
            have hrange := (pick_best_characterization _ hne).2.2.1
            rcases hrange with hm | ⟨b, hb, hpb⟩
            · rw [hm] at h5
              exact absurd h5 (by decide)
            · rw [hpb] at h
              simp only [Int.toNat_ofNat] at h
              obtain ⟨name, hpre, hx⟩ := hget b hb
              exact ⟨name, hpre, by rw [← h, hx]⟩
          · rw [if_neg h5] at h; simp at h
        · rw [if_neg h4] at h; simp at h

/-- C25 (amended).  Completion only extends what was typed.  Whenever
`complete_builtin_command(P)` returns 1 with the name `N` (128-byte buffer of
the tab handler), `N` starts with `P` ignoring letter case, so `length N >=
length P`, and built-in completion is idempotent: `complete_builtin_command(N)`
again returns 1 with `N`.  Whenever `complete_external_command(P)` returns 1
with `N` and `P` is shorter than the 128-byte buffer, `N` starts with `P`
ignoring letter case and `length N >= length P`. -/
theorem completion_extends_typed (env : Env) (P out out2 N : CStr) :
    (complete_builtin_command P out 128 = (1, N) →
      starts_with_icase N P = true ∧ P.length ≤ N.length
      ∧ complete_builtin_command N out2 128 = (1, N))
    ∧ (P.length < 128 → complete_external_command env P out 128 = (1, N) →
        starts_with_icase N P = true ∧ P.length ≤ N.length) := by
  constructor
  · intro h
    obtain ⟨b, hb, hN, hpre⟩ := complete_builtin_one P out N h
    subst hN
    refine ⟨hpre, starts_with_icase_length _ _ hpre, ?_⟩
    rw [complete_builtin_command_out b.name out2 []]
    exact complete_builtin_idempotent b hb
  · intro hlen h
    obtain ⟨name, hpre, hN⟩ := complete_external_one env P out N h
    have h1 : starts_with_icase N P = true := by
      rw [hN]
      unfold snprintf_s
      exact starts_with_icase_take _ _ _
        (starts_with_icase_take _ _ _ hpre (by omega)) (by omega)
    exact ⟨h1, starts_with_icase_length _ _ h1⟩

set_option maxRecDepth 100000 in
/-- Witness of C25 (amended): `ver` completes to `version`, which completes
to itself, and `c` completes to the external command `cc`. -/
theorem completion_extends_typed_witness :
    (complete_builtin_command "ver".toList [] 128 = (1, "version".toList)
      ∧ starts_with_icase "version".toList "ver".toList = true
      ∧ complete_builtin_command "version".toList [] 128 = (1, "version".toList))
    ∧ ("c".toList.length < 128
      ∧ complete_external_command env_only_cc "c".toList [] 128 = (1, "cc".toList)
      ∧ starts_with_icase "cc".toList "c".toList = true) :=
  ⟨⟨by decide,
    ((completion_extends_typed env_only_cc "ver".toList [] [] "version".toList).1
      (by decide)).1,
    ((completion_extends_typed env_only_cc "ver".toList [] [] "version".toList).1
      (by decide)).2.2⟩,
   ⟨by decide, by decide,
    ((completion_extends_typed env_only_cc "c".toList [] [] "cc".toList).2
      (by decide) (by decide)).1⟩⟩

set_option maxRecDepth 1000000 in
/-- C25 as stated fails for a partial of 128 letters `a` and an executable
named with 130 letters `a`: `complete_external_command` returns 1 with the
name cut to the 127 characters that fit the 128-byte buffer of the tab
handler, which is shorter than the partial and does not start with it. -/
theorem completion_shortens_counterexample :
    complete_external_command env_long_name (List.replicate 128 'a') [] 128
      = (1, List.replicate 127 'a')
    ∧ starts_with_icase (List.replicate 127 'a') (List.replicate 128 'a') = false
    ∧ (List.replicate 127 'a').length < (List.replicate 128 'a').length := by
  decide

/-! ## A flag splice only appends -/

theorem strrchr_none (s : CStr) (c : Char) (h : strrchr s c = none) : c ∉ s := by
  induction s with
  | nil => simp
  | cons x t ih =>
    simp only [strrchr] at h
    cases ht : strrchr t c with
    | some i => rw [ht] at h; simp at h
    | none =>
      rw [ht] at h
      simp only at h
      by_cases hx : x = c
      · rw [if_pos hx] at h; simp at h
      · intro hc
        rcases List.mem_cons.1 hc with h1 | h1
        · exact hx h1.symm
        · exact ih ht h1

theorem tab_event_length (env : Env) (lb : LineBuf) (h : lb.buffer.length < lb.bufsize) :
    (tab_event env lb).buffer.length < (tab_event env lb).bufsize
    ∧ (tab_event env lb).bufsize = lb.bufsize := by
  have hpos : 0 < lb.bufsize := by omega
  unfold tab_event
  cases strrchr lb.buffer ' ' with
  | none =>
    unfold tab_command
    simp only
    split
    · exact ⟨snprintf_s_length _ _ hpos, rfl⟩
    · split
      · exact ⟨snprintf_s_length _ _ hpos, rfl⟩
      · exact ⟨h, rfl⟩
  | some i =>
    unfold tab_argument
    simp only
    split
    · by_cases h2 : i + 1 < lb.bufsize
      · rw [if_pos h2]
        refine ⟨?_, rfl⟩
        simp only [List.length_append, List.length_take]
        have := snprintf_s_length (lb.bufsize - (i + 1))
          (complete_external_arg (first_token lb.buffer) (lb.buffer.drop (i + 1)) [] 128).2
          (by omega)
        omega
      · rw [if_neg h2]
        exact ⟨h, rfl⟩
    · exact ⟨h, rfl⟩

theorem read_loop_length (env : Env) (input : List Int) (lb lb' : LineBuf)
    (h : lb.buffer.length < lb.bufsize) (hr : read_loop env lb input = Step.next lb') :
    lb'.buffer.length < lb'.bufsize := by
  induction input generalizing lb with
  | nil =>
    simp only [read_loop, Step.next.injEq] at hr
    subst hr
    exact h
  | cons c rest ih =>
    simp only [read_loop] at hr
    cases hs : read_step env lb c with
    | ret line => rw [hs] at hr; exact Step.noConfusion hr
    | next lb1 =>
      rw [hs] at hr
      refine ih lb1 ?_ hr
      by_cases hc : 32 ≤ c ∧ c < 127
      · rw [(read_step_cases env lb c).1 hc] at hs
        simp only [Step.next.injEq] at hs
        subst hs
        simp only [List.length_append, List.length_singleton]
        unfold RIPPLE_RL_BUFSIZE
        split <;> omega
      · rcases (read_step_cases env lb c).2 hc with h1 | h1 | h1 | h1 | h1
        · rw [h1.2] at hs
          split at hs
          · exact Step.noConfusion hs
          · simp only [Step.next.injEq] at hs
            subst hs
            exact h
        · rw [h1.2] at hs; exact Step.noConfusion hs
        · rw [h1.2] at hs
          simp only [Step.next.injEq] at hs
          subst hs
          exact (tab_event_length env lb h).1
        · rw [h1.2] at hs
          simp only [Step.next.injEq] at hs
          subst hs
          simp only [List.length_dropLast]
          omega
        · rw [h1] at hs
          simp only [Step.next.injEq] at hs
          subst hs
          exact h

theorem complete_external_arg_extends (cmd p out F : CStr)
    (h : complete_external_arg cmd p out 128 = (1, F)) :
    cmd = "gcc".toList ∧ ∃ t, F = p ++ t := by
  have h128 : ¬ (128 : Nat) = 0 := by decide
  unfold complete_external_arg at h
  rw [if_neg h128] at h
  by_cases h1 : cmd = []
  · rw [if_pos h1] at h; simp at h
  · rw [if_neg h1] at h
    by_cases h2 : cmd ≠ "gcc".toList
    · rw [if_pos h2] at h; simp at h
    · rw [if_neg h2, collect_flag_matches_gcc] at h
      simp only at h
      refine ⟨not_not.1 h2, ?_⟩
      by_cases h3 : (GCC_FLAGS.filter (fun f => starts_with f.flag p)).length = 1
      · rw [if_pos h3] at h
        obtain ⟨f, hf⟩ := List.length_eq_one.1 h3
        rw [hf] at h
        have hmem : f ∈ GCC_FLAGS.filter (fun f => starts_with f.flag p) := by rw [hf]; simp
        obtain ⟨hf1, hf2⟩ := List.mem_filter.1 hmem
        simp only [List.map_cons, List.map_nil, List.getD_cons_zero, Prod.mk.injEq,
          true_and] at h
        rw [snprintf_s_fits _ _ (gcc_flags_nonempty_short f hf1).2] at h
        rw [← h]
        exact (starts_with_iff _ _).1 hf2
      · rw [if_neg h3] at h
        split at h <;> simp at h

/-- C26.  A flag splice only appends characters: for every line buffer that
`ripple_read_line` reaches and that holds a space, the buffer after a tab
event has the line as an exact prefix and the capacity is unchanged; the
buffer is unchanged when the flag resolution of the text after the last space
does not return 1 (not Unique), and when the first token is not `gcc`. -/
theorem flag_splice_appends (env : Env) (input : List Int) (lb : LineBuf)
    (hreach : ripple_read_line env input = Step.next lb) (hsp : ' ' ∈ lb.buffer) :
    (∃ t, (tab_event env lb).buffer = lb.buffer ++ t)
    ∧ (tab_event env lb).bufsize = lb.bufsize
    ∧ (∀ i, strrchr lb.buffer ' ' = some i →
        (complete_external_arg (first_token lb.buffer) (lb.buffer.drop (i + 1)) [] 128).1 ≠ 1 →
        tab_event env lb = lb)
    ∧ (first_token lb.buffer ≠ "gcc".toList → tab_event env lb = lb) := by
  have hlen : lb.buffer.length < lb.bufsize := by
    unfold ripple_read_line at hreach
    exact read_loop_length env input _ lb (by unfold RIPPLE_RL_BUFSIZE; simp) hreach
  cases hs : strrchr lb.buffer ' ' with
  | none => exact absurd hsp (strrchr_none _ _ hs)
  | some i =>
    have hte : tab_event env lb = tab_argument lb i := by
      unfold tab_event
      rw [hs]
    have hnot : (complete_external_arg (first_token lb.buffer) (lb.buffer.drop (i + 1)) [] 128).1 ≠ 1 →
        tab_argument lb i = lb := by
      intro hne
      unfold tab_argument
      simp only
      rw [if_neg (fun hc => hne hc.1)]
    refine ⟨?_, ?_, ?_, ?_⟩
    · rw [hte]
      unfold tab_argument
      simp only
      generalize hr : complete_external_arg (first_token lb.buffer) _ [] _ = r
      split
      · rename_i hc
        by_cases h2 : i + 1 < lb.bufsize
        · rw [if_pos h2]
          obtain ⟨-, t, ht⟩ := complete_external_arg_extends _ _ _ r.2
            (hr.trans (Prod.ext hc.1 rfl))
          simp only
          unfold snprintf_s
          have hle : (lb.buffer.drop (i + 1)).length ≤ lb.bufsize - (i + 1) - 1 := by
            rw [List.length_drop]
            omega
          rw [ht, List.take_append_eq_append_take, List.take_of_length_le hle]
          refine ⟨List.take (lb.bufsize - (i + 1) - 1 - (lb.buffer.drop (i + 1)).length) t, ?_⟩
          rw [← List.append_assoc, List.take_append_drop]
        · rw [if_neg h2]
          exact ⟨[], by simp⟩
      · exact ⟨[], by simp⟩
    · exact (tab_event_length env lb hlen).2
    · intro j hj hne
      have hij : i = j := Option.some.inj hj
      subst hij
      rw [hte]
      exact hnot hne
    · intro hcmd
      rw [hte]
      apply hnot
      intro h1
      exact hcmd (complete_external_arg_extends _ _ [] _ (Prod.ext h1 rfl)).1

set_option maxRecDepth 100000 in
/-- Witness of C26: after typing `gcc -Wal` the tab event appends `l`. -/
theorem flag_splice_appends_witness :
    (ripple_read_line env_only_cc [103, 99, 99, 32, 45, 87, 97, 108]
        = Step.next ⟨"gcc -Wal".toList, 1024⟩
      ∧ ' ' ∈ "gcc -Wal".toList)
    ∧ ∃ t, (tab_event env_only_cc ⟨"gcc -Wal".toList, 1024⟩).buffer = "gcc -Wal".toList ++ t :=
  ⟨⟨by decide, by decide⟩,
   (flag_splice_appends env_only_cc [103, 99, 99, 32, 45, 87, 97, 108]
      ⟨"gcc -Wal".toList, 1024⟩ (by decide) (by decide)).1⟩

/-! ## The tie-break does not depend on the order of the candidates -/

theorem pick_best_transfer (l1 l2 : List CStr) (hd2 : l2.Nodup)
    (h12 : ∀ x, x ∈ l1 → x ∈ l2) (h21 : ∀ x, x ∈ l2 → x ∈ l1)
    (b1 : Nat) (hb1 : b1 < l1.length)
    (h : pick_best_external_candidate l1 = (b1 : Int)) :
    ∃ b2, b2 < l2.length ∧ pick_best_external_candidate l2 = (b2 : Int)
      ∧ l1.getD b1 [] = l2.getD b2 [] := by
  have hne1 : l1 ≠ [] := by
    intro h0
    rw [h0] at hb1
    exact Nat.not_lt_zero _ hb1
  have hwin := ((pick_best_characterization l1 hne1).1 b1 hb1).1 h
  have hmem1 : l1.getD b1 [] ∈ l1 := by
    rw [List.getD_eq_getElem l1 [] hb1]
    exact List.getElem_mem hb1
  obtain ⟨b2, hb2, hb2e⟩ := List.mem_iff_getElem.1 (h12 _ hmem1)
  have hne2 : l2 ≠ [] := by
    intro h0
    rw [h0] at hb2
    exact Nat.not_lt_zero _ hb2
  have hget2 : l2.getD b2 [] = l1.getD b1 [] := by
    rw [List.getD_eq_getElem l2 [] hb2]
    exact hb2e
  refine ⟨b2, hb2, ?_, hget2.symm⟩
  apply ((pick_best_characterization l2 hne2).1 b2 hb2).2
  intro j hj hjb
  rw [hget2]
  have hmemj : l2.getD j [] ∈ l1 := by
    apply h21
    rw [List.getD_eq_getElem l2 [] hj]
    exact List.getElem_mem hj
  obtain ⟨k, hk, hke⟩ := List.mem_iff_getElem.1 hmemj
  have hkb : k ≠ b1 := by
    intro hkb
    subst hkb
    apply hjb
    have h1 : l2[j] = l2[b2] := by
      rw [hb2e, List.getD_eq_getElem l1 [] hk, hke, List.getD_eq_getElem l2 [] hj]
    exact (List.Nodup.getElem_inj_iff hd2).1 h1
  have := hwin k hk hkb
  rw [List.getD_eq_getElem l1 [] hk, hke] at this
  exact this

/-- C27.  The tie-break outcome does not depend on the order of the
candidates: for every list of pairwise distinct names and every permutation
of it, `pick_best_external_candidate` returns -1 on both, or returns a valid
index on both and the two indices select the same name. -/
theorem pick_best_order_independent (l1 l2 : List CStr)
    (hd : l1.Nodup) (hp : l1.Perm l2) :
    (pick_best_external_candidate l1 = -1 ∧ pick_best_external_candidate l2 = -1)
    ∨ ∃ b1 b2, b1 < l1.length ∧ b2 < l2.length
        ∧ pick_best_external_candidate l1 = (b1 : Int)
        ∧ pick_best_external_candidate l2 = (b2 : Int)
        ∧ l1.getD b1 [] = l2.getD b2 [] := by
  have hd2 : l2.Nodup := hp.nodup_iff.1 hd
  have h12 : ∀ x, x ∈ l1 → x ∈ l2 := fun x hx => hp.mem_iff.1 hx
  have h21 : ∀ x, x ∈ l2 → x ∈ l1 := fun x hx => hp.mem_iff.2 hx
  by_cases hne1 : l1 = []
  · subst hne1
    have : l2 = [] := List.Perm.nil_eq hp |>.symm
    subst this
    exact Or.inl ⟨rfl, rfl⟩
  · have hne2 : l2 ≠ [] := by
      intro h0
      subst h0
      exact hne1 (List.Perm.eq_nil hp)
    rcases (pick_best_characterization l1 hne1).2.2.1 with h1 | ⟨b1, hb1, h1⟩
    · rcases (pick_best_characterization l2 hne2).2.2.1 with h2 | ⟨b2, hb2, h2⟩
      · exact Or.inl ⟨h1, h2⟩
      · obtain ⟨b, -, hb, -⟩ := pick_best_transfer l2 l1 hd h21 h12 b2 hb2 h2
        rw [h1] at hb
        omega
    · obtain ⟨b2, hb2, h2, he⟩ := pick_best_transfer l1 l2 hd2 h12 h21 b1 hb1 h1
      exact Or.inr ⟨b1, b2, hb1, hb2, h1, h2, he⟩

/-- Witness of C27: `{gcc, gcc-12, gcov}` and its reversal both select `gcc`,
at index 0 and at index 2. -/
theorem pick_best_order_independent_witness :
    (["gcc".toList, "gcc-12".toList, "gcov".toList].Nodup
      ∧ ["gcc".toList, "gcc-12".toList, "gcov".toList].Perm
          ["gcov".toList, "gcc-12".toList, "gcc".toList])
    ∧ pick_best_external_candidate ["gcc".toList, "gcc-12".toList, "gcov".toList] = 0
    ∧ pick_best_external_candidate ["gcov".toList, "gcc-12".toList, "gcc".toList] = 2
    ∧ ((pick_best_external_candidate ["gcc".toList, "gcc-12".toList, "gcov".toList] = -1
        ∧ pick_best_external_candidate ["gcov".toList, "gcc-12".toList, "gcc".toList] = -1)
      ∨ ∃ b1 b2 : Nat, b1 < 3 ∧ b2 < 3
        ∧ pick_best_external_candidate ["gcc".toList, "gcc-12".toList, "gcov".toList] = (b1 : Int)
        ∧ pick_best_external_candidate ["gcov".toList, "gcc-12".toList, "gcc".toList] = (b2 : Int)
        ∧ ["gcc".toList, "gcc-12".toList, "gcov".toList].getD b1 []
            = ["gcov".toList, "gcc-12".toList, "gcc".toList].getD b2 []) :=
  ⟨⟨by decide, by decide⟩, by decide, by decide,
   pick_best_order_independent _ _ (by decide) (by decide)⟩

/-! ## `ripple_split_line` returns the maximal delimiter-free runs -/

theorem runs_prepend_delim (delims : List Char) (segs : List (CStr × CStr)) (trail : CStr)
    (c : Char) (hc : c ∈ delims) (h : RunsOf delims segs trail) :
    ∃ segs1 trail1, segs1.map Prod.snd = segs.map Prod.snd
      ∧ segs1.flatMap (fun p => p.1 ++ p.2) ++ trail1
          = c :: (segs.flatMap (fun p => p.1 ++ p.2) ++ trail)
      ∧ RunsOf delims segs1 trail1
      ∧ (∀ p ∈ segs1, p.1 ≠ []) := by
  obtain ⟨h1, h2, h3⟩ := h
  cases segs with
  | nil =>
    refine ⟨[], c :: trail, rfl, by simp, ⟨?_, by simp, by simp⟩, by simp⟩
    intro x hx
    rcases List.mem_cons.1 hx with hx | hx
    · rw [hx]; exact hc
    · exact h1 x hx
  | cons p rest =>
    refine ⟨(c :: p.1, p.2) :: rest, trail, by simp, by simp, ⟨h1, ?_, h3⟩, ?_⟩
    · intro q hq
      rcases List.mem_cons.1 hq with hq | hq
      · rw [hq]
        refine ⟨?_, (h2 p (List.mem_cons_self _ _)).2⟩
        intro x hx
        rcases List.mem_cons.1 hx with hx | hx
        · rw [hx]; exact hc
        · exact (h2 p (List.mem_cons_self _ _)).1 x hx
      · exact h2 q (List.mem_cons_of_mem _ hq)
    · intro q hq
      rcases List.mem_cons.1 hq with hq | hq
      · rw [hq]; simp
      · exact h3 q hq

theorem strtok_aux_runs (delims : List Char) (s cur : CStr) (hcur : ∀ c ∈ cur, c ∉ delims) :
    ∃ segs trail, strtok_aux delims s cur = segs.map Prod.snd
      ∧ cur ++ s = segs.flatMap (fun p => p.1 ++ p.2) ++ trail
      ∧ RunsOf delims segs trail
      ∧ (cur ≠ [] → ∀ p ∈ segs.head?, p.1 = []) := by
  induction s generalizing cur with
  | nil =>
    by_cases h0 : cur = []
    · subst h0
      exact ⟨[], [], by simp [strtok_aux], by simp, ⟨by simp, by simp, by simp⟩, by simp⟩
    · refine ⟨[([], cur)], [], by simp [strtok_aux, h0], by simp,
        ⟨by simp, ?_, by simp⟩, by simp⟩
      intro p hp
      rw [List.mem_singleton.1 hp]
      exact ⟨by simp, h0, hcur⟩
  | cons c t ih =>
    by_cases hc : c ∈ delims
    · obtain ⟨segs0, trail0, e1, e2, e3, -⟩ := ih [] (by simp)
      obtain ⟨segs1, trail1, f1, f2, f3, f4⟩ := runs_prepend_delim delims segs0 trail0 c hc e3
      rw [← e2, List.nil_append] at f2
      by_cases h0 : cur = []
      · subst h0
        refine ⟨segs1, trail1, ?_, ?_, f3, fun h => absurd rfl h⟩
        · simp only [strtok_aux, if_pos hc, if_true]
          rw [e1, f1]
        · rw [f2, List.nil_append]
      · refine ⟨([], cur) :: segs1, trail1, ?_, ?_, ⟨f3.1, ?_, ?_⟩, ?_⟩
        · simp only [strtok_aux, if_pos hc, if_neg h0, List.map_cons]
          rw [e1, f1]
        · simp only [List.flatMap_cons, List.nil_append, List.append_assoc]
          rw [f2]
        · intro p hp
          rcases List.mem_cons.1 hp with hp | hp
          · rw [hp]
            exact ⟨by simp, h0, hcur⟩
          · exact f3.2.1 p hp
        · intro p hp
          exact f4 p hp
        · intro _ p hp
          simp only [List.head?_cons, Option.mem_def, Option.some.injEq] at hp
          rw [← hp]
    · obtain ⟨segs0, trail0, e1, e2, e3, e4⟩ := ih (cur ++ [c]) (by
        intro x hx
        rcases List.mem_append.1 hx with hx | hx
        · exact hcur x hx
        · rw [List.mem_singleton.1 hx]; exact hc)
      refine ⟨segs0, trail0, ?_, ?_, e3, fun _ => e4 (by simp)⟩
      · simp only [strtok_aux, if_neg hc]
        exact e1
      · rw [← e2]
        simp

theorem strtok_aux_tokens_ok (delims : List Char) (s cur : CStr)
    (hcur : ∀ c ∈ cur, c ∉ delims) :
    ∀ t ∈ strtok_aux delims s cur, t ≠ [] ∧ ∀ c ∈ t, c ∉ delims := by
  obtain ⟨segs, trail, e1, -, e3, -⟩ := strtok_aux_runs delims s cur hcur
  intro t ht
  rw [e1] at ht
  obtain ⟨p, hp, hpt⟩ := List.mem_map.1 ht
  rw [← hpt]
  exact (e3.2.1 p hp).2

theorem strtok_aux_only_delims (delims : List Char) (s : CStr) (h : ∀ c ∈ s, c ∈ delims) :
    strtok_aux delims s [] = [] := by
  induction s with
  | nil => simp [strtok_aux]
  | cons c t ih =>
    simp only [strtok_aux, if_pos (h c (List.mem_cons_self _ _)), if_true]
    exact ih (fun x hx => h x (List.mem_cons_of_mem _ hx))

theorem split_loop_all (alloc : Nat → Bool) (halloc : ∀ n, alloc n = true)
    (toks : List CStr) (tb : TokBuf) (hpos : tb.tokens.length < tb.bufsize) :
    ∃ bs, split_loop alloc tb toks = some ⟨tb.tokens ++ toks, bs⟩
      ∧ tb.tokens.length + toks.length < bs := by
  induction toks generalizing tb with
  | nil => exact ⟨tb.bufsize, by simp [split_loop], by simpa using hpos⟩
  | cons t rest ih =>
    simp only [split_loop, halloc, if_true]
    by_cases hg : (tb.tokens ++ [t]).length ≥ tb.bufsize
    · rw [if_pos hg]
      obtain ⟨bs, h1, h2⟩ := ih ⟨tb.tokens ++ [t], tb.bufsize + RIPPLE_TOK_BUFSIZE⟩ (by
        simp only [List.length_append, List.length_singleton] at hg ⊢
        unfold RIPPLE_TOK_BUFSIZE
        omega)
      refine ⟨bs, ?_, ?_⟩
      · rw [h1]; simp
      · simp only [List.length_append, List.length_singleton, List.length_cons] at h2 ⊢
        omega
    · rw [if_neg hg]
      obtain ⟨bs, h1, h2⟩ := ih ⟨tb.tokens ++ [t], tb.bufsize⟩ (by
        simp only [List.length_append, List.length_singleton] at hg ⊢
        omega)
      refine ⟨bs, ?_, ?_⟩
      · rw [h1]; simp
      · simp only [List.length_append, List.length_singleton, List.length_cons] at h2 ⊢
        omega

theorem ripple_split_line_eq (alloc : Nat → Bool) (halloc : ∀ n, alloc n = true)
    (line : CStr) :
    ripple_split_line alloc line = some (strtok_tokens RIPPLE_TOK_DELIM line) := by
  unfold ripple_split_line
  rw [halloc, if_pos rfl]
  obtain ⟨bs, h1, -⟩ := split_loop_all alloc halloc (strtok_tokens RIPPLE_TOK_DELIM line)
    ⟨[], RIPPLE_TOK_BUFSIZE⟩ (by unfold RIPPLE_TOK_BUFSIZE; simp)
  rw [h1]
  simp

theorem strtok_tokens_many (n : Nat) :
    strtok_tokens RIPPLE_TOK_DELIM (List.replicate n ['a', ' ']).flatten
      = List.replicate n ['a'] := by
  unfold strtok_tokens
  induction n with
  | zero => simp [strtok_aux]
  | succ k ih =>
    rw [List.replicate_succ, List.flatten_cons]
    have h1 : 'a' ∉ RIPPLE_TOK_DELIM := by decide
    have h2 : ' ' ∈ RIPPLE_TOK_DELIM := by decide
    have h3 : ∀ r : CStr, strtok_aux RIPPLE_TOK_DELIM ('a' :: ' ' :: r) []
        = ['a'] :: strtok_aux RIPPLE_TOK_DELIM r [] := by
      intro r
      simp [strtok_aux, h1, h2]
    have h4 : ['a', ' '] ++ (List.replicate k ['a', ' ']).flatten
        = 'a' :: ' ' :: (List.replicate k ['a', ' ']).flatten := rfl
    rw [h4, h3, ih, List.replicate_succ]

theorem strtok_aux_skip_gap (delims : List Char) (g s : CStr) (hg : ∀ c ∈ g, c ∈ delims) :
    strtok_aux delims (g ++ s) [] = strtok_aux delims s [] := by
  induction g with
  | nil => rfl
  | cons c t ih =>
    rw [List.cons_append]
    simp only [strtok_aux, if_pos (hg c (List.mem_cons_self _ _)), if_true]
    exact ih (fun x hx => hg x (List.mem_cons_of_mem _ hx))

theorem strtok_aux_read_run (delims : List Char) (tk s cur : CStr)
    (htk : ∀ c ∈ tk, c ∉ delims) :
    strtok_aux delims (tk ++ s) cur = strtok_aux delims s (cur ++ tk) := by
  induction tk generalizing cur with
  | nil => simp
  | cons c t ih =>
    rw [List.cons_append]
    simp only [strtok_aux, if_neg (htk c (List.mem_cons_self _ _))]
    rw [ih (cur ++ [c]) (fun x hx => htk x (List.mem_cons_of_mem _ hx))]
    simp

theorem strtok_aux_layout (delims : List Char) (rest : List (CStr × CStr)) :
    ∀ (g tk trail : CStr), RunsOf delims ((g, tk) :: rest) trail →
      strtok_aux delims (g ++ tk ++ (rest.flatMap (fun p => p.1 ++ p.2) ++ trail)) []
        = tk :: rest.map Prod.snd := by
  induction rest with
  | nil =>
    intro g tk trail h
    obtain ⟨h1, h2, -⟩ := h
    obtain ⟨hg, hne, htk⟩ := h2 (g, tk) (List.mem_cons_self _ _)
    rw [List.append_assoc, strtok_aux_skip_gap delims g _ hg,
      strtok_aux_read_run delims tk _ [] htk]
    simp only [List.flatMap_nil, List.nil_append, List.map_nil]
    cases trail with
    | nil => simp [strtok_aux, hne]
    | cons d r =>
      simp only [strtok_aux, if_pos (h1 d (List.mem_cons_self _ _)), if_neg hne]
      rw [strtok_aux_only_delims delims r (fun x hx => h1 x (List.mem_cons_of_mem _ hx))]
  | cons q rest ih =>
    intro g tk trail h
    obtain ⟨h1, h2, h3⟩ := h
    obtain ⟨hg, hne, htk⟩ := h2 (g, tk) (List.mem_cons_self _ _)
    obtain ⟨hqg, hqne, hqtk⟩ := h2 q (List.mem_cons_of_mem _ (List.mem_cons_self _ _))
    have hq1 : q.1 ≠ [] := h3 q (by simp)
    rw [List.append_assoc, strtok_aux_skip_gap delims g _ hg,
      strtok_aux_read_run delims tk _ [] htk]
    simp only [List.flatMap_cons, List.nil_append, List.map_cons]
    cases hq : q.1 with
    | nil => exact absurd hq hq1
    | cons d g2 =>
      have hd : d ∈ delims := hqg d (by rw [hq]; simp)
      simp only [List.cons_append, List.append_assoc, strtok_aux, if_pos hd, if_neg hne]
      have := ih g2 q.2 trail ⟨h1, ?_, ?_⟩
      · rw [← this]
        congr 2
        exact List.append_assoc (g2 ++ q.2) _ trail
      · intro p hp
        rcases List.mem_cons.1 hp with hp | hp
        · rw [hp]
          exact ⟨fun c hc => hqg c (by rw [hq]; exact List.mem_cons_of_mem _ hc), hqne, hqtk⟩
        · exact h2 p (List.mem_cons_of_mem _ (List.mem_cons_of_mem _ hp))
      · intro p hp
        exact h3 p (by
          simp only [List.tail_cons] at hp ⊢
          exact List.mem_cons_of_mem _ hp)

theorem maximal_runs_unique (delims : List Char) (line : CStr) (tokens : List CStr)
    (h : MaximalRuns delims line tokens) : tokens = strtok_tokens delims line := by
  obtain ⟨segs, trail, e1, e2, e3⟩ := h
  unfold strtok_tokens
  rw [e1, e2]
  cases segs with
  | nil =>
    simp only [List.flatMap_nil, List.nil_append, List.map_nil]
    exact (strtok_aux_only_delims delims trail e3.1).symm
  | cons p rest =>
    have := strtok_aux_layout delims rest p.1 p.2 trail e3
    simp only [List.flatMap_cons, List.map_cons, List.append_assoc] at this ⊢
    exact this.symm

/-- C30.  Where its allocations succeed, `ripple_split_line` returns for every
line, in left-to-right order, exactly the maximal runs of characters that hold
none of the delimiters space, tab, carriage return, newline and bell: the line
is laid out as delimiter gaps and the returned tokens, and no other list of
tokens has such a layout; every token is non-empty and delimiter-free, the
list is empty for a line made only of delimiters, and the count is not limited
by the initial capacity of 64 (a line of `n` words gives `n` tokens, for every
`n`). -/
theorem ripple_split_line_maximal_runs (alloc : Nat → Bool) (line : CStr)
    (halloc : ∀ n, alloc n = true) :
    (∃ tokens, ripple_split_line alloc line = some tokens
      ∧ MaximalRuns RIPPLE_TOK_DELIM line tokens
      ∧ (∀ other, MaximalRuns RIPPLE_TOK_DELIM line other → other = tokens)
      ∧ (∀ t ∈ tokens, t ≠ [] ∧ ∀ c ∈ t, c ∉ RIPPLE_TOK_DELIM)
      ∧ ((∀ c ∈ line, c ∈ RIPPLE_TOK_DELIM) → tokens = []))
    ∧ (∀ n, ripple_split_line alloc (List.replicate n ['a', ' ']).flatten
        = some (List.replicate n ['a'])) := by
  refine ⟨⟨strtok_tokens RIPPLE_TOK_DELIM line, ripple_split_line_eq alloc halloc line,
    ?_, ?_, ?_, ?_⟩, ?_⟩
  · obtain ⟨segs, trail, e1, e2, e3, -⟩ := strtok_aux_runs RIPPLE_TOK_DELIM line [] (by simp)
    exact ⟨segs, trail, e1, by rw [← e2, List.nil_append], e3⟩
  · exact fun other h => maximal_runs_unique RIPPLE_TOK_DELIM line other h
  · exact strtok_aux_tokens_ok RIPPLE_TOK_DELIM line [] (by simp)
  · exact strtok_aux_only_delims RIPPLE_TOK_DELIM line
  · intro n
    rw [ripple_split_line_eq alloc halloc, strtok_tokens_many]

/-- Witness of C30: `ls  -l` followed by a tab splits into `ls` and `-l`. -/
theorem ripple_split_line_maximal_runs_witness :
    (∀ n, (fun _ : Nat => true) n = true)
    ∧ ripple_split_line (fun _ => true) "ls  -l\t".toList = some ["ls".toList, "-l".toList]
    ∧ ∃ tokens, ripple_split_line (fun _ => true) "ls  -l\t".toList = some tokens
      ∧ MaximalRuns RIPPLE_TOK_DELIM "ls  -l\t".toList tokens
      ∧ (∀ other, MaximalRuns RIPPLE_TOK_DELIM "ls  -l\t".toList other → other = tokens)
      ∧ (∀ t ∈ tokens, t ≠ [] ∧ ∀ c ∈ t, c ∉ RIPPLE_TOK_DELIM)
      ∧ ((∀ c ∈ "ls  -l\t".toList, c ∈ RIPPLE_TOK_DELIM) → tokens = []) :=
  ⟨fun _ => rfl, by decide,
   (ripple_split_line_maximal_runs (fun _ => true) "ls  -l\t".toList (fun _ => rfl)).1⟩

/-! ## `print_first_n_nonempty_lines` -/

theorem dropWhile_head_false (f : Char → Bool) (p : CStr) (d : Char) (r : CStr)
    (h : p.dropWhile f = d :: r) : f d = false := by
  induction p with
  | nil => simp at h
  | cons c t ih =>
    by_cases hc : f c = true
    · rw [List.dropWhile_cons_of_pos hc] at h
      exact ih h
    · rw [List.dropWhile_cons_of_neg hc] at h
      have := (List.cons.inj h).1
      rw [← this]
      simpa using hc

theorem drop_length_takeWhile (f : Char → Bool) (l : CStr) :
    l.drop (l.takeWhile f).length = l.dropWhile f := by
  induction l with
  | nil => rfl
  | cons c t ih =>
    by_cases hc : f c = true
    · rw [List.takeWhile_cons_of_pos hc, List.dropWhile_cons_of_pos hc]
      simpa using ih
    · rw [List.takeWhile_cons_of_neg hc, List.dropWhile_cons_of_neg hc]
      rfl

theorem split_lines_eq (p : CStr) :
    split_lines p = p.takeWhile (fun c => !is_eol c)
      :: (match p.dropWhile (fun c => !is_eol c) with
          | [] => []
          | _ :: r => split_lines r) := by
  induction p with
  | nil => rfl
  | cons c t ih =>
    by_cases hc : is_eol c = true
    · simp [split_lines, hc]
    · simp only [split_lines, if_neg hc]
      rw [ih]
      simp [hc]

theorem nonempty_trimmed_lines_nil : nonempty_trimmed_lines [] = [] := by
  simp [nonempty_trimmed_lines, split_lines]

theorem nonempty_trimmed_lines_skip (p : CStr) :
    nonempty_trimmed_lines p = nonempty_trimmed_lines (p.dropWhile is_eol) := by
  induction p with
  | nil => rfl
  | cons c t ih =>
    by_cases hc : is_eol c = true
    · rw [List.dropWhile_cons_of_pos hc, ← ih]
      simp [nonempty_trimmed_lines, split_lines, hc]
    · rw [List.dropWhile_cons_of_neg hc]

theorem nonempty_trimmed_lines_step (p : CStr) :
    nonempty_trimmed_lines p
      = (if (p.takeWhile (fun c => !is_eol c)).all is_blank then []
          else [trim (p.takeWhile (fun c => !is_eol c))])
        ++ nonempty_trimmed_lines (p.dropWhile (fun c => !is_eol c)) := by
  have hrest : (match p.dropWhile (fun c => !is_eol c) with
          | [] => []
          | _ :: r => split_lines r).filter (fun l => !l.all is_blank)
        = (split_lines (p.dropWhile (fun c => !is_eol c))).filter (fun l => !l.all is_blank) := by
    cases hd : p.dropWhile (fun c => !is_eol c) with
    | nil => simp [split_lines]
    | cons d r =>
      have := dropWhile_head_false _ p d r hd
      simp only [Bool.not_eq_false_eq_eq_true, Bool.not_eq_eq_eq_not, Bool.not_false] at this
      simp [split_lines, this]
  unfold nonempty_trimmed_lines
  rw [← hrest]
  conv_lhs => rw [split_lines_eq p]
  by_cases hb : (p.takeWhile (fun c => !is_eol c)).all is_blank = true
  · rw [if_pos hb, List.filter_cons_of_neg (by simp [hb])]
    rfl
  · rw [if_neg hb, List.filter_cons_of_pos (by simpa using hb)]
    rfl

theorem int_cast_small (k : Nat) (h : k < 2 ^ 31) : int_cast k = (k : Int) := by
  unfold int_cast
  have h1 : k % 2 ^ 32 = k := Nat.mod_eq_of_lt (by omega)
  rw [h1, if_pos h]

theorem printf_prec_nat (k : Nat) (p : CStr) : printf_prec (k : Int) p = p.take k := by
  unfold printf_prec
  rw [if_neg (by omega), Int.toNat_ofNat]

theorem trim_all_blank (line : CStr) :
    (0 < ((line.dropWhile is_blank).reverse.dropWhile is_blank).length)
      ↔ ¬ line.all is_blank = true := by
  rw [List.length_pos]
  constructor
  · intro h hall
    apply h
    have : line.dropWhile is_blank = [] := by
      rw [List.dropWhile_eq_nil_iff]
      exact fun c hc => List.all_eq_true.1 hall c hc
    rw [this]
    rfl
  · intro h hnil
    apply h
    cases hb : line.dropWhile is_blank with
    | nil =>
      rw [List.dropWhile_eq_nil_iff] at hb
      exact List.all_eq_true.2 hb
    | cons d r =>
      have hd := dropWhile_head_false _ _ d r hb
      rw [hb, List.dropWhile_eq_nil_iff] at hnil
      have := hnil d (by simp)
      rw [hd] at this
      exact absurd this (by decide)

theorem line_output (p1 : CStr) (hlen : p1.length < 2 ^ 31) :
    printf_prec
        (int_cast (((p1.takeWhile (fun c => !is_eol c)).dropWhile is_blank).reverse.dropWhile
          is_blank).length)
        (p1.drop ((p1.takeWhile (fun c => !is_eol c)).takeWhile is_blank).length)
      = trim (p1.takeWhile (fun c => !is_eol c)) := by
  have hp1 : p1.takeWhile (fun c => !is_eol c) ++ p1.dropWhile (fun c => !is_eol c) = p1 :=
    List.takeWhile_append_dropWhile _ _
  generalize p1.takeWhile (fun c => !is_eol c) = line at hp1 ⊢
  generalize p1.dropWhile (fun c => !is_eol c) = e at hp1
  subst hp1
  have hlead : (line.takeWhile is_blank).length ≤ line.length :=
    (List.takeWhile_sublist _).length_le
  rw [List.drop_append_of_le_length hlead, drop_length_takeWhile]
  have hpre : ((line.dropWhile is_blank).reverse.dropWhile is_blank).reverse
      <+: line.dropWhile is_blank := List.rdropWhile_prefix _ _
  have hle : ((line.dropWhile is_blank).reverse.dropWhile is_blank).length
      ≤ (line.dropWhile is_blank).length := by
    have := hpre.length_le
    rwa [List.length_reverse] at this
  have hle2 : (line.dropWhile is_blank).length ≤ line.length :=
    (List.dropWhile_sublist _).length_le
  rw [List.length_append] at hlen
  rw [int_cast_small _ (by omega), printf_prec_nat, List.take_append_of_le_length hle]
  have := List.prefix_iff_eq_take.1 hpre
  rw [List.length_reverse] at this
  unfold trim
  exact this.symm

theorem print_lines_loop_spec (n : Int) (fuel : Nat) (p : CStr) (printed : Nat)
    (hf : p.length < fuel) (hlen : p.length < 2 ^ 31) :
    print_lines_loop n fuel p printed
      = some ((nonempty_trimmed_lines p).take (n.toNat - printed)) := by
  induction fuel generalizing p printed with
  | zero => exact absurd hf (Nat.not_lt_zero _)
  | succ fuel ih =>
    unfold print_lines_loop
    by_cases hcond : p ≠ [] ∧ (printed : Int) < n
    · rw [if_pos hcond]
      simp only
      have hlt : printed < n.toNat := by omega
      rw [nonempty_trimmed_lines_skip p]
      have hp1len : (p.dropWhile is_eol).length ≤ p.length :=
        (List.dropWhile_sublist _).length_le
      have hhead : ∀ d r, p.dropWhile is_eol = d :: r → is_eol d = false :=
        fun d r h => dropWhile_head_false _ p d r h
      generalize p.dropWhile is_eol = p1 at hp1len hhead ⊢
      by_cases h1 : p1 = []
      · rw [if_pos h1, h1, nonempty_trimmed_lines_nil, List.take_nil]
      · rw [if_neg h1, drop_length_takeWhile, nonempty_trimmed_lines_step p1,
          line_output p1 (by omega)]
        have he : (p1.dropWhile (fun c => !is_eol c)).length < p1.length := by
          cases p1 with
          | nil => exact absurd rfl h1
          | cons d r =>
            have hd := hhead d r rfl
            rw [List.dropWhile_cons_of_pos (by simp [hd])]
            have := (List.dropWhile_sublist (fun c => !is_eol c) (l := r)).length_le
            simp only [List.length_cons]
            omega
        by_cases hall : (p1.takeWhile (fun c => !is_eol c)).all is_blank = true
        · rw [if_neg (fun h => (trim_all_blank _).1 h hall), if_pos hall, List.nil_append]
          exact ih _ printed (by omega) (by omega)
        · rw [if_pos ((trim_all_blank _).2 hall), if_neg hall,
            ih _ (printed + 1) (by omega) (by omega)]
          have hsub : n.toNat - printed = (n.toNat - (printed + 1)) + 1 := by omega
          rw [hsub]
          rfl
    · rw [if_neg hcond]
      by_cases hp : p = []
      · rw [hp, nonempty_trimmed_lines_nil, List.take_nil]
      · have : n.toNat - printed = 0 := by
          have : ¬ (printed : Int) < n := fun h => hcond ⟨hp, h⟩
          omega
        rw [this]
        rfl

theorem split_lines_props (text : CStr) :
    (∀ l ∈ split_lines text, ∀ c ∈ l, is_eol c = false)
    ∧ (split_lines text).length = (text.filter is_eol).length + 1
    ∧ (split_lines text).flatten = text.filter (fun c => !is_eol c) := by
  induction text with
  | nil => simp [split_lines]
  | cons c t ih =>
    obtain ⟨h1, h2, h3⟩ := ih
    by_cases hc : is_eol c = true
    · simp only [split_lines, if_pos hc]
      refine ⟨?_, ?_, ?_⟩
      · intro l hl
        rcases List.mem_cons.1 hl with hl | hl
        · rw [hl]; simp
        · exact h1 l hl
      · simp [h2, hc]
      · simp [h3, hc]
    · simp only [split_lines, if_neg hc]
      cases hs : split_lines t with
      | nil => rw [hs] at h2; simp at h2
      | cons l ls =>
        rw [hs] at h1 h2 h3
        simp only
        refine ⟨?_, ?_, ?_⟩
        · intro x hx
          rcases List.mem_cons.1 hx with hx | hx
          · rw [hx]
            intro d hd
            rcases List.mem_cons.1 hd with hd | hd
            · rw [hd]; simpa using hc
            · exact h1 l (List.mem_cons_self _ _) d hd
          · exact h1 x (List.mem_cons_of_mem _ hx)
        · simp only [List.length_cons] at h2 ⊢
          rw [h2, List.filter_cons_of_neg hc]
        · simp only [List.flatten_cons, List.cons_append] at h3 ⊢
          rw [h3, List.filter_cons_of_pos (by simpa using hc)]

theorem trim_spec (l : CStr) :
    ∃ a b, l = a ++ trim l ++ b
      ∧ (∀ c ∈ a, is_blank c = true) ∧ (∀ c ∈ b, is_blank c = true)
      ∧ (∀ c ∈ (trim l).head?, is_blank c = false)
      ∧ (∀ c ∈ (trim l).getLast?, is_blank c = false) := by
  have hsplit : (l.dropWhile is_blank).reverse.takeWhile is_blank
      ++ (l.dropWhile is_blank).reverse.dropWhile is_blank = (l.dropWhile is_blank).reverse :=
    List.takeWhile_append_dropWhile _ _
  have hbody : l.dropWhile is_blank
      = trim l ++ ((l.dropWhile is_blank).reverse.takeWhile is_blank).reverse := by
    unfold trim
    rw [← List.reverse_append, hsplit, List.reverse_reverse]
  refine ⟨l.takeWhile is_blank, ((l.dropWhile is_blank).reverse.takeWhile is_blank).reverse,
    ?_, ?_, ?_, ?_, ?_⟩
  · rw [List.append_assoc, ← hbody, List.takeWhile_append_dropWhile]
  · intro c hc
    exact List.mem_takeWhile_imp hc
  · intro c hc
    exact List.mem_takeWhile_imp (List.mem_reverse.1 hc)
  · intro c hc
    cases ht : trim l with
    | nil => rw [ht] at hc; simp at hc
    | cons d r =>
      rw [ht] at hc hbody
      simp only [List.head?_cons, Option.mem_def, Option.some.injEq] at hc
      rw [← hc]
      exact dropWhile_head_false _ l d _ hbody
  · intro c hc
    unfold trim at hc
    rw [List.getLast?_reverse] at hc
    cases hx : (l.dropWhile is_blank).reverse.dropWhile is_blank with
    | nil => rw [hx] at hc; simp at hc
    | cons d r =>
      rw [hx] at hc
      simp only [List.head?_cons, Option.mem_def, Option.some.injEq] at hc
      rw [← hc]
      exact dropWhile_head_false _ _ d r hx

/-- C21.  For every text shorter than 2^31 characters (the range of the `int`
length passed to `printf`) and every `n > 0`,
`print_first_n_nonempty_lines(text, n)` terminates and prints, in order,
exactly the first `min(n, k)` of the `k` lines of the text, split at `\n` or
`\r`, that are not made only of spaces and tabs, each trimmed.  The lines of
a text hold no terminator, are one more than the terminators, and concatenate
to the text without its terminators; a trimmed line is the line without a
leading and a trailing block of spaces and tabs, and neither starts nor ends
with one. -/
theorem print_first_n_nonempty_lines_spec (text : CStr) (n : Int)
    (hn : 0 < n) (hlen : text.length < 2 ^ 31) :
    print_first_n_nonempty_lines text n
      = some ((((split_lines text).filter (fun l => !l.all is_blank)).map trim).take n.toNat)
    ∧ ((((split_lines text).filter (fun l => !l.all is_blank)).map trim).take n.toNat).length
        = min n.toNat ((split_lines text).filter (fun l => !l.all is_blank)).length
    ∧ ((∀ l ∈ split_lines text, ∀ c ∈ l, is_eol c = false)
        ∧ (split_lines text).length = (text.filter is_eol).length + 1
        ∧ (split_lines text).flatten = text.filter (fun c => !is_eol c))
    ∧ (∀ l : CStr, ∃ a b, l = a ++ trim l ++ b
        ∧ (∀ c ∈ a, is_blank c = true) ∧ (∀ c ∈ b, is_blank c = true)
        ∧ (∀ c ∈ (trim l).head?, is_blank c = false)
        ∧ (∀ c ∈ (trim l).getLast?, is_blank c = false)) := by
  refine ⟨?_, by simp, split_lines_props text, trim_spec⟩
  unfold print_first_n_nonempty_lines
  rw [if_neg (by omega), print_lines_loop_spec n _ text 0 (by omega) hlen]
  rfl

set_option maxRecDepth 100000 in
/-- Witness of C21: with `n = 3` a description of four non-empty lines is cut
to its first three, trimmed. -/
theorem print_first_n_nonempty_lines_spec_witness :
    ((0 : Int) < 3 ∧ four_line_text.length < 2 ^ 31)
    ∧ print_first_n_nonempty_lines four_line_text 3
        = some ["Lists files.".toList, "Usage: ls [dir]".toList, "Example: ls -l".toList]
    ∧ print_first_n_nonempty_lines four_line_text 3
        = some ((((split_lines four_line_text).filter (fun l => !l.all is_blank)).map trim).take 3) :=
  ⟨⟨by decide, by decide⟩, by decide,
   (print_first_n_nonempty_lines_spec four_line_text 3 (by decide) (by decide)).1⟩

/-! ## Leaving the loop and the raw terminal session -/

theorem read_loop_alloc_growth_fails (env : Env) (k : Nat) (lb : LineBuf)
    (hb : lb.bufsize = RIPPLE_RL_BUFSIZE) (hk : lb.buffer.length + k = 1023) :
    read_loop_alloc (fun n => decide (n ≤ 1024)) env lb (List.replicate (k + 1) 97)
      = ReadEnd.exit_failure := by
  have step : ∀ (lb : LineBuf) (c : Int) (rest : List Int),
      read_loop_alloc (fun n => decide (n ≤ 1024)) env lb (c :: rest)
        = if (c ≥ 32 ∧ c < 127) ∧ lb.buffer.length ≥ lb.bufsize - 1
              ∧ (fun n => decide (n ≤ 1024)) (lb.bufsize + RIPPLE_RL_BUFSIZE) = false then
            ReadEnd.exit_failure
          else
            match read_step env lb c with
            | Step.next lb1 => read_loop_alloc (fun n => decide (n ≤ 1024)) env lb1 rest
            | Step.ret (some l) => ReadEnd.line l rest
            | Step.ret none => ReadEnd.null rest := fun _ _ _ => rfl
  induction k generalizing lb with
  | zero =>
    rw [List.replicate_succ, step, if_pos]
    refine ⟨by omega, ?_, ?_⟩
    · rw [hb]; unfold RIPPLE_RL_BUFSIZE; omega
    · rw [hb]; unfold RIPPLE_RL_BUFSIZE; decide
  | succ k ih =>
    have hlt : ¬ lb.buffer.length ≥ lb.bufsize - 1 := by
      rw [hb]; unfold RIPPLE_RL_BUFSIZE; omega
    rw [List.replicate_succ, step, if_neg (fun h => hlt h.2.1),
      (read_step_cases env lb 97).1 (by omega), if_neg hlt]
    simp only
    apply ih
    · exact hb
    · simp only [List.length_append, List.length_singleton]
      omega

set_option maxRecDepth 100000 in
/-- C22 (evaluation of the code).  `ripple_loop` on a terminal: when the
`malloc` of `ripple_read_line` fails, and when the `realloc` for the 1024th
character of a line fails, the process ends through `exit(EXIT_FAILURE)` with
the attributes that `enable_raw_mode` set, for which `is_raw_mode` holds: no
`disable_raw_mode` ran.  On end of input at an empty buffer and on the `exit`
command the loop returns after `disable_raw_mode`, and `is_raw_mode` no longer
holds. -/
theorem ripple_loop_exit_leaves_raw_mode :
    (∀ (env : Env) (other : Nat → List CStr → Int) (launch : List CStr → Int)
        (status0 : Int) (input : List Int),
        ripple_loop linux_termios true (fun _ => false) (fun _ => true) env other launch
            status0 input cooked_terminal
          = ProcEnd.exited (enable_raw_mode linux_termios true cooked_terminal))
    ∧ (∀ (env : Env) (other : Nat → List CStr → Int) (launch : List CStr → Int)
        (status0 : Int),
        ripple_loop linux_termios true (fun n => decide (n ≤ 1024)) (fun _ => true) env other
            launch status0 (List.replicate 1024 97) cooked_terminal
          = ProcEnd.exited (enable_raw_mode linux_termios true cooked_terminal))
    ∧ is_raw_mode linux_termios true (enable_raw_mode linux_termios true cooked_terminal) = true
    ∧ ripple_loop linux_termios true (fun _ => true) (fun _ => true) env_only_cc
          (fun _ _ => 1) (fun _ => 1) 1 [EOF] cooked_terminal
        = ProcEnd.returned (disable_raw_mode linux_termios true
            (enable_raw_mode linux_termios true cooked_terminal))
    ∧ ripple_loop linux_termios true (fun _ => true) (fun _ => true) env_only_cc
          (fun _ _ => 1) (fun _ => 1) 1 [101, 120, 105, 116, 10] cooked_terminal
        = ProcEnd.returned (disable_raw_mode linux_termios true
            (enable_raw_mode linux_termios true cooked_terminal))
    ∧ is_raw_mode linux_termios true (disable_raw_mode linux_termios true
        (enable_raw_mode linux_termios true cooked_terminal)) = false := by
  refine ⟨?_, ?_, by decide, by decide, by decide, by decide⟩
  · intro env other launch status0 input
    rfl
  · intro env other launch status0
    unfold ripple_loop
    have h : ripple_read_line_alloc (fun n => decide (n ≤ 1024)) env (List.replicate 1024 97)
        = ReadEnd.exit_failure := by
      unfold ripple_read_line_alloc
      rw [if_pos (by unfold RIPPLE_RL_BUFSIZE; decide)]
      exact read_loop_alloc_growth_fails env 1023 _ rfl (by simp)
    simp only [List.length_replicate, ripple_loop_iter, h]
